import Mathlib

/-!
SimpleLICM: loop-invariant code motion.

A shallow embedding of `SimpleLICMPass` (src/SimpleLICM.cpp): the invariant
classifier `isLoopInvariant`, the memory-write check `isInvariantLoad`, the
hoisting sweep `hoistInvariantInstructions` and the `run` wrapper.

Instructions and basic blocks are identified by natural numbers.  The
function body is one ordered list of instruction identities (`layout`)
together with the block each instruction belongs to (`parent`); the
instruction sequence of a block is the sub-sequence of the layout with that
parent.  Relocating an instruction unlinks it from the layout, links it
again in front of the target instruction and gives it the target's parent.

The recursion of `isLoopInvariant` is not structurally bounded in the
source, so it is given a recursion-depth budget (`fuel`); the result `none`
means that the budget was exhausted.
-/

namespace SimpleLICM

/-- Operand kinds (`llvm::Value`): constants, function arguments, instruction
results and everything else (block labels, metadata, ...). -/
inductive Value where
  | const (n : Nat)
  | arg (n : Nat)
  | inst (id : Nat)
  | other (n : Nat)
  deriving DecidableEq

/-- Instruction kinds that the pass distinguishes with `dyn_cast` and `isa`. -/
inductive Opcode where
  | load
  | store
  | phi
  | other
  deriving DecidableEq

/-- An instruction: its kind, its ordered operands and the three host
oracles `isTerminator`, `mayHaveSideEffects`, `isSafeToSpeculativelyExecute`. -/
structure Instr where
  opcode : Opcode
  operands : List Value
  isTerminator : Bool
  mayHaveSideEffects : Bool
  isSafeToSpeculativelyExecute : Bool

/-- The function under transformation. -/
structure Graph where
  layout : List Nat
  parent : Nat → Nat
  instr : Nat → Instr

/-- The loop view: its blocks in order and its optional preheader. -/
structure Loop where
  blocks : List Nat
  preheader : Option Nat

/-- The dominator oracle. -/
structure DominatorTree where
  dominates : Nat → Nat → Bool

/-- The result of `run`. -/
inductive PreservedAnalyses where
  | all
  | none
  deriving DecidableEq

/-- The instruction sequence of block `b` (iteration `for (auto &I : *bb)`). -/
def Graph.insts (g : Graph) (b : Nat) : List Nat :=
  g.layout.filter (fun i => decide (g.parent i = b))

/-- Membership test `L->contains(BB)`. -/
def Loop.contains (L : Loop) (b : Nat) : Bool :=
  decide (b ∈ L.blocks)

/-- Address operand: `LoadInst::getPointerOperand` is operand 0,
`StoreInst::getPointerOperand` is operand 1. -/
def getPointerOperand (ins : Instr) : Option Value :=
  match ins.opcode with
  | Opcode.load => ins.operands[0]?
  | Opcode.store => ins.operands[1]?
  | _ => Option.none

/-- The instructions that use the result of `i` (`I->users()`). -/
def Graph.users (g : Graph) (i : Nat) : List Nat :=
  g.layout.filter (fun u => decide (Value.inst i ∈ (g.instr u).operands))

/-- Memory-write check `SimpleLICMPass::isInvariantLoad`: false as soon as a
store in a block of the loop has the same address operand. -/
def isInvariantLoad (g : Graph) (L : Loop) (li : Nat) : Bool :=
  !(L.blocks.any (fun bb =>
      (g.insts bb).any (fun i =>
        decide ((g.instr i).opcode = Opcode.store) &&
          decide (getPointerOperand (g.instr i) = getPointerOperand (g.instr li)))))

/-- The operand loop of `isLoopInvariant` for instruction `i`;
`recCall` is the recursive call. -/
def checkOperands (g : Graph) (L : Loop) (recCall : Nat → Option Bool) (i : Nat) :
    List Value → Option Bool
  | [] => some true
  | Value.const _ :: rest => checkOperands g L recCall i rest
  | Value.arg _ :: rest => checkOperands g L recCall i rest
  | Value.inst j :: rest =>
    if L.contains (g.parent j) then
      if (g.instr j).opcode = Opcode.phi ∧ g.parent j = g.parent i then some false
      else
        match recCall j with
        | Option.none => Option.none
        | some false => some false
        | some true => checkOperands g L recCall i rest
    else checkOperands g L recCall i rest
  | Value.other _ :: _ => some false

/-- Invariant classifier `SimpleLICMPass::isLoopInvariant` with a
recursion-depth budget. -/
def isLoopInvariant (g : Graph) (L : Loop) : Nat → Nat → Option Bool
  | 0, _ => Option.none
  | fuel + 1, i =>
    if L.contains (g.parent i) = false then some true
    else if (g.instr i).opcode = Opcode.load then some (isInvariantLoad g L i)
    else checkOperands g L (isLoopInvariant g L fuel) i (g.instr i).operands

/-- All instructions of the loop in enumeration order (blocks in order,
instructions in block order). -/
def loopInsts (g : Graph) (L : Loop) : List Nat :=
  L.blocks.flatMap (fun bb => g.insts bb)

/-- Candidate enumeration (first loop of `hoistInvariantInstructions`). -/
def collectInvariants (g : Graph) (L : Loop) (fuel : Nat) : List Nat → Option (List Nat)
  | [] => some []
  | i :: rest =>
    if (g.instr i).isTerminator then collectInvariants g L fuel rest
    else
      match isLoopInvariant g L fuel i with
      | Option.none => Option.none
      | some b =>
        match collectInvariants g L fuel rest with
        | Option.none => Option.none
        | some cs => some (if b then i :: cs else cs)

/-- The terminator of a block (`BasicBlock::getTerminator`): its last
instruction when that is a terminator. -/
def getTerminator (g : Graph) (b : Nat) : Option Nat :=
  match (g.insts b).getLast? with
  | some t => if (g.instr t).isTerminator then some t else Option.none
  | Option.none => Option.none

/-- Link `i` in front of the first occurrence of `t`. -/
def insertBefore (t i : Nat) : List Nat → List Nat
  | [] => [i]
  | x :: xs => if x = t then i :: x :: xs else x :: insertBefore t i xs

/-- Relocation `I->moveBefore(T)`: unlink `i`, link it in front of `t`, in
the block of `t`. -/
def moveBefore (g : Graph) (i t : Nat) : Graph :=
  Graph.mk (insertBefore t i (g.layout.erase i))
    (fun x => if x = i then g.parent t else g.parent x) g.instr

/-- The state of the relocation loop: the graph, the `changed` flag and the
instructions reported by the "Hoisting:" diagnostic, in order. -/
structure HoistState where
  graph : Graph
  changed : Bool
  hoisted : List Nat

/-- Operand readiness (`allOperandsAvailable`). -/
def allOperandsAvailable (g : Graph) (L : Loop) (i : Nat) : Bool :=
  (g.instr i).operands.all (fun op =>
    match op with
    | Value.inst j => !(L.contains (g.parent j))
    | _ => true)

/-- Dominance of uses (`safeToHoist`). -/
def safeToHoist (g : Graph) (dt : DominatorTree) (pre i : Nat) : Bool :=
  (g.users i).all (fun u => dt.dominates pre (g.parent u))

/-- One iteration of the relocation loop, for candidate `i`.  The result is
`none` when the preheader has no terminator to move in front of. -/
def hoistStep (L : Loop) (dt : DominatorTree) (pre : Nat) (st : HoistState) (i : Nat) :
    Option HoistState :=
  if L.contains (st.graph.parent i) = false then some st
  else if allOperandsAvailable st.graph L i && !(st.graph.instr i).mayHaveSideEffects
      && (st.graph.instr i).isSafeToSpeculativelyExecute then
    if safeToHoist st.graph dt pre i then
      match getTerminator st.graph pre with
      | Option.none => Option.none
      | some t => some (HoistState.mk (moveBefore st.graph i t) true (st.hoisted ++ [i]))
    else some st
  else some st

/-- The relocation loop over the candidate list. -/
def relocate (L : Loop) (dt : DominatorTree) (pre : Nat) :
    HoistState → List Nat → Option HoistState
  | st, [] => some st
  | st, i :: rest =>
    match hoistStep L dt pre st i with
    | Option.none => Option.none
    | some st1 => relocate L dt pre st1 rest

/-- The sweep `SimpleLICMPass::hoistInvariantInstructions`. -/
def hoistInvariantInstructions (fuel : Nat) (g : Graph) (L : Loop) (dt : DominatorTree) :
    Option HoistState :=
  match L.preheader with
  | Option.none => some (HoistState.mk g false [])
  | some pre =>
    match collectInvariants g L fuel (loopInsts g L) with
    | Option.none => Option.none
    | some cands => relocate L dt pre (HoistState.mk g false []) cands

/-- The pass entry point `SimpleLICMPass::run`. -/
def run (fuel : Nat) (g : Graph) (L : Loop) (dt : DominatorTree) :
    Option (PreservedAnalyses × Graph) :=
  match L.preheader with
  | Option.none => some (PreservedAnalyses.all, g)
  | some _ =>
    match hoistInvariantInstructions fuel g L dt with
    | Option.none => Option.none
    | some st =>
      some (if st.changed then PreservedAnalyses.none else PreservedAnalyses.all, st.graph)

/-- The gates that one relocation step checks before it moves candidate `i`. -/
def Gate (g : Graph) (L : Loop) (dt : DominatorTree) (pre i : Nat) : Prop :=
  L.contains (g.parent i) = true ∧ allOperandsAvailable g L i = true ∧
    (g.instr i).mayHaveSideEffects = false ∧
    (g.instr i).isSafeToSpeculativelyExecute = true ∧ safeToHoist g dt pre i = true

instance (g : Graph) (L : Loop) (dt : DominatorTree) (pre i : Nat) :
    Decidable (Gate g L dt pre i) := by
  unfold Gate
  infer_instance

/-- What holds of the state of the relocation loop, relative to the graph
`g0` the sweep started from. -/
structure SweepInv (g0 : Graph) (L : Loop) (dt : DominatorTree) (pre : Nat)
    (st : HoistState) : Prop where
  instr_eq : st.graph.instr = g0.instr
  parent_keep : ∀ x, x ∉ st.hoisted → st.graph.parent x = g0.parent x
  parent_moved : ∀ x, x ∈ st.hoisted → st.graph.parent x = pre
  moved_from_loop : ∀ x, x ∈ st.hoisted → L.contains (g0.parent x) = true
  moved_flags : ∀ x, x ∈ st.hoisted → (g0.instr x).mayHaveSideEffects = false ∧
    (g0.instr x).isSafeToSpeculativelyExecute = true
  moved_operands : ∀ x, x ∈ st.hoisted → ∀ j, Value.inst j ∈ (g0.instr x).operands →
    L.contains (st.graph.parent j) = false
  moved_users : ∀ x, x ∈ st.hoisted → ∀ u, u ∈ g0.users x →
    dt.dominates pre (g0.parent u) = true
  mem_layout : ∀ x, x ∈ st.graph.layout ↔ x ∈ g0.layout ∨ x ∈ st.hoisted
  changed_iff : st.changed = true ↔ st.hoisted ≠ []
  unchanged : st.hoisted = [] → st.graph = g0

/-- What holds of the instruction sequences during the relocation loop,
relative to the graph `g0` the sweep started from, when `t` is the
terminator of the preheader `pre`. -/
structure LayoutInv (g0 : Graph) (pre t : Nat) (st : HoistState) : Prop where
  nodup : st.graph.layout.Nodup
  terminator : getTerminator st.graph pre = some t
  pre_insts : st.graph.insts pre = (g0.insts pre).dropLast ++ st.hoisted ++ [t]
  other_insts : ∀ b, b ≠ pre →
    st.graph.insts b = (g0.insts b).filter (fun x => decide (x ∉ st.hoisted))

/-- A branch or return: a terminator without operands. -/
def brInstr : Instr := Instr.mk Opcode.other [] true false false

/-- A pure arithmetic instruction over the given operands. -/
def pureInstr (ops : List Value) : Instr := Instr.mk Opcode.other ops false false true

/-- A store of `val` to address `ptr`. -/
def storeInstr (val ptr : Value) : Instr := Instr.mk Opcode.store [val, ptr] false true false

/-- A load from address `ptr`; `spec` is the speculation oracle's answer. -/
def loadInstr (ptr : Value) (spec : Bool) : Instr := Instr.mk Opcode.load [ptr] false false spec

/-- A merge node over the given incoming values. -/
def phiInstr (ops : List Value) : Instr := Instr.mk Opcode.phi ops false false false

/-- A dominator oracle for the examples: block `a` dominates block `b` when
`a ≤ b` (the example blocks are numbered along a straight line). -/
def lineDT : DominatorTree := DominatorTree.mk (fun a b => decide (a ≤ b))

/-- Example "counted loop": preheader 0, header 1 with the merge node
`11 = phi [0, 13]`, latch 2 with the update `13 = 11 + 1`. -/
def countedLoopGraph : Graph :=
  Graph.mk [10, 11, 12, 13, 14]
    (fun i => match i with
      | 10 => 0
      | 11 => 1
      | 12 => 1
      | _ => 2)
    (fun i => match i with
      | 11 => phiInstr [Value.const 0, Value.inst 13]
      | 13 => pureInstr [Value.inst 11, Value.const 1]
      | _ => brInstr)

/-- The loop of `countedLoopGraph`. -/
def countedLoop : Loop := Loop.mk [1, 2] (some 0)

/-- Example "scenario A": preheader 0, single-block loop 1 with
`20 = a + b`, `23 = 20 * 2`, a store through `23`, and exit block 2. -/
def scenarioAGraph : Graph :=
  Graph.mk [10, 20, 23, 21, 22, 30]
    (fun i => match i with
      | 10 => 0
      | 30 => 2
      | _ => 1)
    (fun i => match i with
      | 20 => pureInstr [Value.arg 0, Value.arg 1]
      | 23 => pureInstr [Value.inst 20, Value.const 2]
      | 21 => storeInstr (Value.const 7) (Value.inst 23)
      | _ => brInstr)

/-- The loop of `scenarioAGraph`. -/
def scenarioALoop : Loop := Loop.mk [1] (some 0)

/-- The state that one sweep over `scenarioAGraph` ends in. -/
def scenarioAResult : HoistState :=
  HoistState.mk (moveBefore (moveBefore scenarioAGraph 20 10) 23 10) true [20, 23]

/-- The recursive calls of `isLoopInvariant`: `Traversed g L i j` when the
classification of the in-loop, non-load instruction `i` recurses into its
operand `j` (an in-loop instruction that is not a merge node of the block
of `i`). -/
def Traversed (g : Graph) (L : Loop) (i j : Nat) : Prop :=
  L.contains (g.parent i) = true ∧ (g.instr i).opcode ≠ Opcode.load ∧
    Value.inst j ∈ (g.instr i).operands ∧ L.contains (g.parent j) = true ∧
    ¬ ((g.instr j).opcode = Opcode.phi ∧ g.parent j = g.parent i)

/-- A chain of operand references `a → x1 → ... → xn → b`: each instruction
has the next one among its operands. -/
def usesChain (g : Graph) : Nat → List Nat → Nat → Prop
  | a, [], b => Value.inst b ∈ (g.instr a).operands
  | a, x :: xs, b => Value.inst x ∈ (g.instr a).operands ∧ usesChain g x xs b

/-- Successive calls of the sweep, each on the graph the previous one left. -/
def hoistRepeat (fuel : Nat) (L : Loop) (dt : DominatorTree) : Nat → Graph → Option Graph
  | 0, g => some g
  | n + 1, g =>
    match hoistInvariantInstructions fuel g L dt with
    | Option.none => Option.none
    | some st => hoistRepeat fuel L dt n st.graph

instance (g : Graph) (L : Loop) (i j : Nat) : Decidable (Traversed g L i j) := by
  unfold Traversed
  infer_instance

/-- Deciding `usesChain` by walking the chain. -/
def usesChainDecide (g : Graph) : (a : Nat) → (xs : List Nat) → (b : Nat) →
    Decidable (usesChain g a xs b)
  | a, [], b => inferInstanceAs (Decidable (Value.inst b ∈ (g.instr a).operands))
  | a, x :: xs, b =>
    @instDecidableAnd _ _
      (inferInstanceAs (Decidable (Value.inst x ∈ (g.instr a).operands)))
      (usesChainDecide g x xs b)

instance (g : Graph) (a : Nat) (xs : List Nat) (b : Nat) : Decidable (usesChain g a xs b) :=
  usesChainDecide g a xs b

/-- The blocks of `countedLoop`, without a preheader. -/
def noPreheaderLoop : Loop := Loop.mk [1, 2] Option.none

/-- Example "scenario C": preheader 0 with the initial value `9`, header 1
with the merge node `11 = phi [9, 13]`, body block 2 with the update
`13 = 11 + 1`. -/
def scenarioCGraph : Graph :=
  Graph.mk [9, 10, 11, 12, 13, 14]
    (fun i => match i with
      | 9 => 0
      | 10 => 0
      | 11 => 1
      | 12 => 1
      | _ => 2)
    (fun i => match i with
      | 9 => pureInstr [Value.arg 0]
      | 11 => phiInstr [Value.inst 9, Value.inst 13]
      | 13 => pureInstr [Value.inst 11, Value.const 1]
      | _ => brInstr)

/-- The loop of `scenarioCGraph`. -/
def scenarioCLoop : Loop := Loop.mk [1, 2] (some 0)

/-- Example: a single-block loop 1 whose merge node `11 = phi [0, 12]` is
fed by the load `12 = load 11` of the same block. -/
def phiLoadGraph : Graph :=
  Graph.mk [10, 11, 12, 13]
    (fun i => match i with
      | 10 => 0
      | _ => 1)
    (fun i => match i with
      | 11 => phiInstr [Value.const 0, Value.inst 12]
      | 12 => loadInstr (Value.inst 11) true
      | _ => brInstr)

/-- Example: a single-block loop 1 whose merge node `11 = phi [0, 12]` is
fed by the update `12 = 11 + 1` of the same block. -/
def phiAddGraph : Graph :=
  Graph.mk [10, 11, 12, 13]
    (fun i => match i with
      | 10 => 0
      | _ => 1)
    (fun i => match i with
      | 11 => phiInstr [Value.const 0, Value.inst 12]
      | 12 => pureInstr [Value.inst 11, Value.const 1]
      | _ => brInstr)

/-- The single-block loop 1 with preheader 0. -/
def singleBlockLoop : Loop := Loop.mk [1] (some 0)

/-- A rank for the recursion of the classifier on `phiAddGraph`. -/
def phiAddRank (i : Nat) : Nat := if i = 11 then 1 else 0

/-- Example "scenario B": preheader 0, loop blocks 1 and 2, exit 3.  Block 1
holds the load `20 = load p` and the addition `21 = a + b`; block 2 holds the
store `23` to the same address `p`. -/
def scenarioBGraph : Graph :=
  Graph.mk [10, 20, 21, 22, 23, 24, 30]
    (fun i => match i with
      | 10 => 0
      | 20 => 1
      | 21 => 1
      | 22 => 1
      | 23 => 2
      | 24 => 2
      | _ => 3)
    (fun i => match i with
      | 20 => loadInstr (Value.arg 0) true
      | 21 => pureInstr [Value.arg 1, Value.arg 2]
      | 23 => storeInstr (Value.const 1) (Value.arg 0)
      | _ => brInstr)

/-- The loop of `scenarioBGraph`. -/
def scenarioBLoop : Loop := Loop.mk [1, 2] (some 0)

/-- The state that one sweep over `scenarioBGraph` ends in. -/
def scenarioBResult : HoistState :=
  HoistState.mk (moveBefore scenarioBGraph 21 10) true [21]

/-- Example: a single-block loop 1 whose load `20 = load p` has no store to
`p` in the loop but is not safe to speculate. -/
def unsafeLoadGraph : Graph :=
  Graph.mk [10, 20, 22]
    (fun i => match i with
      | 10 => 0
      | _ => 1)
    (fun i => match i with
      | 20 => loadInstr (Value.arg 0) false
      | _ => brInstr)

/-- Example: a single-block loop 1 with the speculatable load `20 = load p`,
no store in the loop, and the addition `21 = 20 + 1`. -/
def safeLoadGraph : Graph :=
  Graph.mk [10, 20, 21, 22]
    (fun i => match i with
      | 10 => 0
      | _ => 1)
    (fun i => match i with
      | 20 => loadInstr (Value.arg 0) true
      | 21 => pureInstr [Value.inst 20, Value.const 1]
      | _ => brInstr)

/-- A rank for the recursion of the classifier on `safeLoadGraph`. -/
def safeLoadRank (i : Nat) : Nat := if i = 21 then 1 else 0

/-- Example "scenario A in a counted loop": preheader 0, header 1 with the
merge node `11 = phi [0, 13]`, body 2 with `20 = a + b`, a store through
`20` and the update `13 = 11 + 1`, exit 3. -/
def scenarioACountedGraph : Graph :=
  Graph.mk [10, 11, 12, 20, 21, 13, 14, 30]
    (fun i => match i with
      | 10 => 0
      | 11 => 1
      | 12 => 1
      | 30 => 3
      | _ => 2)
    (fun i => match i with
      | 11 => phiInstr [Value.const 0, Value.inst 13]
      | 13 => pureInstr [Value.inst 11, Value.const 1]
      | 20 => pureInstr [Value.arg 0, Value.arg 1]
      | 21 => storeInstr (Value.const 7) (Value.inst 20)
      | _ => brInstr)

/-- Reference verdict for one operand of instruction `i`, after section 4.1 of
the specification: constants and parameters are invariant, an instruction
outside the loop is invariant, a merge node of the block of `i` is not, any
other in-loop instruction is tested recursively, other operand kinds are not
invariant. -/
def operandInvariantSpec (g : Graph) (L : Loop) (recCall : Nat → Option Bool) (i : Nat) :
    Value → Option Bool
  | Value.const _ => some true
  | Value.arg _ => some true
  | Value.inst j =>
    if L.contains (g.parent j) = false then some true
    else if (g.instr j).opcode = Opcode.phi ∧ g.parent j = g.parent i then some false
    else recCall j
  | Value.other _ => some false

/-- Conjunction of verdicts with short-circuit on the first negative. -/
def allShortCircuit {α : Type} (f : α → Option Bool) : List α → Option Bool
  | [] => some true
  | a :: rest =>
    match f a with
    | Option.none => Option.none
    | some false => some false
    | some true => allShortCircuit f rest

/-- Reference definition of the memory-write check, after section 4.2 of the
specification: invariant exactly when no store among the instructions of the
loop has the address operand of the read. -/
def isInvariantReadSpec (g : Graph) (L : Loop) (r : Nat) : Bool :=
  (loopInsts g L).all (fun s =>
    !(decide ((g.instr s).opcode = Opcode.store) &&
      decide (getPointerOperand (g.instr s) = getPointerOperand (g.instr r))))

/-- Reference definition of the invariant classifier, after section 4.1 of
the specification, with the same recursion-depth budget as the code. -/
def isInvariantSpec (g : Graph) (L : Loop) : Nat → Nat → Option Bool
  | 0, _ => Option.none
  | fuel + 1, i =>
    if L.contains (g.parent i) = false then some true
    else if (g.instr i).opcode = Opcode.load then some (isInvariantReadSpec g L i)
    else allShortCircuit (operandInvariantSpec g L (isInvariantSpec g L fuel) i)
      (g.instr i).operands

/-- The condition of section 4.1 on one operand of `i`, with `inv` the
verdict on in-loop instructions. -/
def OperandOK (g : Graph) (L : Loop) (i : Nat) (inv : Nat → Prop) : Value → Prop
  | Value.const _ => True
  | Value.arg _ => True
  | Value.inst j =>
    L.contains (g.parent j) = false ∨
      (¬ ((g.instr j).opcode = Opcode.phi ∧ g.parent j = g.parent i) ∧ inv j)
  | Value.other _ => False

/-- Example: a single-block loop 1 with the counter `11 = phi [0, 12]`,
`12 = 11 + 1` and the load `13 = load 12` through the counter. -/
def loadOfCounterGraph : Graph :=
  Graph.mk [10, 11, 12, 13, 14]
    (fun i => match i with
      | 10 => 0
      | _ => 1)
    (fun i => match i with
      | 11 => phiInstr [Value.const 0, Value.inst 12]
      | 12 => pureInstr [Value.inst 11, Value.const 1]
      | 13 => loadInstr (Value.inst 12) true
      | _ => brInstr)

/-- Example "out of order": preheader 0, loop blocks 1 and 2 enumerated in
this order; block 1 holds the user `21 = 20 * 2`, block 2 holds its operand
`20 = a + b`. -/
def outOfOrderGraph : Graph :=
  Graph.mk [10, 21, 22, 20, 24]
    (fun i => match i with
      | 10 => 0
      | 21 => 1
      | 22 => 1
      | _ => 2)
    (fun i => match i with
      | 20 => pureInstr [Value.arg 0, Value.arg 1]
      | 21 => pureInstr [Value.inst 20, Value.const 2]
      | _ => brInstr)

/-- The loop of `outOfOrderGraph`. -/
def outOfOrderLoop : Loop := Loop.mk [1, 2] (some 0)

/-- The state after the first sweep over `outOfOrderGraph`. -/
def outOfOrderFirst : HoistState :=
  HoistState.mk (moveBefore outOfOrderGraph 20 10) true [20]

/-- The state after the second sweep over `outOfOrderGraph`. -/
def outOfOrderSecond : HoistState :=
  HoistState.mk (moveBefore outOfOrderFirst.graph 21 10) true [21]

/-- A rank for the recursion of the classifier on `outOfOrderGraph`. -/
def outOfOrderRank (i : Nat) : Nat := if i = 21 then 1 else 0

/-- Example: the counted loop (header 1 with `11 = phi [0, 13]`, latch 2 with
`13 = 11 + 1`) whose latch also holds the call `15` with the operands `13`
and a value that is neither a constant, a parameter nor an instruction. -/
def otherOperandGraph : Graph :=
  Graph.mk [10, 11, 12, 13, 15, 14]
    (fun i => match i with
      | 10 => 0
      | 11 => 1
      | 12 => 1
      | _ => 2)
    (fun i => match i with
      | 11 => phiInstr [Value.const 0, Value.inst 13]
      | 13 => pureInstr [Value.inst 11, Value.const 1]
      | 15 => Instr.mk Opcode.other [Value.inst 13, Value.other 0] false true false
      | _ => brInstr)

/-- A dependency chain relative to the instructions `done`: every
instruction operand of a chain member is outside the loop, or in `done`, or
an earlier member of the chain. -/
def ChainReady (g : Graph) (L : Loop) : List Nat → List Nat → Prop
  | _, [] => True
  | done, x :: rest =>
    (∀ j, Value.inst j ∈ (g.instr x).operands →
      L.contains (g.parent j) = false ∨ j ∈ done) ∧
    ChainReady g L (x :: done) rest

/-- Example: a single-block loop 1 with `20 = a + b`, the division
`24 = c / d`, which is not safe to speculate, and `21 = 20 + 24`. -/
def blockedChainGraph : Graph :=
  Graph.mk [10, 20, 24, 21, 22]
    (fun i => match i with
      | 10 => 0
      | _ => 1)
    (fun i => match i with
      | 20 => pureInstr [Value.arg 0, Value.arg 1]
      | 24 => Instr.mk Opcode.other [Value.arg 2, Value.arg 3] false false false
      | 21 => pureInstr [Value.inst 20, Value.inst 24]
      | _ => brInstr)

/-- A rank for the recursion of the classifier on `scenarioAGraph`. -/
def scenarioARank (i : Nat) : Nat := if i = 21 then 2 else if i = 23 then 1 else 0

/-- What holds of the graph `g` reached from `g0` by successive calls of the
sweep, when `t` is the terminator of the preheader `pre`: an instruction is
where it was, or it is in the preheader, came from a loop block and has no
instruction operand in a loop block. -/
structure CallInv (g0 : Graph) (L : Loop) (pre t : Nat) (g : Graph) : Prop where
  instr_eq : g.instr = g0.instr
  nodup : g.layout.Nodup
  mem_layout : ∀ x, x ∈ g.layout ↔ x ∈ g0.layout
  terminator : getTerminator g pre = some t
  parent : ∀ x, g.parent x = g0.parent x ∨
    (g.parent x = pre ∧ L.contains (g0.parent x) = true ∧
      ∀ j, Value.inst j ∈ (g0.instr x).operands → L.contains (g.parent j) = false)

theorem hoistStep_cases {L : Loop} {dt : DominatorTree} {pre : Nat} {st st1 : HoistState}
    {i : Nat} (h : hoistStep L dt pre st i = some st1) :
    (¬ Gate st.graph L dt pre i ∧ st1 = st) ∨
    (Gate st.graph L dt pre i ∧ ∃ t, getTerminator st.graph pre = some t ∧
      st1 = HoistState.mk (moveBefore st.graph i t) true (st.hoisted ++ [i])) := by
  unfold hoistStep at h
  by_cases h1 : L.contains (st.graph.parent i) = false
  · rw [if_pos h1] at h
    left
    refine ⟨?_, (Option.some.inj h).symm⟩
    intro hg
    rw [hg.1] at h1
    exact Bool.noConfusion h1
  · rw [if_neg h1] at h
    have h1t : L.contains (st.graph.parent i) = true := by simpa using h1
    by_cases h2 : (allOperandsAvailable st.graph L i && !(st.graph.instr i).mayHaveSideEffects
        && (st.graph.instr i).isSafeToSpeculativelyExecute) = true
    · rw [if_pos h2] at h
      simp only [Bool.and_eq_true, Bool.not_eq_true_eq_eq_false] at h2
      by_cases h3 : safeToHoist st.graph dt pre i = true
      · rw [if_pos h3] at h
        right
        refine ⟨⟨h1t, h2.1.1, ?_, h2.2, h3⟩, ?_⟩
        · simpa using h2.1.2
        · cases ht : getTerminator st.graph pre with
          | none => rw [ht] at h; exact Option.noConfusion h
          | some t =>
            rw [ht] at h
            exact ⟨t, rfl, (Option.some.inj h).symm⟩
      · rw [if_neg h3] at h
        left
        exact ⟨fun hg => h3 hg.2.2.2.2, (Option.some.inj h).symm⟩
    · rw [if_neg h2] at h
      left
      refine ⟨?_, (Option.some.inj h).symm⟩
      intro hg
      apply h2
      simp [hg.2.1, hg.2.2.1, hg.2.2.2.1]

theorem hoistStep_of_gate {L : Loop} {dt : DominatorTree} {pre : Nat} {st : HoistState}
    {i t : Nat} (hg : Gate st.graph L dt pre i) (ht : getTerminator st.graph pre = some t) :
    hoistStep L dt pre st i =
      some (HoistState.mk (moveBefore st.graph i t) true (st.hoisted ++ [i])) := by
  unfold hoistStep
  obtain ⟨h1, h2, h3, h4, h5⟩ := hg
  simp [h1, h2, h3, h4, h5, ht]

theorem hoistStep_of_not_gate {L : Loop} {dt : DominatorTree} {pre : Nat} {st : HoistState}
    {i : Nat} (hg : ¬ Gate st.graph L dt pre i) :
    hoistStep L dt pre st i = some st := by
  unfold hoistStep
  by_cases h1 : L.contains (st.graph.parent i) = false
  · rw [if_pos h1]
  · rw [if_neg h1]
    have h1t : L.contains (st.graph.parent i) = true := by simpa using h1
    by_cases h2 : (allOperandsAvailable st.graph L i && !(st.graph.instr i).mayHaveSideEffects
        && (st.graph.instr i).isSafeToSpeculativelyExecute) = true
    · rw [if_pos h2]
      simp only [Bool.and_eq_true, Bool.not_eq_true_eq_eq_false] at h2
      by_cases h3 : safeToHoist st.graph dt pre i = true
      · exfalso
        apply hg
        refine ⟨h1t, h2.1.1, ?_, h2.2, h3⟩
        simpa using h2.1.2
      · rw [if_neg h3]
    · rw [if_neg h2]

theorem relocate_append (L : Loop) (dt : DominatorTree) (pre : Nat) (xs ys : List Nat) :
    ∀ st : HoistState, relocate L dt pre st (xs ++ ys) =
      (relocate L dt pre st xs).bind (fun st1 => relocate L dt pre st1 ys) := by
  induction xs with
  | nil => intro st; simp [relocate]
  | cons x xs ih =>
    intro st
    simp only [List.cons_append, relocate]
    cases hstep : hoistStep L dt pre st x with
    | none => simp
    | some st1 => simpa using ih st1

theorem mem_insertBefore (t i x : Nat) (l : List Nat) :
    x ∈ insertBefore t i l ↔ x = i ∨ x ∈ l := by
  induction l with
  | nil => simp [insertBefore]
  | cons y ys ih =>
    unfold insertBefore
    by_cases hy : y = t
    · rw [if_pos hy]; simp
    · rw [if_neg hy]
      simp only [List.mem_cons, ih]
      tauto

theorem mem_moveBefore_layout (g : Graph) (i t x : Nat) :
    x ∈ (moveBefore g i t).layout ↔ x ∈ g.layout ∨ x = i := by
  unfold moveBefore
  simp only [mem_insertBefore]
  by_cases hx : x = i
  · simp [hx]
  · have : x ∈ g.layout.erase i ↔ x ∈ g.layout := List.mem_erase_of_ne hx
    rw [this]
    tauto

theorem mem_insts {g : Graph} {b x : Nat} :
    x ∈ g.insts b ↔ x ∈ g.layout ∧ g.parent x = b := by
  simp [Graph.insts]

theorem mem_users {g : Graph} {i u : Nat} :
    u ∈ g.users i ↔ u ∈ g.layout ∧ Value.inst i ∈ (g.instr u).operands := by
  simp [Graph.users]

theorem getTerminator_some {g : Graph} {b t : Nat} (h : getTerminator g b = some t) :
    g.insts b = (g.insts b).dropLast ++ [t] ∧ (g.instr t).isTerminator = true := by
  unfold getTerminator at h
  cases hl : (g.insts b).getLast? with
  | none => rw [hl] at h; exact Option.noConfusion h
  | some t1 =>
    rw [hl] at h
    by_cases ht : (g.instr t1).isTerminator = true
    · simp only [ht, if_true] at h
      have e : t1 = t := Option.some.inj h
      subst e
      refine ⟨?_, ht⟩
      have hne : g.insts b ≠ [] := by
        intro h0
        rw [h0] at hl
        simp at hl
      rw [List.getLast?_eq_getLast _ hne] at hl
      have e2 : (g.insts b).getLast hne = t1 := Option.some.inj hl
      conv_lhs => rw [← List.dropLast_append_getLast hne]
      rw [e2]
    · simp only [ht] at h
      exact absurd h (by simp)

theorem getTerminator_parent {g : Graph} {b t : Nat} (h : getTerminator g b = some t) :
    t ∈ g.layout ∧ g.parent t = b := by
  have h1 := (getTerminator_some h).1
  have : t ∈ g.insts b := by
    rw [h1]
    simp
  exact mem_insts.mp this

theorem allOperandsAvailable_iff {g : Graph} {L : Loop} {i : Nat} :
    allOperandsAvailable g L i = true ↔
      ∀ j, Value.inst j ∈ (g.instr i).operands → L.contains (g.parent j) = false := by
  unfold allOperandsAvailable
  rw [List.all_eq_true]
  constructor
  · intro h j hj
    have := h _ hj
    simpa using this
  · intro h op hop
    cases op with
    | inst j => simpa using h j hop
    | const n => rfl
    | arg n => rfl
    | other n => rfl

theorem safeToHoist_iff {g : Graph} {dt : DominatorTree} {pre i : Nat} :
    safeToHoist g dt pre i = true ↔
      ∀ u, u ∈ g.users i → dt.dominates pre (g.parent u) = true := by
  unfold safeToHoist
  rw [List.all_eq_true]

theorem sweepInv_init (g0 : Graph) (L : Loop) (dt : DominatorTree) (pre : Nat) :
    SweepInv g0 L dt pre (HoistState.mk g0 false []) := by
  constructor <;> simp

theorem sweepInv_step {g0 : Graph} {L : Loop} {dt : DominatorTree} {pre : Nat}
    (hpre : L.contains pre = false) {st st1 : HoistState} {i : Nat}
    (hinv : SweepInv g0 L dt pre st) (h : hoistStep L dt pre st i = some st1) :
    SweepInv g0 L dt pre st1 := by
  rcases hoistStep_cases h with ⟨_, e⟩ | ⟨hg, t, ht, e⟩
  · rw [e]; exact hinv
  · subst e
    obtain ⟨hg1, hg2, hg3, hg4, hg5⟩ := hg
    have hpt : st.graph.parent t = pre := (getTerminator_parent ht).2
    have hi : i ∉ st.hoisted := by
      intro hmem
      rw [hinv.parent_moved i hmem, hpre] at hg1
      exact Bool.noConfusion hg1
    have hpi : st.graph.parent i = g0.parent i := hinv.parent_keep i hi
    have hpar : ∀ x, (moveBefore st.graph i t).parent x =
        if x = i then pre else st.graph.parent x := by
      intro x
      simp [moveBefore, hpt]
    have hcont : ∀ j, L.contains (st.graph.parent j) = false →
        L.contains ((moveBefore st.graph i t).parent j) = false := by
      intro j hj
      rw [hpar]
      by_cases e : j = i
      · simp [e, hpre]
      · simp [e, hj]
    constructor
    · exact hinv.instr_eq
    · intro x hx
      simp only [List.mem_append, List.mem_singleton, not_or] at hx
      simp only [hpar, hx.2, if_false]
      exact hinv.parent_keep x hx.1
    · intro x hx
      simp only [hpar]
      by_cases e : x = i
      · simp [e]
      · simp only [e, if_false]
        simp only [List.mem_append, List.mem_singleton, e, or_false] at hx
        exact hinv.parent_moved x hx
    · intro x hx
      simp only [List.mem_append, List.mem_singleton] at hx
      rcases hx with hx | hx
      · exact hinv.moved_from_loop x hx
      · rw [hx, ← hpi]; exact hg1
    · intro x hx
      simp only [List.mem_append, List.mem_singleton] at hx
      rcases hx with hx | hx
      · exact hinv.moved_flags x hx
      · rw [hx, ← hinv.instr_eq]; exact ⟨hg3, hg4⟩
    · intro x hx j hj
      simp only [List.mem_append, List.mem_singleton] at hx
      apply hcont
      rcases hx with hx | hx
      · exact hinv.moved_operands x hx j hj
      · rw [hx, ← hinv.instr_eq] at hj
        exact allOperandsAvailable_iff.mp hg2 j hj
    · intro x hx u hu
      simp only [List.mem_append, List.mem_singleton] at hx
      rcases hx with hx | hx
      · exact hinv.moved_users x hx u hu
      · subst hx
        obtain ⟨hul, huo⟩ := mem_users.mp hu
        have hu1 : u ∉ st.hoisted := by
          intro hmem
          have := hinv.moved_operands u hmem x huo
          rw [this] at hg1
          exact Bool.noConfusion hg1
        have hu2 : u ∈ st.graph.users x := by
          rw [mem_users, hinv.instr_eq]
          exact ⟨(hinv.mem_layout u).mpr (Or.inl hul), huo⟩
        have := safeToHoist_iff.mp hg5 u hu2
        rw [hinv.parent_keep u hu1] at this
        exact this
    · intro x
      rw [mem_moveBefore_layout, hinv.mem_layout]
      simp only [List.mem_append, List.mem_singleton]
      tauto
    · simp
    · intro h0
      simp at h0

theorem sweepInv_relocate {g0 : Graph} {L : Loop} {dt : DominatorTree} {pre : Nat}
    (hpre : L.contains pre = false) (cands : List Nat) :
    ∀ {st st1 : HoistState}, SweepInv g0 L dt pre st →
      relocate L dt pre st cands = some st1 →
      SweepInv g0 L dt pre st1 ∧
        ∀ x, x ∈ st1.hoisted → x ∈ st.hoisted ∨ x ∈ cands := by
  induction cands with
  | nil =>
    intro st st1 hinv h
    simp only [relocate] at h
    have e : st = st1 := Option.some.inj h
    subst e
    exact ⟨hinv, fun x hx => Or.inl hx⟩
  | cons c cs ih =>
    intro st st1 hinv h
    simp only [relocate] at h
    cases hs : hoistStep L dt pre st c with
    | none => rw [hs] at h; exact Option.noConfusion h
    | some st2 =>
      rw [hs] at h
      have hinv2 := sweepInv_step hpre hinv hs
      obtain ⟨hinv1, hsub⟩ := ih hinv2 h
      refine ⟨hinv1, ?_⟩
      intro x hx
      rcases hsub x hx with h2 | h2
      · rcases hoistStep_cases hs with ⟨_, e⟩ | ⟨_, t, _, e⟩
        · rw [e] at h2; exact Or.inl h2
        · rw [e] at h2
          simp only [List.mem_append, List.mem_singleton] at h2
          rcases h2 with h2 | h2
          · exact Or.inl h2
          · exact Or.inr (by simp [h2])
      · exact Or.inr (by simp [h2])
theorem collectInvariants_mem {g : Graph} {L : Loop} {fuel : Nat} (l : List Nat) :
    ∀ {cs : List Nat}, collectInvariants g L fuel l = some cs →
      ∀ x, x ∈ cs ↔ (x ∈ l ∧ (g.instr x).isTerminator = false ∧
        isLoopInvariant g L fuel x = some true) := by
  induction l with
  | nil =>
    intro cs h x
    simp only [collectInvariants] at h
    have e : [] = cs := Option.some.inj h
    subst e
    simp
  | cons a rest ih =>
    intro cs h x
    unfold collectInvariants at h
    by_cases ha : (g.instr a).isTerminator = true
    · rw [if_pos ha] at h
      rw [ih h x]
      constructor
      · rintro ⟨h1, h2, h3⟩
        exact ⟨List.mem_cons_of_mem _ h1, h2, h3⟩
      · rintro ⟨h1, h2, h3⟩
        refine ⟨?_, h2, h3⟩
        rcases List.mem_cons.mp h1 with e | e
        · rw [e, ha] at h2; exact Bool.noConfusion h2
        · exact e
    · rw [if_neg ha] at h
      have haf : (g.instr a).isTerminator = false := by simpa using ha
      cases hinv : isLoopInvariant g L fuel a with
      | none => rw [hinv] at h; exact Option.noConfusion h
      | some b =>
        rw [hinv] at h
        cases hrest : collectInvariants g L fuel rest with
        | none => rw [hrest] at h; exact Option.noConfusion h
        | some cs1 =>
          rw [hrest] at h
          have e : (if b = true then a :: cs1 else cs1) = cs := Option.some.inj h
          subst e
          have ih1 := ih hrest x
          cases b with
          | true =>
            simp only [if_true, List.mem_cons, ih1]
            constructor
            · rintro (e | ⟨h1, h2, h3⟩)
              · subst e; exact ⟨Or.inl rfl, haf, hinv⟩
              · exact ⟨Or.inr h1, h2, h3⟩
            · rintro ⟨e | h1, h2, h3⟩
              · exact Or.inl e
              · exact Or.inr ⟨h1, h2, h3⟩
          | false =>
            simp only [Bool.false_eq_true, if_false, List.mem_cons, ih1]
            constructor
            · rintro ⟨h1, h2, h3⟩
              exact ⟨Or.inr h1, h2, h3⟩
            · rintro ⟨e | h1, h2, h3⟩
              · subst e; rw [hinv] at h3; exact absurd h3 (by simp)
              · exact ⟨h1, h2, h3⟩

theorem mem_loopInsts {g : Graph} {L : Loop} {x : Nat} :
    x ∈ loopInsts g L ↔ x ∈ g.layout ∧ L.contains (g.parent x) = true := by
  unfold loopInsts Loop.contains
  simp only [List.mem_flatMap, mem_insts, decide_eq_true_eq]
  constructor
  · rintro ⟨b, hb, hx, e⟩
    exact ⟨hx, e ▸ hb⟩
  · rintro ⟨hx, hb⟩
    exact ⟨g.parent x, hb, hx, rfl⟩

theorem hoist_of_preheader {fuel : Nat} {g : Graph} {L : Loop} {dt : DominatorTree}
    {pre : Nat} {st : HoistState} (hp : L.preheader = some pre)
    (h : hoistInvariantInstructions fuel g L dt = some st) :
    ∃ cands, collectInvariants g L fuel (loopInsts g L) = some cands ∧
      relocate L dt pre (HoistState.mk g false []) cands = some st := by
  unfold hoistInvariantInstructions at h
  rw [hp] at h
  simp only at h
  cases hc : collectInvariants g L fuel (loopInsts g L) with
  | none => rw [hc] at h; exact Option.noConfusion h
  | some cands =>
    rw [hc] at h
    exact ⟨cands, rfl, h⟩

/-- C2 (safety of relocation): whatever one call of the sweep relocates has no
side effects, is safe to speculate, is not a terminator, and every instruction
that uses it lies in a block that the preheader dominates. -/
theorem hoist_relocates_only_safe (fuel : Nat) (g : Graph) (L : Loop) (dt : DominatorTree)
    (pre : Nat) (st : HoistState) (hp : L.preheader = some pre) (hout : pre ∉ L.blocks)
    (h : hoistInvariantInstructions fuel g L dt = some st) :
    ∀ i, i ∈ st.hoisted →
      (g.instr i).mayHaveSideEffects = false ∧
      (g.instr i).isSafeToSpeculativelyExecute = true ∧
      (g.instr i).isTerminator = false ∧
      (∀ u, u ∈ g.users i → dt.dominates pre (g.parent u) = true) ∧
      st.graph.parent i = pre ∧ st.graph.instr = g.instr := by
  intro i hi
  obtain ⟨cands, hc, hr⟩ := hoist_of_preheader hp h
  have hpre : L.contains pre = false := by simpa [Loop.contains] using hout
  obtain ⟨hinv, hsub⟩ := sweepInv_relocate hpre cands (sweepInv_init g L dt pre) hr
  have hic : i ∈ cands := by
    rcases hsub i hi with h0 | h0
    · simp at h0
    · exact h0
  have hcm := (collectInvariants_mem _ hc i).mp hic
  exact ⟨(hinv.moved_flags i hi).1, (hinv.moved_flags i hi).2, hcm.2.1,
    hinv.moved_users i hi, hinv.parent_moved i hi, hinv.instr_eq⟩
theorem insertBefore_split (t i : Nat) (A B : List Nat) (hA : t ∉ A) :
    insertBefore t i (A ++ t :: B) = A ++ i :: t :: B := by
  induction A with
  | nil => simp [insertBefore]
  | cons a A ih =>
    have ha : a ≠ t := fun e => hA (by simp [e])
    have hA1 : t ∉ A := fun e => hA (List.mem_cons_of_mem _ e)
    rw [List.cons_append]
    show (if a = t then _ else a :: insertBefore t i (A ++ t :: B)) = _
    rw [if_neg ha, ih hA1]
    rfl

theorem moveBefore_layout_split {g : Graph} {i t : Nat} (hnd : g.layout.Nodup)
    (ht : t ∈ g.layout) (hit : i ≠ t) :
    ∃ A B, g.layout.erase i = A ++ t :: B ∧ t ∉ A ∧ t ∉ B ∧ i ∉ A ∧ i ∉ B ∧
      (moveBefore g i t).layout = A ++ i :: t :: B := by
  have ht1 : t ∈ g.layout.erase i := (List.mem_erase_of_ne (Ne.symm hit)).mpr ht
  obtain ⟨A, B, hAB⟩ := List.append_of_mem ht1
  have hnd1 : (g.layout.erase i).Nodup := hnd.erase i
  have hi1 : i ∉ g.layout.erase i := fun hmem => (hnd.mem_erase_iff.mp hmem).1 rfl
  rw [hAB] at hnd1 hi1
  have hnd2 := List.nodup_append.mp hnd1
  have htA : t ∉ A := fun hmem => hnd2.2.2 hmem (by simp)
  have htB : t ∉ B := (List.nodup_cons.mp hnd2.2.1).1
  refine ⟨A, B, hAB, htA, htB, ?_, ?_, ?_⟩
  · intro hmem; exact hi1 (by simp [hmem])
  · intro hmem; exact hi1 (by simp [hmem])
  · unfold moveBefore
    simp only
    rw [hAB, insertBefore_split t i A B htA]

theorem moveBefore_nodup {g : Graph} {i t : Nat} (hnd : g.layout.Nodup)
    (ht : t ∈ g.layout) (hit : i ≠ t) : (moveBefore g i t).layout.Nodup := by
  obtain ⟨A, B, hAB, htA, htB, hiA, hiB, hl⟩ := moveBefore_layout_split hnd ht hit
  have hnd1 : (A ++ t :: B).Nodup := hAB ▸ hnd.erase i
  rw [hl]
  have h1 : (i :: (A ++ t :: B)).Nodup := by
    refine List.nodup_cons.mpr ⟨?_, hnd1⟩
    simp only [List.mem_append, List.mem_cons, not_or]
    exact ⟨hiA, hit, hiB⟩
  exact (List.perm_middle).nodup_iff.mpr h1

theorem filter_parent_congr (p : Nat → Nat) (i c b : Nat) (l : List Nat) (hi : i ∉ l) :
    l.filter (fun x => decide ((if x = i then c else p x) = b)) =
      l.filter (fun x => decide (p x = b)) := by
  apply List.filter_congr
  intro x hx
  have : x ≠ i := fun e => hi (e ▸ hx)
  simp [this]

theorem moveBefore_insts {g : Graph} {i t pre : Nat} (hnd : g.layout.Nodup)
    (ht : getTerminator g pre = some t) (hi : g.parent i ≠ pre) :
    (moveBefore g i t).insts pre = (g.insts pre).dropLast ++ [i, t] ∧
    ∀ b, b ≠ pre → (moveBefore g i t).insts b = (g.insts b).filter (fun x => x != i) := by
  obtain ⟨htl, htp⟩ := getTerminator_parent ht
  have hlast := (getTerminator_some ht).1
  have hit : i ≠ t := fun e => hi (e ▸ htp)
  obtain ⟨A, B, hAB, htA, htB, hiA, hiB, hl⟩ := moveBefore_layout_split hnd htl hit
  have hins : ∀ b, (moveBefore g i t).insts b =
      A.filter (fun x => decide (g.parent x = b)) ++
        ((if pre = b then [i, t] else []) ++ B.filter (fun x => decide (g.parent x = b))) := by
    intro b
    unfold Graph.insts
    rw [hl]
    have hp : (moveBefore g i t).parent = fun x => if x = i then pre else g.parent x := by
      funext x
      simp [moveBefore, htp]
    rw [hp, List.filter_append, filter_parent_congr g.parent i pre b A hiA]
    congr 1
    rw [List.filter_cons, List.filter_cons, filter_parent_congr g.parent i pre b B hiB]
    simp only [if_true, if_neg (Ne.symm hit), htp, decide_eq_true_eq]
    by_cases e : pre = b <;> simp [e]
  have hold : ∀ b, (g.insts b).filter (fun x => x != i) =
      A.filter (fun x => decide (g.parent x = b)) ++
        ((if pre = b then [t] else []) ++ B.filter (fun x => decide (g.parent x = b))) := by
    intro b
    unfold Graph.insts
    rw [List.filter_comm, ← hnd.erase_eq_filter, hAB, List.filter_append, List.filter_cons]
    simp only [htp, decide_eq_true_eq]
    by_cases e : pre = b <;> simp [e]
  constructor
  · have h1 := hold pre
    have hnoti : (g.insts pre).filter (fun x => x != i) = g.insts pre := by
      rw [List.filter_eq_self]
      intro x hx
      have : g.parent x = pre := (mem_insts.mp hx).2
      simp only [bne_iff_ne, ne_eq]
      intro e
      exact hi (e ▸ this)
    rw [hnoti] at h1
    simp only [if_true] at h1
    have hB : B.filter (fun x => decide (g.parent x = pre)) = [] := by
      rcases List.eq_nil_or_concat (B.filter (fun x => decide (g.parent x = pre))) with
        e | ⟨M, b, e⟩
      · exact e
      · exfalso
        rw [e, hlast] at h1
        have h2 : (g.insts pre).dropLast ++ [t] =
            (A.filter (fun x => decide (g.parent x = pre)) ++ t :: M) ++ [b] := by
          rw [h1]; simp
        have h3 := (List.append_inj' h2 rfl).2
        have hb : b = t := by simpa using h3.symm
        have : b ∈ B.filter (fun x => decide (g.parent x = pre)) := by
          rw [e]; simp
        exact htB (hb ▸ (List.mem_filter.mp this).1)
    rw [hB] at h1
    rw [hins pre, hB]
    simp only [if_true, List.append_nil] at h1 ⊢
    rw [hlast] at h1
    have hA : (g.insts pre).dropLast = A.filter (fun x => decide (g.parent x = pre)) :=
      (List.append_inj' h1 rfl).1
    rw [hA]
  · intro b hb
    rw [hins b, hold b]
    simp [Ne.symm hb]
theorem getTerminator_of_insts {g : Graph} {b t : Nat} {xs : List Nat}
    (h : g.insts b = xs ++ [t]) (ht : (g.instr t).isTerminator = true) :
    getTerminator g b = some t := by
  unfold getTerminator
  rw [h]
  simp [ht]

theorem layoutInv_init {g0 : Graph} {pre t : Nat} (hnd : g0.layout.Nodup)
    (ht : getTerminator g0 pre = some t) :
    LayoutInv g0 pre t (HoistState.mk g0 false []) := by
  constructor
  · exact hnd
  · exact ht
  · simpa using (getTerminator_some ht).1
  · intro b _
    simp

theorem gate_parent_ne {g : Graph} {L : Loop} {dt : DominatorTree} {pre i : Nat}
    (hpre : L.contains pre = false) (hg : Gate g L dt pre i) : g.parent i ≠ pre := by
  intro e
  have := hg.1
  rw [e, hpre] at this
  exact Bool.noConfusion this

theorem layoutInv_step {g0 : Graph} {L : Loop} {dt : DominatorTree} {pre t : Nat}
    (hpre : L.contains pre = false) {st st1 : HoistState} {i : Nat}
    (hinv : LayoutInv g0 pre t st) (h : hoistStep L dt pre st i = some st1) :
    LayoutInv g0 pre t st1 := by
  rcases hoistStep_cases h with ⟨_, e⟩ | ⟨hg, t1, ht1, e⟩
  · rw [e]; exact hinv
  · have ett : t1 = t := Option.some.inj (ht1.symm.trans hinv.terminator)
    subst ett
    subst e
    have hpi := gate_parent_ne hpre hg
    obtain ⟨htl, htp⟩ := getTerminator_parent ht1
    have hit : i ≠ t1 := fun e => hpi (e ▸ htp)
    obtain ⟨hm1, hm2⟩ := moveBefore_insts hinv.nodup ht1 hpi
    have hpre1 : (moveBefore st.graph i t1).insts pre =
        (g0.insts pre).dropLast ++ (st.hoisted ++ [i]) ++ [t1] := by
      rw [hm1, hinv.pre_insts, List.dropLast_concat]
      simp
    constructor
    · exact moveBefore_nodup hinv.nodup htl hit
    · exact getTerminator_of_insts hpre1 (getTerminator_some ht1).2
    · exact hpre1
    · intro b hb
      show (moveBefore st.graph i t1).insts b = _
      rw [hm2 b hb, hinv.other_insts b hb, List.filter_filter]
      apply List.filter_congr
      intro x _
      by_cases hx1 : x = i <;> by_cases hx2 : x ∈ st.hoisted <;> simp [hx1, hx2]

theorem layoutInv_relocate {g0 : Graph} {L : Loop} {dt : DominatorTree} {pre t : Nat}
    (hpre : L.contains pre = false) (cands : List Nat) :
    ∀ {st st1 : HoistState}, LayoutInv g0 pre t st →
      relocate L dt pre st cands = some st1 → LayoutInv g0 pre t st1 := by
  induction cands with
  | nil =>
    intro st st1 hinv h
    simp only [relocate] at h
    exact (Option.some.inj h) ▸ hinv
  | cons c cs ih =>
    intro st st1 hinv h
    simp only [relocate] at h
    cases hs : hoistStep L dt pre st c with
    | none => rw [hs] at h; exact Option.noConfusion h
    | some st2 =>
      rw [hs] at h
      exact ih (layoutInv_step hpre hinv hs) h

theorem relocate_no_terminator {L : Loop} {dt : DominatorTree} {pre : Nat}
    (cands : List Nat) :
    ∀ {st st1 : HoistState}, getTerminator st.graph pre = none →
      relocate L dt pre st cands = some st1 → st1 = st := by
  induction cands with
  | nil =>
    intro st st1 _ h
    simp only [relocate] at h
    exact (Option.some.inj h).symm
  | cons c cs ih =>
    intro st st1 hn h
    simp only [relocate] at h
    cases hs : hoistStep L dt pre st c with
    | none => rw [hs] at h; exact Option.noConfusion h
    | some st2 =>
      rw [hs] at h
      rcases hoistStep_cases hs with ⟨_, e⟩ | ⟨_, t, ht, _⟩
      · subst e
        exact ih hn h
      · rw [hn] at ht
        exact Option.noConfusion ht

theorem relocate_trace {L : Loop} {dt : DominatorTree} {pre : Nat} (cands : List Nat) :
    ∀ {st st1 : HoistState}, relocate L dt pre st cands = some st1 →
      ∀ i, i ∈ st1.hoisted → i ∈ st.hoisted ∨
        ∃ cs1 cs2 before t, cands = cs1 ++ i :: cs2 ∧
          relocate L dt pre st cs1 = some before ∧ i ∉ before.hoisted ∧
          Gate before.graph L dt pre i ∧ getTerminator before.graph pre = some t ∧
          relocate L dt pre
            (HoistState.mk (moveBefore before.graph i t) true (before.hoisted ++ [i])) cs2 =
              some st1 := by
  induction cands with
  | nil =>
    intro st st1 h i hi
    simp only [relocate] at h
    exact Or.inl ((Option.some.inj h) ▸ hi)
  | cons c cs ih =>
    intro st st1 h i hi
    simp only [relocate] at h
    cases hs : hoistStep L dt pre st c with
    | none => rw [hs] at h; exact Option.noConfusion h
    | some st2 =>
      rw [hs] at h
      by_cases hmem : i ∈ st.hoisted
      · exact Or.inl hmem
      · right
        rcases ih h i hi with h2 | ⟨cs1, cs2, before, t, e, hr, hnb, hg, ht, hr2⟩
        · rcases hoistStep_cases hs with ⟨_, e⟩ | ⟨hg, t, ht, e⟩
          · rw [e] at h2; exact absurd h2 hmem
          · have hic : i = c := by
              rw [e] at h2
              simp only [List.mem_append, List.mem_singleton] at h2
              rcases h2 with h2 | h2
              · exact absurd h2 hmem
              · exact h2
            subst hic
            refine ⟨[], cs, st, t, rfl, rfl, hmem, hg, ht, ?_⟩
            rw [← e]; exact h
        · refine ⟨c :: cs1, cs2, before, t, by simp [e], ?_, hnb, hg, ht, hr2⟩
          simp only [relocate, hs]
          exact hr
theorem checkOperands_true {g : Graph} {L : Loop} {rc : Nat → Option Bool} {i : Nat}
    (ops : List Value) (h : checkOperands g L rc i ops = some true) :
    ∀ j, Value.inst j ∈ ops → L.contains (g.parent j) = true →
      ¬ ((g.instr j).opcode = Opcode.phi ∧ g.parent j = g.parent i) ∧ rc j = some true := by
  induction ops with
  | nil => intro j hj; simp at hj
  | cons op rest ih =>
    intro j hj hin
    cases op with
    | const n =>
      simp only [checkOperands] at h
      simp only [List.mem_cons, reduceCtorEq, false_or] at hj
      exact ih h j hj hin
    | arg n =>
      simp only [checkOperands] at h
      simp only [List.mem_cons, reduceCtorEq, false_or] at hj
      exact ih h j hj hin
    | other n =>
      simp [checkOperands] at h
    | inst k =>
      simp only [checkOperands] at h
      by_cases hk : L.contains (g.parent k) = true
      · rw [if_pos hk] at h
        by_cases hphi : (g.instr k).opcode = Opcode.phi ∧ g.parent k = g.parent i
        · rw [if_pos hphi] at h
          simp at h
        · rw [if_neg hphi] at h
          cases hrc : rc k with
          | none => rw [hrc] at h; simp at h
          | some b =>
            rw [hrc] at h
            cases b with
            | false => simp at h
            | true =>
              simp only at h
              simp only [List.mem_cons, Value.inst.injEq] at hj
              rcases hj with e | hj
              · subst e; exact ⟨hphi, hrc⟩
              · exact ih h j hj hin
      · rw [if_neg hk] at h
        simp only [List.mem_cons, Value.inst.injEq] at hj
        rcases hj with e | hj
        · subst e; exact absurd hin hk
        · exact ih h j hj hin

theorem checkOperands_mono {g : Graph} {L : Loop} {rc rc1 : Nat → Option Bool} {i : Nat}
    (hrc : ∀ j b, rc j = some b → rc1 j = some b) (ops : List Value) :
    ∀ b, checkOperands g L rc i ops = some b → checkOperands g L rc1 i ops = some b := by
  induction ops with
  | nil => intro b h; simpa [checkOperands] using h
  | cons op rest ih =>
    intro b h
    cases op with
    | const n => simp only [checkOperands] at h ⊢; exact ih b h
    | arg n => simp only [checkOperands] at h ⊢; exact ih b h
    | other n => simp only [checkOperands] at h ⊢; exact h
    | inst k =>
      simp only [checkOperands] at h ⊢
      by_cases hk : L.contains (g.parent k) = true
      · rw [if_pos hk] at h ⊢
        by_cases hphi : (g.instr k).opcode = Opcode.phi ∧ g.parent k = g.parent i
        · rw [if_pos hphi] at h ⊢; exact h
        · rw [if_neg hphi] at h ⊢
          cases hv : rc k with
          | none => rw [hv] at h; simp at h
          | some c =>
            rw [hv] at h
            rw [hrc k c hv]
            cases c with
            | false => exact h
            | true => exact ih b h
      · rw [if_neg hk] at h ⊢
        exact ih b h

theorem isLoopInvariant_succ_mono (g : Graph) (L : Loop) (fuel : Nat) :
    ∀ i b, isLoopInvariant g L fuel i = some b → isLoopInvariant g L (fuel + 1) i = some b := by
  induction fuel with
  | zero => intro i b h; simp [isLoopInvariant] at h
  | succ n ih =>
    intro i b h
    rw [isLoopInvariant] at h ⊢
    by_cases h1 : L.contains (g.parent i) = false
    · rw [if_pos h1] at h ⊢; exact h
    · rw [if_neg h1] at h ⊢
      by_cases h2 : (g.instr i).opcode = Opcode.load
      · rw [if_pos h2] at h ⊢; exact h
      · rw [if_neg h2] at h ⊢
        exact checkOperands_mono ih _ b h

theorem isLoopInvariant_mono {g : Graph} {L : Loop} {fuel fuel1 : Nat} {i : Nat} {b : Bool}
    (h : isLoopInvariant g L fuel i = some b) (hle : fuel ≤ fuel1) :
    isLoopInvariant g L fuel1 i = some b := by
  induction hle with
  | refl => exact h
  | step _ ih => exact isLoopInvariant_succ_mono g L _ i b ih

theorem checkOperands_ne_none {g : Graph} {L : Loop} {rc : Nat → Option Bool} {i : Nat}
    (ops : List Value)
    (hrc : ∀ j, Value.inst j ∈ ops → L.contains (g.parent j) = true →
      ¬ ((g.instr j).opcode = Opcode.phi ∧ g.parent j = g.parent i) → rc j ≠ none) :
    checkOperands g L rc i ops ≠ none := by
  induction ops with
  | nil => simp [checkOperands]
  | cons op rest ih =>
    have ih1 := ih (fun j hj => hrc j (List.mem_cons_of_mem _ hj))
    cases op with
    | const n => simp only [checkOperands]; exact ih1
    | arg n => simp only [checkOperands]; exact ih1
    | other n => simp [checkOperands]
    | inst k =>
      simp only [checkOperands]
      by_cases hk : L.contains (g.parent k) = true
      · rw [if_pos hk]
        by_cases hphi : (g.instr k).opcode = Opcode.phi ∧ g.parent k = g.parent i
        · rw [if_pos hphi]; simp
        · rw [if_neg hphi]
          have := hrc k (by simp) hk hphi
          cases hv : rc k with
          | none => exact absurd hv this
          | some c =>
            cases c with
            | false => simp
            | true => exact ih1
      · rw [if_neg hk]; exact ih1

theorem isLoopInvariant_terminates {g : Graph} {L : Loop} (rank : Nat → Nat)
    (hrank : ∀ i j, Traversed g L i j → rank j < rank i) :
    ∀ fuel i, rank i < fuel → isLoopInvariant g L fuel i ≠ none := by
  intro fuel
  induction fuel with
  | zero => intro i h; exact absurd h (Nat.not_lt_zero _)
  | succ n ih =>
    intro i hlt
    rw [isLoopInvariant]
    by_cases h1 : L.contains (g.parent i) = false
    · rw [if_pos h1]; simp
    · rw [if_neg h1]
      by_cases h2 : (g.instr i).opcode = Opcode.load
      · rw [if_pos h2]; simp
      · rw [if_neg h2]
        apply checkOperands_ne_none
        intro j hj hin hphi
        apply ih
        have := hrank i j ⟨by simpa using h1, h2, hj, hin, hphi⟩
        omega

theorem usesChain_not_invariant {g : Graph} {L : Loop} {v : Nat}
    (hphi : (g.instr v).opcode = Opcode.phi) (hin : L.contains (g.parent v) = true)
    (xs : List Nat) :
    ∀ a, g.parent a = g.parent v → (g.instr a).opcode ≠ Opcode.load →
      usesChain g a xs v → (∀ x, x ∈ xs → g.parent x = g.parent v) →
      (∀ x, x ∈ xs → (g.instr x).opcode ≠ Opcode.load) →
      ∀ fuel, isLoopInvariant g L fuel a ≠ some true := by
  induction xs with
  | nil =>
    intro a hpa hla hch _ _ fuel
    cases fuel with
    | zero => simp [isLoopInvariant]
    | succ n =>
      rw [isLoopInvariant, if_neg (by rw [hpa, hin]; simp), if_neg hla]
      intro h
      have := (checkOperands_true _ h v hch hin).1
      exact this ⟨hphi, hpa.symm⟩
  | cons x xs ih =>
    intro a hpa hla hch hblk hld fuel
    cases fuel with
    | zero => simp [isLoopInvariant]
    | succ n =>
      rw [isLoopInvariant, if_neg (by rw [hpa, hin]; simp), if_neg hla]
      intro h
      have hx : g.parent x = g.parent v := hblk x (by simp)
      have := (checkOperands_true _ h x hch.1 (by rw [hx]; exact hin)).2
      exact ih x hx (hld x (by simp)) hch.2
        (fun y hy => hblk y (List.mem_cons_of_mem _ hy))
        (fun y hy => hld y (List.mem_cons_of_mem _ hy)) n this
theorem relocate_frame {L : Loop} {dt : DominatorTree} {pre : Nat} (cands : List Nat) :
    ∀ {st st1 : HoistState}, relocate L dt pre st cands = some st1 →
      st1.graph.instr = st.graph.instr ∧
      (∀ x, x ∉ st1.hoisted → st1.graph.parent x = st.graph.parent x) ∧
      (∀ x, x ∈ st.hoisted → x ∈ st1.hoisted) ∧
      (∀ x, x ∈ st.graph.layout → x ∈ st1.graph.layout) ∧
      (∀ x, x ∈ st1.hoisted → x ∈ st.hoisted ∨
        (x ∈ cands ∧ (st.graph.instr x).mayHaveSideEffects = false ∧
          (st.graph.instr x).isSafeToSpeculativelyExecute = true)) := by
  induction cands with
  | nil =>
    intro st st1 h
    simp only [relocate] at h
    have e : st = st1 := Option.some.inj h
    subst e
    exact ⟨rfl, fun _ _ => rfl, fun _ hx => hx, fun _ hx => hx, fun _ hx => Or.inl hx⟩
  | cons c cs ih =>
    intro st st1 h
    simp only [relocate] at h
    cases hs : hoistStep L dt pre st c with
    | none => rw [hs] at h; exact Option.noConfusion h
    | some st2 =>
      rw [hs] at h
      obtain ⟨i1, i2, i3, i4, i5⟩ := ih h
      rcases hoistStep_cases hs with ⟨_, e⟩ | ⟨hg, t, ht, e⟩
      · subst e
        refine ⟨i1, i2, i3, i4, ?_⟩
        intro x hx
        rcases i5 x hx with h5 | ⟨h5, h6⟩
        · exact Or.inl h5
        · exact Or.inr ⟨List.mem_cons_of_mem _ h5, h6⟩
      · subst e
        refine ⟨i1, ?_, ?_, ?_, ?_⟩
        · intro x hx
          rw [i2 x hx]
          have : x ≠ c := by
            intro e
            exact hx (i3 x (by simp [e]))
          simp [moveBefore, this]
        · intro x hx
          exact i3 x (by simp [hx])
        · intro x hx
          exact i4 x ((mem_moveBefore_layout _ _ _ _).mpr (Or.inl hx))
        · intro x hx
          rcases i5 x hx with h5 | ⟨h5, h6⟩
          · simp only [List.mem_append, List.mem_singleton] at h5
            rcases h5 with h5 | h5
            · exact Or.inl h5
            · subst h5
              exact Or.inr ⟨by simp, hg.2.2.1, hg.2.2.2.1⟩
          · exact Or.inr ⟨List.mem_cons_of_mem _ h5, h6⟩

theorem relocate_closed_set {g0 : Graph} {L : Loop} {dt : DominatorTree} {pre : Nat}
    {S : Nat → Prop}
    (hS : ∀ x, S x → ∃ j, S j ∧ Value.inst j ∈ (g0.instr x).operands)
    (hin : ∀ x, S x → L.contains (g0.parent x) = true) (cands : List Nat) :
    ∀ {st st1 : HoistState}, st.graph.instr = g0.instr →
      (∀ x, S x → st.graph.parent x = g0.parent x) → (∀ x, S x → x ∉ st.hoisted) →
      relocate L dt pre st cands = some st1 →
      (∀ x, S x → st1.graph.parent x = g0.parent x) ∧ (∀ x, S x → x ∉ st1.hoisted) := by
  induction cands with
  | nil =>
    intro st st1 _ h2 h3 h
    simp only [relocate] at h
    have e : st = st1 := Option.some.inj h
    subst e
    exact ⟨h2, h3⟩
  | cons c cs ih =>
    intro st st1 h1 h2 h3 h
    simp only [relocate] at h
    cases hs : hoistStep L dt pre st c with
    | none => rw [hs] at h; exact Option.noConfusion h
    | some st2 =>
      rw [hs] at h
      rcases hoistStep_cases hs with ⟨_, e⟩ | ⟨hg, t, ht, e⟩
      · subst e
        exact ih h1 h2 h3 h
      · subst e
        have hc : ¬ S c := by
          intro hsc
          obtain ⟨j, hj, hjo⟩ := hS c hsc
          rw [← h1] at hjo
          have := allOperandsAvailable_iff.mp hg.2.1 j hjo
          rw [h2 j hj, hin j hj] at this
          exact Bool.noConfusion this
        refine @ih (HoistState.mk (moveBefore st.graph c t) true (st.hoisted ++ [c])) st1 h1 ?_ ?_ h
        · intro x hx
          have : x ≠ c := fun e => hc (e ▸ hx)
          simp only [moveBefore, this, if_false]
          exact h2 x hx
        · intro x hx
          have : x ≠ c := fun e => hc (e ▸ hx)
          simp only [List.mem_append, List.mem_singleton, this, or_false]
          exact h3 x hx

theorem hoist_frame {fuel : Nat} {g : Graph} {L : Loop} {dt : DominatorTree}
    {st : HoistState} (h : hoistInvariantInstructions fuel g L dt = some st) :
    st.graph.instr = g.instr ∧
      (∀ x, x ∉ st.hoisted → st.graph.parent x = g.parent x) ∧
      (∀ x, x ∈ g.layout → x ∈ st.graph.layout) ∧
      (∀ x, x ∈ st.hoisted → x ∈ loopInsts g L ∧ (g.instr x).isTerminator = false ∧
        isLoopInvariant g L fuel x = some true ∧ (g.instr x).mayHaveSideEffects = false ∧
        (g.instr x).isSafeToSpeculativelyExecute = true) := by
  cases hp : L.preheader with
  | none =>
    unfold hoistInvariantInstructions at h
    rw [hp] at h
    have e : HoistState.mk g false [] = st := Option.some.inj h
    subst e
    exact ⟨rfl, fun _ _ => rfl, fun _ hx => hx, fun x hx => absurd hx (by simp)⟩
  | some pre =>
    obtain ⟨cands, hc, hr⟩ := hoist_of_preheader hp h
    obtain ⟨i1, i2, _, i4, i5⟩ := relocate_frame cands hr
    refine ⟨i1, i2, i4, ?_⟩
    intro x hx
    rcases i5 x hx with h5 | ⟨h5, h6, h7⟩
    · simp at h5
    · have := (collectInvariants_mem _ hc x).mp h5
      exact ⟨this.1, this.2.1, this.2.2, h6, h7⟩

theorem hoist_closed_set {fuel : Nat} {g : Graph} {L : Loop} {dt : DominatorTree}
    {st : HoistState} {S : Nat → Prop}
    (hS : ∀ x, S x → ∃ j, S j ∧ Value.inst j ∈ (g.instr x).operands)
    (hin : ∀ x, S x → L.contains (g.parent x) = true)
    (h : hoistInvariantInstructions fuel g L dt = some st) :
    (∀ x, S x → st.graph.parent x = g.parent x) ∧ (∀ x, S x → x ∉ st.hoisted) := by
  cases hp : L.preheader with
  | none =>
    unfold hoistInvariantInstructions at h
    rw [hp] at h
    have e : HoistState.mk g false [] = st := Option.some.inj h
    subst e
    exact ⟨fun _ _ => rfl, fun _ _ => by simp⟩
  | some pre =>
    obtain ⟨cands, _, hr⟩ := hoist_of_preheader hp h
    exact relocate_closed_set hS hin cands rfl (fun _ _ => rfl) (fun _ _ => by simp) hr

theorem hoistRepeat_closed_set {fuel : Nat} {L : Loop} {dt : DominatorTree} {S : Nat → Prop}
    (n : Nat) :
    ∀ {g g1 : Graph}, (∀ x, S x → ∃ j, S j ∧ Value.inst j ∈ (g.instr x).operands) →
      (∀ x, S x → L.contains (g.parent x) = true) →
      hoistRepeat fuel L dt n g = some g1 →
      g1.instr = g.instr ∧ ∀ x, S x → g1.parent x = g.parent x := by
  induction n with
  | zero =>
    intro g g1 _ _ h
    simp only [hoistRepeat] at h
    have e : g = g1 := Option.some.inj h
    subst e
    exact ⟨rfl, fun _ _ => rfl⟩
  | succ n ih =>
    intro g g1 hS hin h
    simp only [hoistRepeat] at h
    cases hh : hoistInvariantInstructions fuel g L dt with
    | none => rw [hh] at h; exact Option.noConfusion h
    | some st =>
      rw [hh] at h
      have hf := (hoist_frame hh).1
      obtain ⟨hc1, _⟩ := hoist_closed_set hS hin hh
      have := @ih st.graph g1 (by rw [hf]; exact hS)
        (fun x hx => by rw [hc1 x hx]; exact hin x hx) h
      refine ⟨this.1.trans hf, ?_⟩
      intro x hx
      rw [this.2 x hx, hc1 x hx]

theorem usesChain_closed {g : Graph} {b : Nat} (xs : List Nat) :
    ∀ a, usesChain g a xs b →
      ∀ x, x = a ∨ x ∈ xs → ∃ j, (j = b ∨ j ∈ xs) ∧ Value.inst j ∈ (g.instr x).operands := by
  induction xs with
  | nil =>
    intro a h x hx
    simp only [List.not_mem_nil, or_false] at hx
    subst hx
    exact ⟨b, Or.inl rfl, h⟩
  | cons y ys ih =>
    intro a h x hx
    rcases hx with e | hx
    · subst e
      exact ⟨y, Or.inr (by simp), h.1⟩
    · have hx1 : x = y ∨ x ∈ ys := by simpa using hx
      obtain ⟨j, hj, hjo⟩ := ih y h.2 x hx1
      refine ⟨j, ?_, hjo⟩
      rcases hj with e | e
      · exact Or.inl e
      · exact Or.inr (List.mem_cons_of_mem _ e)
theorem relocate_total {g0 : Graph} {L : Loop} {dt : DominatorTree} {pre t : Nat}
    (hpre : L.contains pre = false) (cands : List Nat) :
    ∀ {st : HoistState}, LayoutInv g0 pre t st →
      ∃ st1, relocate L dt pre st cands = some st1 := by
  induction cands with
  | nil => intro st _; exact ⟨st, rfl⟩
  | cons c cs ih =>
    intro st hl
    have hstep : ∃ st2, hoistStep L dt pre st c = some st2 := by
      by_cases hg : Gate st.graph L dt pre c
      · exact ⟨_, hoistStep_of_gate hg hl.terminator⟩
      · exact ⟨_, hoistStep_of_not_gate hg⟩
    obtain ⟨st2, hs⟩ := hstep
    obtain ⟨st1, h1⟩ := ih (layoutInv_step hpre hl hs)
    exact ⟨st1, by simp only [relocate, hs, h1]⟩

theorem collectInvariants_total {g : Graph} {L : Loop} {fuel : Nat} (l : List Nat)
    (h : ∀ i, i ∈ l → isLoopInvariant g L fuel i ≠ none) :
    ∃ cs, collectInvariants g L fuel l = some cs := by
  induction l with
  | nil => exact ⟨[], rfl⟩
  | cons a rest ih =>
    obtain ⟨cs, hcs⟩ := ih (fun i hi => h i (List.mem_cons_of_mem _ hi))
    unfold collectInvariants
    by_cases ha : (g.instr a).isTerminator = true
    · rw [if_pos ha]; exact ⟨cs, hcs⟩
    · rw [if_neg ha]
      cases hv : isLoopInvariant g L fuel a with
      | none => exact absurd hv (h a (by simp))
      | some b => exact ⟨if b = true then a :: cs else cs, by simp only [hcs]⟩

theorem gate_of_eligible {g0 : Graph} {L : Loop} {dt : DominatorTree} {pre : Nat}
    (hpre : L.contains pre = false) {r : Nat} {st : HoistState}
    (hinv : SweepInv g0 L dt pre st) (hr : r ∉ st.hoisted)
    (hrin : L.contains (g0.parent r) = true)
    (hops : ∀ j, Value.inst j ∈ (g0.instr r).operands → L.contains (g0.parent j) = false)
    (hse : (g0.instr r).mayHaveSideEffects = false)
    (hsafe : (g0.instr r).isSafeToSpeculativelyExecute = true)
    (husers : ∀ u, u ∈ g0.users r → dt.dominates pre (g0.parent u) = true) :
    Gate st.graph L dt pre r := by
  have hpr : st.graph.parent r = g0.parent r := hinv.parent_keep r hr
  refine ⟨by rw [hpr]; exact hrin, ?_, by rw [hinv.instr_eq]; exact hse,
    by rw [hinv.instr_eq]; exact hsafe, ?_⟩
  · rw [allOperandsAvailable_iff]
    intro j hj
    rw [hinv.instr_eq] at hj
    by_cases hjh : j ∈ st.hoisted
    · rw [hinv.parent_moved j hjh]; exact hpre
    · rw [hinv.parent_keep j hjh]; exact hops j hj
  · rw [safeToHoist_iff]
    intro u hu
    obtain ⟨hul, huo⟩ := mem_users.mp hu
    rw [hinv.instr_eq] at huo
    have huh : u ∉ st.hoisted := by
      intro hmem
      have := hinv.moved_operands u hmem r huo
      rw [hpr, hrin] at this
      exact Bool.noConfusion this
    rw [hinv.parent_keep u huh]
    apply husers
    rw [mem_users]
    refine ⟨?_, huo⟩
    rcases (hinv.mem_layout u).mp hul with h0 | h0
    · exact h0
    · exact absurd h0 huh

theorem relocate_hoists_eligible {g0 : Graph} {L : Loop} {dt : DominatorTree} {pre : Nat}
    (hpre : L.contains pre = false) {r : Nat}
    (hrin : L.contains (g0.parent r) = true)
    (hops : ∀ j, Value.inst j ∈ (g0.instr r).operands → L.contains (g0.parent j) = false)
    (hse : (g0.instr r).mayHaveSideEffects = false)
    (hsafe : (g0.instr r).isSafeToSpeculativelyExecute = true)
    (husers : ∀ u, u ∈ g0.users r → dt.dominates pre (g0.parent u) = true)
    (cands : List Nat) :
    ∀ {st st1 : HoistState}, SweepInv g0 L dt pre st → r ∈ cands →
      relocate L dt pre st cands = some st1 → r ∈ st1.hoisted := by
  induction cands with
  | nil => intro st st1 _ hr; simp at hr
  | cons c cs ih =>
    intro st st1 hinv hr h
    by_cases hrh : r ∈ st.hoisted
    · exact (relocate_frame _ h).2.2.1 r hrh
    · simp only [relocate] at h
      cases hs : hoistStep L dt pre st c with
      | none => rw [hs] at h; exact Option.noConfusion h
      | some st2 =>
        rw [hs] at h
        have hinv2 := sweepInv_step hpre hinv hs
        by_cases hc : c = r
        · subst hc
          have hg := gate_of_eligible hpre hinv hrh hrin hops hse hsafe husers
          rcases hoistStep_cases hs with ⟨hng, _⟩ | ⟨_, t, _, e⟩
          · exact absurd hg hng
          · apply (relocate_frame _ h).2.2.1
            rw [e]
            simp
        · have hr1 : r ∈ cs := by
            rcases List.mem_cons.mp hr with e | e
            · exact absurd e.symm hc
            · exact e
          exact ih hinv2 hr1 h

theorem hoist_relocates_eligible {fuel : Nat} {g : Graph} {L : Loop} {dt : DominatorTree}
    {pre t r : Nat} (hp : L.preheader = some pre) (hpre : L.contains pre = false)
    (hnd : g.layout.Nodup) (ht : getTerminator g pre = some t)
    (hterm : ∀ i, i ∈ loopInsts g L → isLoopInvariant g L fuel i ≠ none)
    (hrl : r ∈ g.layout) (hrin : L.contains (g.parent r) = true)
    (hnt : (g.instr r).isTerminator = false)
    (hinvr : isLoopInvariant g L fuel r = some true)
    (hops : ∀ j, Value.inst j ∈ (g.instr r).operands → L.contains (g.parent j) = false)
    (hse : (g.instr r).mayHaveSideEffects = false)
    (hsafe : (g.instr r).isSafeToSpeculativelyExecute = true)
    (husers : ∀ u, u ∈ g.users r → dt.dominates pre (g.parent u) = true) :
    ∃ st, hoistInvariantInstructions fuel g L dt = some st ∧ st.changed = true ∧
      r ∈ st.hoisted ∧ st.graph.parent r = pre ∧ r ∈ st.graph.insts pre := by
  obtain ⟨cands, hc⟩ := collectInvariants_total (loopInsts g L) hterm
  obtain ⟨st, hr⟩ := @relocate_total g L dt pre t hpre cands _ (layoutInv_init hnd ht)
  have hrc : r ∈ cands :=
    (collectInvariants_mem _ hc r).mpr ⟨mem_loopInsts.mpr ⟨hrl, hrin⟩, hnt, hinvr⟩
  have hinv := (sweepInv_relocate hpre cands (sweepInv_init g L dt pre) hr).1
  have hlay := layoutInv_relocate hpre cands (layoutInv_init hnd ht) hr
  have hmem := relocate_hoists_eligible hpre hrin hops hse hsafe husers cands
    (sweepInv_init g L dt pre) hrc hr
  refine ⟨st, ?_, ?_, hmem, hinv.parent_moved r hmem, ?_⟩
  · unfold hoistInvariantInstructions
    rw [hp]
    simp only [hc, hr]
  · exact hinv.changed_iff.mpr (List.ne_nil_of_mem hmem)
  · rw [hlay.pre_insts]
    simp [hmem]

theorem isInvariantLoad_eq_false_iff {g : Graph} {L : Loop} {r : Nat} :
    isInvariantLoad g L r = false ↔
      ∃ s, s ∈ g.layout ∧ L.contains (g.parent s) = true ∧
        (g.instr s).opcode = Opcode.store ∧
        getPointerOperand (g.instr s) = getPointerOperand (g.instr r) := by
  unfold isInvariantLoad Loop.contains
  simp only [Bool.not_eq_false', List.any_eq_true, Bool.and_eq_true, decide_eq_true_eq,
    mem_insts]
  constructor
  · rintro ⟨b, hb, s, ⟨hs, hp⟩, h1, h2⟩
    exact ⟨s, hs, hp ▸ hb, h1, h2⟩
  · rintro ⟨s, hs, hb, h1, h2⟩
    exact ⟨g.parent s, hb, s, ⟨hs, rfl⟩, h1, h2⟩

theorem isLoopInvariant_load {g : Graph} {L : Loop} {r : Nat}
    (hld : (g.instr r).opcode = Opcode.load) (hin : L.contains (g.parent r) = true)
    (fuel : Nat) : isLoopInvariant g L (fuel + 1) r = some (isInvariantLoad g L r) := by
  rw [isLoopInvariant, if_neg (by rw [hin]; simp), if_pos hld]

theorem collectInvariants_eq_filter {g : Graph} {L : Loop} {fuel : Nat} (l : List Nat) :
    ∀ {cs : List Nat}, collectInvariants g L fuel l = some cs →
      cs = l.filter (fun x => !(g.instr x).isTerminator &&
        decide (isLoopInvariant g L fuel x = some true)) := by
  induction l with
  | nil =>
    intro cs h
    simp only [collectInvariants] at h
    rw [← Option.some.inj h]
    rfl
  | cons a rest ih =>
    intro cs h
    unfold collectInvariants at h
    by_cases ha : (g.instr a).isTerminator = true
    · rw [if_pos ha] at h
      rw [ih h, List.filter_cons]
      simp [ha]
    · rw [if_neg ha] at h
      have haf : (g.instr a).isTerminator = false := by simpa using ha
      cases hinv : isLoopInvariant g L fuel a with
      | none => rw [hinv] at h; exact Option.noConfusion h
      | some b =>
        rw [hinv] at h
        cases hrest : collectInvariants g L fuel rest with
        | none => rw [hrest] at h; exact Option.noConfusion h
        | some cs1 =>
          rw [hrest] at h
          have e : (if b = true then a :: cs1 else cs1) = cs := Option.some.inj h
          subst e
          rw [List.filter_cons, ← ih hrest]
          cases b <;> simp [haf, hinv]

theorem relocate_hoisted_sublist {L : Loop} {dt : DominatorTree} {pre : Nat}
    (cands : List Nat) :
    ∀ {st st1 : HoistState}, relocate L dt pre st cands = some st1 →
      ∃ ext, st1.hoisted = st.hoisted ++ ext ∧ ext.Sublist cands := by
  induction cands with
  | nil =>
    intro st st1 h
    simp only [relocate] at h
    rw [← Option.some.inj h]
    exact ⟨[], by simp, List.Sublist.slnil⟩
  | cons c cs ih =>
    intro st st1 h
    simp only [relocate] at h
    cases hs : hoistStep L dt pre st c with
    | none => rw [hs] at h; exact Option.noConfusion h
    | some st2 =>
      rw [hs] at h
      obtain ⟨ext, he, hsub⟩ := ih h
      rcases hoistStep_cases hs with ⟨_, e⟩ | ⟨_, t, _, e⟩
      · subst e
        exact ⟨ext, he, hsub.cons c⟩
      · subst e
        refine ⟨c :: ext, ?_, hsub.cons₂ c⟩
        rw [he]
        simp

theorem checkOperands_eq_spec (g : Graph) (L : Loop) (rc : Nat → Option Bool) (i : Nat)
    (ops : List Value) :
    checkOperands g L rc i ops = allShortCircuit (operandInvariantSpec g L rc i) ops := by
  induction ops with
  | nil => rfl
  | cons op rest ih =>
    cases op with
    | const n => simp only [checkOperands, allShortCircuit, operandInvariantSpec, ih]
    | arg n => simp only [checkOperands, allShortCircuit, operandInvariantSpec, ih]
    | other n => simp only [checkOperands, allShortCircuit, operandInvariantSpec]
    | inst k =>
      simp only [checkOperands, allShortCircuit, operandInvariantSpec]
      by_cases hk : L.contains (g.parent k) = true
      · by_cases hphi : (g.instr k).opcode = Opcode.phi ∧ g.parent k = g.parent i
        · simp only [hk, if_pos hphi, if_true, Bool.true_eq_false, if_false]
        · simp only [hk, hphi, if_true, if_false, Bool.true_eq_false, ih]
      · have hkf : L.contains (g.parent k) = false := by simpa using hk
        simp only [hkf, Bool.false_eq_true, if_true, if_false, ih]

theorem isInvariantReadSpec_eq_false_iff {g : Graph} {L : Loop} {r : Nat} :
    isInvariantReadSpec g L r = false ↔
      ∃ s, s ∈ g.layout ∧ L.contains (g.parent s) = true ∧
        (g.instr s).opcode = Opcode.store ∧
        getPointerOperand (g.instr s) = getPointerOperand (g.instr r) := by
  unfold isInvariantReadSpec
  rw [List.all_eq_false]
  constructor
  · rintro ⟨s, hs, h1⟩
    have hm := mem_loopInsts.mp hs
    simp only [Bool.not_eq_true, Bool.not_eq_false', Bool.and_eq_true,
      decide_eq_true_eq] at h1
    exact ⟨s, hm.1, hm.2, h1.1, h1.2⟩
  · rintro ⟨s, h1, h2, h3, h4⟩
    refine ⟨s, mem_loopInsts.mpr ⟨h1, h2⟩, ?_⟩
    simp [h3, h4]

theorem isInvariantLoad_eq_spec (g : Graph) (L : Loop) (r : Nat) :
    isInvariantLoad g L r = isInvariantReadSpec g L r := by
  cases h1 : isInvariantReadSpec g L r with
  | false => exact isInvariantLoad_eq_false_iff.mpr (isInvariantReadSpec_eq_false_iff.mp h1)
  | true =>
    cases h2 : isInvariantLoad g L r with
    | true => rfl
    | false =>
      have := isInvariantReadSpec_eq_false_iff.mpr (isInvariantLoad_eq_false_iff.mp h2)
      rw [h1] at this
      exact Bool.noConfusion this

theorem isLoopInvariant_eq_spec (g : Graph) (L : Loop) (fuel : Nat) :
    ∀ i, isLoopInvariant g L fuel i = isInvariantSpec g L fuel i := by
  induction fuel with
  | zero => intro i; rfl
  | succ n ih =>
    intro i
    rw [isLoopInvariant, isInvariantSpec]
    have hrec : isLoopInvariant g L n = isInvariantSpec g L n := funext ih
    rw [checkOperands_eq_spec, isInvariantLoad_eq_spec, hrec]

theorem checkOperands_false {g : Graph} {L : Loop} {rc : Nat → Option Bool} {i : Nat}
    (ops : List Value) (h : checkOperands g L rc i ops = some false) :
    (∃ n, Value.other n ∈ ops) ∨
    ∃ j, Value.inst j ∈ ops ∧ L.contains (g.parent j) = true ∧
      (((g.instr j).opcode = Opcode.phi ∧ g.parent j = g.parent i) ∨ rc j = some false) := by
  induction ops with
  | nil => simp [checkOperands] at h
  | cons op rest ih =>
    have lift : ((∃ n, Value.other n ∈ rest) ∨
        ∃ j, Value.inst j ∈ rest ∧ L.contains (g.parent j) = true ∧
          (((g.instr j).opcode = Opcode.phi ∧ g.parent j = g.parent i) ∨ rc j = some false)) →
        ((∃ n, Value.other n ∈ op :: rest) ∨
        ∃ j, Value.inst j ∈ op :: rest ∧ L.contains (g.parent j) = true ∧
          (((g.instr j).opcode = Opcode.phi ∧ g.parent j = g.parent i) ∨
            rc j = some false)) := by
      rintro (⟨n, hn⟩ | ⟨j, hj, h1, h2⟩)
      · exact Or.inl ⟨n, List.mem_cons_of_mem _ hn⟩
      · exact Or.inr ⟨j, List.mem_cons_of_mem _ hj, h1, h2⟩
    cases op with
    | const n => simp only [checkOperands] at h; exact lift (ih h)
    | arg n => simp only [checkOperands] at h; exact lift (ih h)
    | other n => exact Or.inl ⟨n, by simp⟩
    | inst k =>
      simp only [checkOperands] at h
      by_cases hk : L.contains (g.parent k) = true
      · rw [if_pos hk] at h
        by_cases hphi : (g.instr k).opcode = Opcode.phi ∧ g.parent k = g.parent i
        · exact Or.inr ⟨k, by simp, hk, Or.inl hphi⟩
        · rw [if_neg hphi] at h
          cases hrc : rc k with
          | none => rw [hrc] at h; simp at h
          | some b =>
            rw [hrc] at h
            cases b with
            | false => exact Or.inr ⟨k, by simp, hk, Or.inr hrc⟩
            | true => exact lift (ih h)
      · rw [if_neg hk] at h
        exact lift (ih h)

theorem isLoopInvariant_deterministic {g : Graph} {L : Loop} {f1 f2 : Nat} {i : Nat}
    {b1 b2 : Bool} (h1 : isLoopInvariant g L f1 i = some b1)
    (h2 : isLoopInvariant g L f2 i = some b2) : b1 = b2 := by
  have e1 := isLoopInvariant_mono h1 (Nat.le_max_left f1 f2)
  have e2 := isLoopInvariant_mono h2 (Nat.le_max_right f1 f2)
  rw [e1] at e2
  exact Option.some.inj e2

theorem checkOperands_true_no_other {g : Graph} {L : Loop} {rc : Nat → Option Bool} {i : Nat}
    (ops : List Value) (h : checkOperands g L rc i ops = some true) :
    ∀ n, Value.other n ∉ ops := by
  induction ops with
  | nil => intro n hn; simp at hn
  | cons op rest ih =>
    intro n hn
    cases op with
    | const m =>
      simp only [checkOperands] at h
      simp only [List.mem_cons, reduceCtorEq, false_or] at hn
      exact ih h n hn
    | arg m =>
      simp only [checkOperands] at h
      simp only [List.mem_cons, reduceCtorEq, false_or] at hn
      exact ih h n hn
    | other m => simp [checkOperands] at h
    | inst k =>
      simp only [List.mem_cons, reduceCtorEq, false_or] at hn
      simp only [checkOperands] at h
      by_cases hk : L.contains (g.parent k) = true
      · rw [if_pos hk] at h
        by_cases hphi : (g.instr k).opcode = Opcode.phi ∧ g.parent k = g.parent i
        · rw [if_pos hphi] at h
          simp at h
        · rw [if_neg hphi] at h
          cases hrc : rc k with
          | none => rw [hrc] at h; simp at h
          | some b =>
            rw [hrc] at h
            cases b with
            | false => simp at h
            | true => exact ih h n hn
      · rw [if_neg hk] at h
        exact ih h n hn


theorem gate_of_ready {g0 : Graph} {L : Loop} {dt : DominatorTree} {pre : Nat}
    (hpre : L.contains pre = false) {r : Nat} {st : HoistState}
    (hinv : SweepInv g0 L dt pre st) (hr : r ∉ st.hoisted)
    (hrin : L.contains (g0.parent r) = true)
    (hops : ∀ j, Value.inst j ∈ (g0.instr r).operands →
      L.contains (g0.parent j) = false ∨ j ∈ st.hoisted)
    (hse : (g0.instr r).mayHaveSideEffects = false)
    (hsafe : (g0.instr r).isSafeToSpeculativelyExecute = true)
    (husers : ∀ u, u ∈ g0.users r → dt.dominates pre (g0.parent u) = true) :
    Gate st.graph L dt pre r := by
  have hpr : st.graph.parent r = g0.parent r := hinv.parent_keep r hr
  refine ⟨by rw [hpr]; exact hrin, ?_, by rw [hinv.instr_eq]; exact hse,
    by rw [hinv.instr_eq]; exact hsafe, ?_⟩
  · rw [allOperandsAvailable_iff]
    intro j hj
    rw [hinv.instr_eq] at hj
    by_cases hjh : j ∈ st.hoisted
    · rw [hinv.parent_moved j hjh]; exact hpre
    · rw [hinv.parent_keep j hjh]
      rcases hops j hj with h0 | h0
      · exact h0
      · exact absurd h0 hjh
  · rw [safeToHoist_iff]
    intro u hu
    obtain ⟨hul, huo⟩ := mem_users.mp hu
    rw [hinv.instr_eq] at huo
    have huh : u ∉ st.hoisted := by
      intro hmem
      have := hinv.moved_operands u hmem r huo
      rw [hpr, hrin] at this
      exact Bool.noConfusion this
    rw [hinv.parent_keep u huh]
    apply husers
    rw [mem_users]
    refine ⟨?_, huo⟩
    rcases (hinv.mem_layout u).mp hul with h0 | h0
    · exact h0
    · exact absurd h0 huh

theorem chainReady_mono {g : Graph} {L : Loop} (chain : List Nat) :
    ∀ {done done1 : List Nat}, (∀ j, j ∈ done → j ∈ done1) →
      ChainReady g L done chain → ChainReady g L done1 chain := by
  induction chain with
  | nil => intro _ _ _ _; trivial
  | cons x rest ih =>
    intro done done1 hsub h
    refine ⟨?_, ih ?_ h.2⟩
    · intro j hj
      rcases h.1 j hj with h0 | h0
      · exact Or.inl h0
      · exact Or.inr (hsub j h0)
    · intro j hj
      rcases List.mem_cons.mp hj with e | e
      · exact List.mem_cons.mpr (Or.inl e)
      · exact List.mem_cons_of_mem _ (hsub j e)

theorem relocate_hoists_chain {g0 : Graph} {L : Loop} {dt : DominatorTree} {pre : Nat}
    (hpre : L.contains pre = false) (cands : List Nat) :
    ∀ {chain done : List Nat} {st st1 : HoistState}, SweepInv g0 L dt pre st →
      chain.Sublist cands → (∀ j, j ∈ done → j ∈ st.hoisted) →
      ChainReady g0 L done chain →
      (∀ x, x ∈ chain → L.contains (g0.parent x) = true ∧
        (g0.instr x).mayHaveSideEffects = false ∧
        (g0.instr x).isSafeToSpeculativelyExecute = true ∧
        ∀ u, u ∈ g0.users x → dt.dominates pre (g0.parent u) = true) →
      relocate L dt pre st cands = some st1 → ∀ x, x ∈ chain → x ∈ st1.hoisted := by
  induction cands with
  | nil =>
    intro chain done st st1 _ hsub _ _ _ _ x hx
    rw [List.sublist_nil.mp hsub] at hx
    simp at hx
  | cons c cs ih =>
    intro chain done st st1 hinv hsub hdone hready helig h x hx
    simp only [relocate] at h
    cases hs : hoistStep L dt pre st c with
    | none => rw [hs] at h; exact Option.noConfusion h
    | some st2 =>
      rw [hs] at h
      have hinv2 := sweepInv_step hpre hinv hs
      have hmono : ∀ j, j ∈ st.hoisted → j ∈ st2.hoisted := by
        intro j hj
        rcases hoistStep_cases hs with ⟨_, e⟩ | ⟨_, t, _, e⟩
        · rw [e]; exact hj
        · rw [e]; simp [hj]
      rcases List.sublist_cons_iff.mp hsub with hsub1 | ⟨rest, e, hsub1⟩
      · exact ih hinv2 hsub1 (fun j hj => hmono j (hdone j hj)) hready helig h x hx
      · subst e
        have hc2 : c ∈ st2.hoisted := by
          by_cases hch : c ∈ st.hoisted
          · exact hmono c hch
          · obtain ⟨e1, e2, e3, e4⟩ := helig c (by simp)
            have hops : ∀ j, Value.inst j ∈ (g0.instr c).operands →
                L.contains (g0.parent j) = false ∨ j ∈ st.hoisted := by
              intro j hj
              rcases hready.1 j hj with h0 | h0
              · exact Or.inl h0
              · exact Or.inr (hdone j h0)
            have hg := gate_of_ready hpre hinv hch e1 hops e2 e3 e4
            rcases hoistStep_cases hs with ⟨hng, _⟩ | ⟨_, t, _, e⟩
            · exact absurd hg hng
            · rw [e]; simp
        rcases List.mem_cons.mp hx with e | e
        · rw [e]
          exact (relocate_frame cs h).2.2.1 c hc2
        · refine @ih rest (c :: done) st2 st1 hinv2 hsub1 ?_ hready.2
            (fun y hy => helig y (List.mem_cons_of_mem _ hy)) h x e
          intro j hj
          rcases List.mem_cons.mp hj with e1 | e1
          · rw [e1]; exact hc2
          · exact hmono j (hdone j e1)
theorem callInv_refl {g0 : Graph} {L : Loop} {pre t : Nat} (hnd : g0.layout.Nodup)
    (ht : getTerminator g0 pre = some t) : CallInv g0 L pre t g0 :=
  ⟨rfl, hnd, fun _ => Iff.rfl, ht, fun _ => Or.inl rfl⟩

theorem callInv_in_loop {g0 g : Graph} {L : Loop} {pre t : Nat}
    (hpre : L.contains pre = false) (hc : CallInv g0 L pre t g) {x : Nat}
    (hx : L.contains (g.parent x) = true) : g.parent x = g0.parent x := by
  rcases hc.parent x with h0 | ⟨h0, _⟩
  · exact h0
  · rw [h0, hpre] at hx
    exact Bool.noConfusion hx

theorem callInv_outside {g0 g : Graph} {L : Loop} {pre t : Nat}
    (hpre : L.contains pre = false) (hc : CallInv g0 L pre t g) {x : Nat}
    (hx : L.contains (g0.parent x) = false) : L.contains (g.parent x) = false := by
  rcases hc.parent x with h0 | ⟨h0, _⟩
  · rw [h0]; exact hx
  · rw [h0]; exact hpre

theorem callInv_hoist {g0 g : Graph} {L : Loop} {dt : DominatorTree} {pre t : Nat}
    {fuel : Nat} {st : HoistState} (hp : L.preheader = some pre)
    (hpre : L.contains pre = false) (hc : CallInv g0 L pre t g)
    (h : hoistInvariantInstructions fuel g L dt = some st) :
    CallInv g0 L pre t st.graph ∧
    (∀ j, L.contains (g.parent j) = false → L.contains (st.graph.parent j) = false) ∧
    (∀ j, j ∈ st.hoisted → st.graph.parent j = pre) := by
  obtain ⟨cands, hcs, hr⟩ := hoist_of_preheader hp h
  obtain ⟨hinv, hsub⟩ := sweepInv_relocate hpre cands (sweepInv_init g L dt pre) hr
  have hlay := layoutInv_relocate hpre cands (layoutInv_init hc.nodup hc.terminator) hr
  have hout : ∀ j, L.contains (g.parent j) = false →
      L.contains (st.graph.parent j) = false := by
    intro j hj
    by_cases hjh : j ∈ st.hoisted
    · rw [hinv.parent_moved j hjh]; exact hpre
    · rw [hinv.parent_keep j hjh]; exact hj
  refine ⟨⟨hinv.instr_eq.trans hc.instr_eq, hlay.nodup, ?_, hlay.terminator, ?_⟩, hout,
    hinv.parent_moved⟩
  · intro x
    rw [hinv.mem_layout, ← hc.mem_layout]
    constructor
    · rintro (h0 | h0)
      · exact h0
      · rcases hsub x h0 with h1 | h1
        · simp at h1
        · exact (mem_loopInsts.mp ((collectInvariants_mem _ hcs x).mp h1).1).1
    · exact fun h0 => Or.inl h0
  · intro x
    by_cases hx : x ∈ st.hoisted
    · right
      refine ⟨hinv.parent_moved x hx, ?_, ?_⟩
      · have := hinv.moved_from_loop x hx
        rw [callInv_in_loop hpre hc this] at this
        exact this
      · intro j hj
        rw [← hc.instr_eq] at hj
        exact hinv.moved_operands x hx j hj
    · rw [hinv.parent_keep x hx]
      rcases hc.parent x with h0 | ⟨h0, h1, h2⟩
      · exact Or.inl h0
      · exact Or.inr ⟨h0, h1, fun j hj => hout j (h2 j hj)⟩

theorem traversed_of_callInv {g0 g : Graph} {L : Loop} {pre t : Nat}
    (hpre : L.contains pre = false) (hc : CallInv g0 L pre t g) {i j : Nat}
    (h : Traversed g L i j) : Traversed g0 L i j := by
  obtain ⟨h1, h2, h3, h4, h5⟩ := h
  have e1 := callInv_in_loop hpre hc h1
  have e2 := callInv_in_loop hpre hc h4
  rw [hc.instr_eq] at h2 h3 h5
  rw [e1] at h1 h5
  rw [e2] at h4 h5
  exact ⟨h1, h2, h3, h4, h5⟩

theorem loopInsts_of_callInv {g0 g : Graph} {L : Loop} {pre t : Nat}
    (hpre : L.contains pre = false) (hc : CallInv g0 L pre t g) {i : Nat}
    (h : i ∈ loopInsts g L) : i ∈ loopInsts g0 L := by
  obtain ⟨h1, h2⟩ := mem_loopInsts.mp h
  have e := callInv_in_loop hpre hc h2
  rw [e] at h2
  exact mem_loopInsts.mpr ⟨(hc.mem_layout i).mp h1, h2⟩

theorem hoist_total_of_callInv {g0 g : Graph} {L : Loop} {dt : DominatorTree} {pre t : Nat}
    {fuel : Nat} (rank : Nat → Nat) (hp : L.preheader = some pre)
    (hpre : L.contains pre = false) (hc : CallInv g0 L pre t g)
    (hrank : ∀ i j, Traversed g0 L i j → rank j < rank i)
    (hfuel : ∀ i, i ∈ loopInsts g0 L → rank i < fuel) :
    (∀ i, i ∈ loopInsts g L → isLoopInvariant g L fuel i ≠ none) ∧
    ∃ st, hoistInvariantInstructions fuel g L dt = some st := by
  have hterm : ∀ i, i ∈ loopInsts g L → isLoopInvariant g L fuel i ≠ none := by
    intro i hi
    exact isLoopInvariant_terminates rank
      (fun a b hab => hrank a b (traversed_of_callInv hpre hc hab)) fuel i
      (hfuel i (loopInsts_of_callInv hpre hc hi))
  refine ⟨hterm, ?_⟩
  obtain ⟨cands, hcs⟩ := collectInvariants_total (loopInsts g L) hterm
  obtain ⟨st, hr⟩ := @relocate_total g L dt pre t hpre cands _
    (layoutInv_init hc.nodup hc.terminator)
  refine ⟨st, ?_⟩
  unfold hoistInvariantInstructions
  rw [hp]
  simp only [hcs, hr]

theorem checkOperands_eq_true_of {g : Graph} {L : Loop} {rc : Nat → Option Bool} {i : Nat}
    (ops : List Value) (hno : ∀ n, Value.other n ∉ ops)
    (hall : ∀ j, Value.inst j ∈ ops → L.contains (g.parent j) = true →
      ¬ ((g.instr j).opcode = Opcode.phi ∧ g.parent j = g.parent i) ∧ rc j = some true) :
    checkOperands g L rc i ops = some true := by
  induction ops with
  | nil => rfl
  | cons op rest ih =>
    have ih1 := ih (fun n hn => hno n (List.mem_cons_of_mem _ hn))
      (fun j hj => hall j (List.mem_cons_of_mem _ hj))
    cases op with
    | const n => simp only [checkOperands]; exact ih1
    | arg n => simp only [checkOperands]; exact ih1
    | other n => exact absurd (List.mem_cons_self _ _) (hno n)
    | inst k =>
      simp only [checkOperands]
      by_cases hk : L.contains (g.parent k) = true
      · obtain ⟨h1, h2⟩ := hall k (List.mem_cons_self _ _) hk
        rw [if_pos hk, if_neg h1, h2]
        exact ih1
      · rw [if_neg hk]; exact ih1

theorem isLoopInvariant_persist {g0 g : Graph} {L : Loop} {pre t : Nat}
    (hpre : L.contains pre = false) (hc : CallInv g0 L pre t g) (fuel : Nat) :
    ∀ x, isLoopInvariant g0 L fuel x = some true → isLoopInvariant g L fuel x = some true := by
  induction fuel with
  | zero => intro x h; simp [isLoopInvariant] at h
  | succ n ih =>
    intro x h
    rw [isLoopInvariant]
    by_cases h1 : L.contains (g.parent x) = false
    · rw [if_pos h1]
    · have h1t : L.contains (g.parent x) = true := by simpa using h1
      have ex := callInv_in_loop hpre hc h1t
      have h0t : L.contains (g0.parent x) = true := by rw [← ex]; exact h1t
      rw [if_neg h1, hc.instr_eq]
      rw [isLoopInvariant, if_neg (by rw [h0t]; simp)] at h
      by_cases h2 : (g0.instr x).opcode = Opcode.load
      · rw [if_pos h2] at h ⊢
        have h0 : isInvariantLoad g0 L x = true := Option.some.inj h
        cases hv : isInvariantLoad g L x with
        | true => rfl
        | false =>
          exfalso
          obtain ⟨s, s1, s2, s3, s4⟩ := isInvariantLoad_eq_false_iff.mp hv
          have es := callInv_in_loop hpre hc s2
          rw [hc.instr_eq] at s3 s4
          rw [es] at s2
          have := isInvariantLoad_eq_false_iff.mpr ⟨s, (hc.mem_layout s).mp s1, s2, s3, s4⟩
          rw [h0] at this
          exact Bool.noConfusion this
      · rw [if_neg h2] at h ⊢
        apply checkOperands_eq_true_of
        · exact checkOperands_true_no_other _ h
        · intro j hj hjin
          have ej := callInv_in_loop hpre hc hjin
          have hj0 : L.contains (g0.parent j) = true := by rw [← ej]; exact hjin
          obtain ⟨p1, p2⟩ := checkOperands_true _ h j hj hj0
          rw [hc.instr_eq, ej, ex]
          exact ⟨p1, ih j p2⟩
theorem hoist_call_relocates {g0 g : Graph} {L : Loop} {dt : DominatorTree} {pre t : Nat}
    {fuel : Nat} (rank : Nat → Nat) (hp : L.preheader = some pre)
    (hpre : L.contains pre = false) (hc : CallInv g0 L pre t g)
    (hrank : ∀ i j, Traversed g0 L i j → rank j < rank i)
    (hfuel : ∀ i, i ∈ loopInsts g0 L → rank i < fuel) {x : Nat}
    (hx0 : x ∈ g0.layout) (hin : L.contains (g.parent x) = true)
    (hnt : (g0.instr x).isTerminator = false)
    (hinv0 : isLoopInvariant g0 L fuel x = some true)
    (hops : ∀ j, Value.inst j ∈ (g0.instr x).operands → L.contains (g.parent j) = false)
    (hse : (g0.instr x).mayHaveSideEffects = false)
    (hsafe : (g0.instr x).isSafeToSpeculativelyExecute = true)
    (husers : ∀ u, u ∈ g0.users x → dt.dominates pre (g0.parent u) = true) :
    ∃ st, hoistInvariantInstructions fuel g L dt = some st ∧ x ∈ st.hoisted := by
  have hterm := (@hoist_total_of_callInv g0 g L dt pre t fuel rank hp hpre hc hrank hfuel).1
  have husers1 : ∀ u, u ∈ g.users x → dt.dominates pre (g.parent u) = true := by
    intro u hu
    obtain ⟨hul, huo⟩ := mem_users.mp hu
    rw [hc.instr_eq] at huo
    have hpu : g.parent u = g0.parent u := by
      rcases hc.parent u with h0 | ⟨_, _, h2⟩
      · exact h0
      · have := h2 x huo
        rw [hin] at this
        exact Bool.noConfusion this
    rw [hpu]
    exact husers u (mem_users.mpr ⟨(hc.mem_layout u).mp hul, huo⟩)
  obtain ⟨st, h1, _, h3, _⟩ := @hoist_relocates_eligible fuel g L dt pre t x hp hpre
    hc.nodup hc.terminator hterm ((hc.mem_layout x).mpr hx0) hin
    (by rw [hc.instr_eq]; exact hnt) (isLoopInvariant_persist hpre hc fuel x hinv0)
    (by rw [hc.instr_eq]; exact hops) (by rw [hc.instr_eq]; exact hse)
    (by rw [hc.instr_eq]; exact hsafe) husers1
  exact ⟨st, h1, h3⟩

theorem chain_progress {g0 : Graph} {L : Loop} {dt : DominatorTree} {pre t : Nat}
    {fuel : Nat} (rank : Nat → Nat) (hp : L.preheader = some pre)
    (hpre : L.contains pre = false)
    (hrank : ∀ i j, Traversed g0 L i j → rank j < rank i)
    (hfuel : ∀ i, i ∈ loopInsts g0 L → rank i < fuel) (chain : List Nat) :
    ∀ (done : List Nat) (g : Graph), CallInv g0 L pre t g →
      (∀ j, j ∈ done → L.contains (g.parent j) = false) →
      ChainReady g0 L done chain →
      (∀ x, x ∈ chain → x ∈ g0.layout ∧ (g0.instr x).isTerminator = false ∧
        isLoopInvariant g0 L fuel x = some true ∧
        (g0.instr x).mayHaveSideEffects = false ∧
        (g0.instr x).isSafeToSpeculativelyExecute = true ∧
        ∀ u, u ∈ g0.users x → dt.dominates pre (g0.parent u) = true) →
      ∃ g1, hoistRepeat fuel L dt chain.length g = some g1 ∧ CallInv g0 L pre t g1 ∧
        (∀ x, x ∈ chain → L.contains (g1.parent x) = false) ∧
        (∀ j, L.contains (g.parent j) = false → L.contains (g1.parent j) = false) := by
  induction chain with
  | nil =>
    intro done g hc _ _ _
    exact ⟨g, rfl, hc, fun x hx => absurd hx (by simp), fun _ hj => hj⟩
  | cons x rest ih =>
    intro done g hc hdone hready helig
    obtain ⟨e0, e1, e2, e3, e4, e5⟩ := helig x (by simp)
    have hstep : ∃ st, hoistInvariantInstructions fuel g L dt = some st ∧
        L.contains (st.graph.parent x) = false := by
      by_cases hxin : L.contains (g.parent x) = true
      · have hops : ∀ j, Value.inst j ∈ (g0.instr x).operands →
            L.contains (g.parent j) = false := by
          intro j hj
          rcases hready.1 j hj with h0 | h0
          · exact callInv_outside hpre hc h0
          · exact hdone j h0
        obtain ⟨st, h1, h2⟩ := hoist_call_relocates rank hp hpre hc hrank hfuel e0 hxin e1
          e2 hops e3 e4 e5
        refine ⟨st, h1, ?_⟩
        rw [(callInv_hoist hp hpre hc h1).2.2 x h2]
        exact hpre
      · obtain ⟨st, h1⟩ := (@hoist_total_of_callInv g0 g L dt pre t fuel rank hp hpre hc hrank hfuel).2
        exact ⟨st, h1, (callInv_hoist hp hpre hc h1).2.1 x (by simpa using hxin)⟩
    obtain ⟨st, h1, hxout⟩ := hstep
    obtain ⟨hc1, hmono, _⟩ := callInv_hoist hp hpre hc h1
    have hdone1 : ∀ j, j ∈ x :: done → L.contains (st.graph.parent j) = false := by
      intro j hj
      rcases List.mem_cons.mp hj with e | e
      · rw [e]; exact hxout
      · exact hmono j (hdone j e)
    obtain ⟨g1, r1, r2, r3, r4⟩ := ih (x :: done) st.graph hc1 hdone1 hready.2
      (fun y hy => helig y (List.mem_cons_of_mem _ hy))
    refine ⟨g1, ?_, r2, ?_, fun j hj => r4 j (hmono j hj)⟩
    · simp only [List.length_cons, hoistRepeat, h1]
      exact r1
    · intro y hy
      rcases List.mem_cons.mp hy with e | e
      · rw [e]; exact r4 x hxout
      · exact r3 y e

theorem hoistRepeat_more {g0 : Graph} {L : Loop} {dt : DominatorTree} {pre t : Nat}
    {fuel : Nat} (rank : Nat → Nat) (hp : L.preheader = some pre)
    (hpre : L.contains pre = false)
    (hrank : ∀ i j, Traversed g0 L i j → rank j < rank i)
    (hfuel : ∀ i, i ∈ loopInsts g0 L → rank i < fuel) (k : Nat) :
    ∀ g, CallInv g0 L pre t g →
      ∃ g1, hoistRepeat fuel L dt k g = some g1 ∧ CallInv g0 L pre t g1 ∧
        (∀ j, L.contains (g.parent j) = false → L.contains (g1.parent j) = false) := by
  induction k with
  | zero => intro g hc; exact ⟨g, rfl, hc, fun _ hj => hj⟩
  | succ k ih =>
    intro g hc
    obtain ⟨st, h1⟩ := (@hoist_total_of_callInv g0 g L dt pre t fuel rank hp hpre hc hrank hfuel).2
    obtain ⟨hc1, hmono, _⟩ := callInv_hoist hp hpre hc h1
    obtain ⟨g1, r1, r2, r3⟩ := ih st.graph hc1
    refine ⟨g1, ?_, r2, fun j hj => r3 j (hmono j hj)⟩
    simp only [hoistRepeat, h1]
    exact r1

theorem hoistRepeat_add (fuel : Nat) (L : Loop) (dt : DominatorTree) (a b : Nat) :
    ∀ g, hoistRepeat fuel L dt (a + b) g =
      (hoistRepeat fuel L dt a g).bind (fun g1 => hoistRepeat fuel L dt b g1) := by
  induction a with
  | zero => intro g; simp [hoistRepeat]
  | succ a ih =>
    intro g
    rw [Nat.succ_add]
    simp only [hoistRepeat]
    cases hh : hoistInvariantInstructions fuel g L dt with
    | none => simp
    | some st => simpa using ih st.graph

theorem filter_flatMap_insts (p : Nat → Bool) (f : Nat → List Nat) (l : List Nat) :
    (l.flatMap f).filter p = l.flatMap (fun b => (f b).filter p) := by
  induction l with
  | nil => rfl
  | cons a rest ih => simp only [List.flatMap_cons, List.filter_append, ih]

theorem loopInsts_after_hoist {fuel : Nat} {g : Graph} {L : Loop} {dt : DominatorTree}
    {pre : Nat} {st : HoistState} (hp : L.preheader = some pre)
    (hpre : L.contains pre = false) (hnd : g.layout.Nodup)
    (h : hoistInvariantInstructions fuel g L dt = some st) :
    loopInsts st.graph L = (loopInsts g L).filter (fun x => decide (x ∉ st.hoisted)) ∧
    (∀ x, x ∈ st.hoisted → x ∈ loopInsts g L) ∧
    (st.changed = true ↔ st.hoisted ≠ []) ∧ (st.hoisted = [] → st.graph = g) := by
  obtain ⟨cands, hc, hr⟩ := hoist_of_preheader hp h
  obtain ⟨hinv, hsub⟩ := sweepInv_relocate hpre cands (sweepInv_init g L dt pre) hr
  have hfrom : ∀ x, x ∈ st.hoisted → x ∈ loopInsts g L := by
    intro x hx
    rcases hsub x hx with h0 | h0
    · simp at h0
    · exact ((collectInvariants_mem _ hc x).mp h0).1
  refine ⟨?_, hfrom, hinv.changed_iff, hinv.unchanged⟩
  cases ht : getTerminator g pre with
  | none =>
    have e := relocate_no_terminator cands (by exact ht) hr
    subst e
    simp
  | some t =>
    have hlay := layoutInv_relocate hpre cands (layoutInv_init hnd ht) hr
    unfold loopInsts
    rw [filter_flatMap_insts]
    apply List.flatMap_congr
    intro b hb
    apply hlay.other_insts
    intro e
    rw [e] at hb
    have : L.contains pre = true := by simpa [Loop.contains] using hb
    rw [hpre] at this
    exact Bool.noConfusion this
/-- Witness for C2 on scenario A: the relocated multiplication `23`. -/
theorem hoist_relocates_only_safe_witness :
    (scenarioAGraph.instr 23).mayHaveSideEffects = false ∧
      (scenarioAGraph.instr 23).isSafeToSpeculativelyExecute = true ∧
      (scenarioAGraph.instr 23).isTerminator = false ∧
      (∀ u, u ∈ scenarioAGraph.users 23 → lineDT.dominates 0 (scenarioAGraph.parent u) = true) ∧
      scenarioAResult.graph.parent 23 = 0 ∧ scenarioAResult.graph.instr = scenarioAGraph.instr :=
  hoist_relocates_only_safe 3 scenarioAGraph scenarioALoop lineDT 0 scenarioAResult rfl
    (by decide) rfl 23 (by decide)

/-- C3 (relocation target, as the code has it): every instruction that a
call of the sweep moves is, right after its move, in the preheader
immediately before the preheader's terminator with none of its instruction
operands in a loop block; at the end of the call it is still in the
preheader, before the terminator and separated from it exactly by the
instructions that the same call relocated after it, and its instruction
operands are still outside the loop. -/
theorem hoist_relocation_target (fuel : Nat) (g : Graph) (L : Loop) (dt : DominatorTree)
    (pre : Nat) (st : HoistState) (hp : L.preheader = some pre) (hout : pre ∉ L.blocks)
    (hnd : g.layout.Nodup) (h : hoistInvariantInstructions fuel g L dt = some st) :
    ∀ i, i ∈ st.hoisted →
      ∃ cs1 cs2 before t,
        collectInvariants g L fuel (loopInsts g L) = some (cs1 ++ i :: cs2) ∧
        relocate L dt pre (HoistState.mk g false []) cs1 = some before ∧
        i ∉ before.hoisted ∧ L.contains (before.graph.parent i) = true ∧
        getTerminator before.graph pre = some t ∧
        relocate L dt pre
          (HoistState.mk (moveBefore before.graph i t) true (before.hoisted ++ [i])) cs2 =
            some st ∧
        (∃ body, (moveBefore before.graph i t).insts pre = body ++ [i, t]) ∧
        (moveBefore before.graph i t).parent i = pre ∧
        (∀ j, Value.inst j ∈ (g.instr i).operands →
          (moveBefore before.graph i t).parent j ∉ L.blocks) ∧
        st.graph.parent i = pre ∧
        (∃ later, st.hoisted = before.hoisted ++ i :: later ∧
          st.graph.insts pre =
            (g.insts pre).dropLast ++ before.hoisted ++ i :: later ++ [t]) ∧
        (∀ j, Value.inst j ∈ (g.instr i).operands → st.graph.parent j ∉ L.blocks) := by
  intro i hi
  obtain ⟨cands, hc, hr⟩ := hoist_of_preheader hp h
  have hpre : L.contains pre = false := by simpa [Loop.contains] using hout
  have hnc : ∀ b, L.contains b = false → b ∉ L.blocks := by
    intro b hb
    simpa [Loop.contains] using hb
  rcases relocate_trace cands hr i hi with h0 | ⟨cs1, cs2, before, t, e, hr1, hnb, hg, ht, hr2⟩
  · simp at h0
  · have hinvB := (sweepInv_relocate hpre cs1 (sweepInv_init g L dt pre) hr1).1
    have hstep := hoistStep_of_gate hg ht
    have hinvM := sweepInv_step hpre hinvB hstep
    have hinvE := (sweepInv_relocate hpre cs2 hinvM hr2).1
    have ht0 : getTerminator g pre = some t := by
      cases hg0 : getTerminator g pre with
      | none =>
        have := relocate_no_terminator cs1 (by exact hg0) hr1
        rw [this] at ht
        rw [hg0] at ht
        exact Option.noConfusion ht
      | some t0 =>
        have hl := layoutInv_relocate hpre cs1 (layoutInv_init hnd hg0) hr1
        exact congrArg some (Option.some.inj (hl.terminator.symm.trans ht))
    have hlB := layoutInv_relocate hpre cs1 (layoutInv_init hnd ht0) hr1
    have hlM := layoutInv_step hpre hlB hstep
    have hlE := layoutInv_relocate hpre cs2 hlM hr2
    have himid : i ∈ before.hoisted ++ [i] := by simp
    refine ⟨cs1, cs2, before, t, e ▸ hc, hr1, hnb, hg.1, ht, hr2, ?_, ?_, ?_, ?_, ?_, ?_⟩
    · refine ⟨(g.insts pre).dropLast ++ before.hoisted, ?_⟩
      have := hlM.pre_insts
      simp only at this
      rw [this]
      simp
    · exact hinvM.parent_moved i himid
    · intro j hj
      exact hnc _ (hinvM.moved_operands i himid j hj)
    · exact hinvE.parent_moved i hi
    · obtain ⟨later, hl, _⟩ := relocate_hoisted_sublist cs2 hr2
      simp only at hl
      refine ⟨later, by rw [hl]; simp, ?_⟩
      rw [hlE.pre_insts, hl]
      simp
    · intro j hj
      exact hnc _ (hinvE.moved_operands i hi j hj)

/-- Witness for C3 on scenario A: the relocated addition `20`. -/
theorem hoist_relocation_target_witness :
    ∃ cs1 cs2 before t,
      collectInvariants scenarioAGraph scenarioALoop 3
        (loopInsts scenarioAGraph scenarioALoop) = some (cs1 ++ 20 :: cs2) ∧
      relocate scenarioALoop lineDT 0 (HoistState.mk scenarioAGraph false []) cs1 =
        some before ∧
      20 ∉ before.hoisted ∧ scenarioALoop.contains (before.graph.parent 20) = true ∧
      getTerminator before.graph 0 = some t ∧
      relocate scenarioALoop lineDT 0
        (HoistState.mk (moveBefore before.graph 20 t) true (before.hoisted ++ [20])) cs2 =
          some scenarioAResult ∧
      (∃ body, (moveBefore before.graph 20 t).insts 0 = body ++ [20, t]) ∧
      (moveBefore before.graph 20 t).parent 20 = 0 ∧
      (∀ j, Value.inst j ∈ (scenarioAGraph.instr 20).operands →
        (moveBefore before.graph 20 t).parent j ∉ scenarioALoop.blocks) ∧
      scenarioAResult.graph.parent 20 = 0 ∧
      (∃ later, scenarioAResult.hoisted = before.hoisted ++ 20 :: later ∧
        scenarioAResult.graph.insts 0 =
          (scenarioAGraph.insts 0).dropLast ++ before.hoisted ++ 20 :: later ++ [t]) ∧
      (∀ j, Value.inst j ∈ (scenarioAGraph.instr 20).operands →
        scenarioAResult.graph.parent j ∉ scenarioALoop.blocks) :=
  hoist_relocation_target 3 scenarioAGraph scenarioALoop lineDT 0 scenarioAResult rfl
    (by decide) (by decide) rfl 20 (by decide)

/-- Counterexample to C3 as stated: one call of the sweep on scenario A
relocates `20` and then `23`; at the end of the call the preheader is
`[20, 23, 10]`, so the relocated `20` is in the preheader but not immediately
before the terminator `10`. -/
theorem relocated_not_adjacent_to_terminator :
    hoistInvariantInstructions 3 scenarioAGraph scenarioALoop lineDT = some scenarioAResult ∧
      scenarioALoop.preheader = some 0 ∧ 0 ∉ scenarioALoop.blocks ∧
      20 ∈ scenarioAResult.hoisted ∧
      getTerminator scenarioAResult.graph 0 = some 10 ∧
      scenarioAResult.graph.insts 0 = [20, 23, 10] ∧
      ¬ ∃ body, scenarioAResult.graph.insts 0 = body ++ [20, 10] := by
  refine ⟨rfl, rfl, by decide, by decide, by decide, by decide, ?_⟩
  rintro ⟨body, hb⟩
  have h3 : scenarioAResult.graph.insts 0 = [20, 23, 10] := by decide
  rw [h3] at hb
  have h4 : [20, 23, 10] = [20, 23] ++ [10] := rfl
  have h5 : body ++ [20, 10] = (body ++ [20]) ++ [10] := by simp
  rw [h4, h5] at hb
  have h6 := (List.append_inj' hb rfl).1
  have h7 : [20, 23] = [20] ++ [23] := rfl
  rw [h7] at h6
  have h8 := (List.append_inj' h6 rfl).2
  exact absurd h8 (by decide)
/-- C1 (termination, refuted on the code): on the counted loop, whose header
merge node `11` takes the value `13` computed in the latch block from `11`,
the classifier exhausts every recursion budget on both instructions, and
neither the sweep nor `run` returns. -/
theorem isLoopInvariant_diverges_on_countedLoop :
    ∀ fuel, isLoopInvariant countedLoopGraph countedLoop fuel 11 = none ∧
      isLoopInvariant countedLoopGraph countedLoop fuel 13 = none ∧
      hoistInvariantInstructions fuel countedLoopGraph countedLoop lineDT = none ∧
      run fuel countedLoopGraph countedLoop lineDT = none := by
  have key : ∀ fuel, isLoopInvariant countedLoopGraph countedLoop fuel 11 = none ∧
      isLoopInvariant countedLoopGraph countedLoop fuel 13 = none := by
    intro fuel
    induction fuel with
    | zero => exact ⟨rfl, rfl⟩
    | succ n ih =>
      obtain ⟨h1, h2⟩ := ih
      constructor
      · rw [isLoopInvariant, if_neg (by decide), if_neg (by decide)]
        show checkOperands countedLoopGraph countedLoop _ 11
          [Value.const 0, Value.inst 13] = none
        rw [checkOperands, checkOperands, if_pos (by decide), if_neg (by decide), h2]
      · rw [isLoopInvariant, if_neg (by decide), if_neg (by decide)]
        show checkOperands countedLoopGraph countedLoop _ 13
          [Value.inst 11, Value.const 1] = none
        rw [checkOperands, if_pos (by decide), if_neg (by decide), h1]
  intro fuel
  have hl : loopInsts countedLoopGraph countedLoop = [11, 12, 13, 14] := by decide
  have hh : hoistInvariantInstructions fuel countedLoopGraph countedLoop lineDT = none := by
    have hc : collectInvariants countedLoopGraph countedLoop fuel
        (loopInsts countedLoopGraph countedLoop) = none := by
      rw [hl, collectInvariants, if_neg (by decide), (key fuel).1]
    unfold hoistInvariantInstructions
    rw [show countedLoop.preheader = some 0 from rfl]
    simp only [hc]
  refine ⟨(key fuel).1, (key fuel).2, hh, ?_⟩
  unfold run
  rw [show countedLoop.preheader = some 0 from rfl]
  simp only [hh]

/-- C4 (no-preheader no-op): without a preheader the sweep returns `false`
for every recursion budget, relocates nothing and leaves the graph as it was
(every block keeps its instruction sequence); `run` reports all analyses
preserved. -/
theorem hoist_no_preheader (fuel : Nat) (g : Graph) (L : Loop) (dt : DominatorTree)
    (hp : L.preheader = none) :
    ∃ st, hoistInvariantInstructions fuel g L dt = some st ∧ st.changed = false ∧
      st.hoisted = [] ∧ st.graph = g ∧ (∀ b, st.graph.insts b = g.insts b) ∧
      run fuel g L dt = some (PreservedAnalyses.all, g) := by
  refine ⟨HoistState.mk g false [], ?_, rfl, rfl, rfl, fun _ => rfl, ?_⟩
  · unfold hoistInvariantInstructions
    rw [hp]
  · unfold run
    rw [hp]

/-- Witness for C4: the counted loop taken without a preheader. -/
theorem hoist_no_preheader_witness :
    ∃ st, hoistInvariantInstructions 0 countedLoopGraph noPreheaderLoop lineDT = some st ∧
      st.changed = false ∧ st.hoisted = [] ∧ st.graph = countedLoopGraph ∧
      (∀ b, st.graph.insts b = countedLoopGraph.insts b) ∧
      run 0 countedLoopGraph noPreheaderLoop lineDT =
        some (PreservedAnalyses.all, countedLoopGraph) :=
  hoist_no_preheader 0 countedLoopGraph noPreheaderLoop lineDT rfl

/-- C6 (scenario C, refuted on the code): the header merge node `11` of
`scenarioCGraph` has one incoming value from the preheader and one that is
the update `13`, located in the body block and computed from `11`; for every
recursion budget the candidate enumeration, the sweep and `run` fail to
return. -/
theorem hoist_diverges_on_scenarioC :
    (scenarioCGraph.instr 11).opcode = Opcode.phi ∧
      (scenarioCGraph.instr 11).operands = [Value.inst 9, Value.inst 13] ∧
      scenarioCGraph.parent 9 = 0 ∧ scenarioCLoop.contains 0 = false ∧
      scenarioCLoop.preheader = some 0 ∧
      scenarioCGraph.parent 11 = 1 ∧ scenarioCGraph.parent 13 = 2 ∧
      scenarioCLoop.contains 1 = true ∧ scenarioCLoop.contains 2 = true ∧
      Value.inst 11 ∈ (scenarioCGraph.instr 13).operands ∧
      ∀ fuel,
        collectInvariants scenarioCGraph scenarioCLoop fuel
          (loopInsts scenarioCGraph scenarioCLoop) = none ∧
        hoistInvariantInstructions fuel scenarioCGraph scenarioCLoop lineDT = none ∧
        run fuel scenarioCGraph scenarioCLoop lineDT = none := by
  have key : ∀ fuel, isLoopInvariant scenarioCGraph scenarioCLoop fuel 11 = none ∧
      isLoopInvariant scenarioCGraph scenarioCLoop fuel 13 = none := by
    intro fuel
    induction fuel with
    | zero => exact ⟨rfl, rfl⟩
    | succ n ih =>
      obtain ⟨h1, h2⟩ := ih
      constructor
      · rw [isLoopInvariant, if_neg (by decide), if_neg (by decide)]
        show checkOperands scenarioCGraph scenarioCLoop _ 11
          [Value.inst 9, Value.inst 13] = none
        rw [checkOperands, if_neg (by decide), checkOperands, if_pos (by decide),
          if_neg (by decide), h2]
      · rw [isLoopInvariant, if_neg (by decide), if_neg (by decide)]
        show checkOperands scenarioCGraph scenarioCLoop _ 13
          [Value.inst 11, Value.const 1] = none
        rw [checkOperands, if_pos (by decide), if_neg (by decide), h1]
  refine ⟨rfl, rfl, rfl, by decide, rfl, rfl, rfl, by decide, by decide, by decide, ?_⟩
  intro fuel
  have hl : loopInsts scenarioCGraph scenarioCLoop = [11, 12, 13, 14] := by decide
  have hc : collectInvariants scenarioCGraph scenarioCLoop fuel
      (loopInsts scenarioCGraph scenarioCLoop) = none := by
    rw [hl, collectInvariants, if_neg (by decide), (key fuel).1]
  have hh : hoistInvariantInstructions fuel scenarioCGraph scenarioCLoop lineDT = none := by
    unfold hoistInvariantInstructions
    rw [show scenarioCLoop.preheader = some 0 from rfl]
    simp only [hc]
  refine ⟨hc, hh, ?_⟩
  unfold run
  rw [show scenarioCLoop.preheader = some 0 from rfl]
  simp only [hh]
theorem phiAddRank_decreases :
    ∀ i j, Traversed phiAddGraph singleBlockLoop i j → phiAddRank j < phiAddRank i := by
  intro i j h
  obtain ⟨_, _, h3, _, h5⟩ := h
  by_cases h11 : i = 11
  · subst h11
    have hj : j = 12 := by
      have : Value.inst j ∈ [Value.const 0, Value.inst 12] := h3
      simpa using this
    subst hj
    decide
  · by_cases h12 : i = 12
    · subst h12
      have hj : j = 11 := by
        have : Value.inst j ∈ [Value.inst 11, Value.const 1] := h3
        simpa using this
      subst hj
      exact absurd ⟨rfl, rfl⟩ h5
    · exfalso
      have : (phiAddGraph.instr i).operands = [] := by
        unfold phiAddGraph
        simp only
        rfl
      rw [this] at h3
      simp at h3

/-- C5 (self-reference guard, as the code has it): a merge node of the loop
that reaches itself through operand references inside its own block is never
relocated, by one call of the sweep or by any number of successive calls;
when no instruction on that cycle is a load, the classifier never answers
"invariant" for it and answers "not invariant" as soon as its recursion is
well-founded and the budget exceeds the rank of the merge node. -/
theorem phi_self_reference_guard (g : Graph) (L : Loop) (v : Nat) (xs : List Nat)
    (hphi : (g.instr v).opcode = Opcode.phi) (hin : L.contains (g.parent v) = true)
    (hch : usesChain g v xs v) (hblk : ∀ x, x ∈ xs → g.parent x = g.parent v) :
    ((∀ x, x ∈ xs → (g.instr x).opcode ≠ Opcode.load) →
      (∀ fuel, isLoopInvariant g L fuel v ≠ some true) ∧
      (∀ rank : Nat → Nat, (∀ i j, Traversed g L i j → rank j < rank i) →
        ∀ fuel, rank v < fuel → isLoopInvariant g L fuel v = some false)) ∧
    (∀ fuel dt st, hoistInvariantInstructions fuel g L dt = some st →
      v ∉ st.hoisted ∧ st.graph.parent v = g.parent v) ∧
    (∀ fuel dt n g1, hoistRepeat fuel L dt n g = some g1 → g1.parent v = g.parent v) := by
  have hvl : (g.instr v).opcode ≠ Opcode.load := by rw [hphi]; decide
  have hS : ∀ x, (x = v ∨ x ∈ xs) →
      ∃ j, (j = v ∨ j ∈ xs) ∧ Value.inst j ∈ (g.instr x).operands :=
    usesChain_closed xs v hch
  have hSin : ∀ x, (x = v ∨ x ∈ xs) → L.contains (g.parent x) = true := by
    intro x hx
    rcases hx with e | e
    · rw [e]; exact hin
    · rw [hblk x e]; exact hin
  refine ⟨?_, ?_, ?_⟩
  · intro hnl
    have hnt : ∀ fuel, isLoopInvariant g L fuel v ≠ some true :=
      usesChain_not_invariant hphi hin xs v rfl hvl hch hblk hnl
    refine ⟨hnt, ?_⟩
    intro rank hrank fuel hlt
    have hne := isLoopInvariant_terminates rank hrank fuel v hlt
    cases hr : isLoopInvariant g L fuel v with
    | none => exact absurd hr hne
    | some b =>
      cases b with
      | false => rfl
      | true => exact absurd hr (hnt fuel)
  · intro fuel dt st h
    obtain ⟨h1, h2⟩ := hoist_closed_set (S := fun x => x = v ∨ x ∈ xs) hS hSin h
    exact ⟨h2 v (Or.inl rfl), h1 v (Or.inl rfl)⟩
  · intro fuel dt n g1 h
    exact (hoistRepeat_closed_set (S := fun x => x = v ∨ x ∈ xs) n hS hSin h).2 v (Or.inl rfl)

/-- Witness for C5: the merge node `11` of `phiAddGraph`, fed by the
addition `12` of its own block. -/
theorem phi_self_reference_guard_witness :
    (∀ fuel, isLoopInvariant phiAddGraph singleBlockLoop fuel 11 ≠ some true) ∧
      isLoopInvariant phiAddGraph singleBlockLoop 2 11 = some false ∧
      (∀ fuel dt st, hoistInvariantInstructions fuel phiAddGraph singleBlockLoop dt = some st →
        11 ∉ st.hoisted ∧ st.graph.parent 11 = phiAddGraph.parent 11) ∧
      (∀ fuel dt n g1, hoistRepeat fuel singleBlockLoop dt n phiAddGraph = some g1 →
        g1.parent 11 = phiAddGraph.parent 11) :=
  have T := phi_self_reference_guard phiAddGraph singleBlockLoop 11 [12] rfl (by decide)
    (by decide) (by decide)
  have hnl : ∀ x, x ∈ [12] → (phiAddGraph.instr x).opcode ≠ Opcode.load := by decide
  ⟨(T.1 hnl).1, (T.1 hnl).2 phiAddRank phiAddRank_decreases 2 (by decide), T.2.1, T.2.2⟩

/-- Counterexample to C5 as stated: the merge node `11` of `phiLoadGraph`
reaches itself through the load `12` of its own block, whose address operand
it is, and the classifier answers "invariant" for it with every budget of at
least two. -/
theorem phi_fed_by_load_classified_invariant :
    (phiLoadGraph.instr 11).opcode = Opcode.phi ∧
      singleBlockLoop.contains (phiLoadGraph.parent 11) = true ∧
      usesChain phiLoadGraph 11 [12] 11 ∧
      phiLoadGraph.parent 12 = phiLoadGraph.parent 11 ∧
      (phiLoadGraph.instr 12).opcode = Opcode.load ∧
      getPointerOperand (phiLoadGraph.instr 12) = some (Value.inst 11) ∧
      ∀ fuel, isLoopInvariant phiLoadGraph singleBlockLoop (fuel + 2) 11 = some true := by
  refine ⟨rfl, by decide, by decide, rfl, rfl, rfl, ?_⟩
  intro fuel
  have h12 : isLoopInvariant phiLoadGraph singleBlockLoop (fuel + 1) 12 = some true := by
    rw [isLoopInvariant, if_neg (by decide), if_pos (by decide)]
    decide
  rw [isLoopInvariant, if_neg (by decide), if_neg (by decide)]
  show checkOperands phiLoadGraph singleBlockLoop _ 11 [Value.const 0, Value.inst 12] = some true
  rw [checkOperands, checkOperands, if_pos (by decide), if_neg (by decide), h12]
  rfl
theorem hoist_load_stays {g : Graph} {L : Loop} {r : Nat}
    (hld : (g.instr r).opcode = Opcode.load) (hin : L.contains (g.parent r) = true)
    (hfalse : isInvariantLoad g L r = false)
    {fuel : Nat} {dt : DominatorTree} {st : HoistState}
    (h : hoistInvariantInstructions fuel g L dt = some st) :
    r ∉ st.hoisted ∧ st.graph.parent r = g.parent r := by
  obtain ⟨_, f2, _, f4⟩ := hoist_frame h
  have hr : r ∉ st.hoisted := by
    intro hmem
    have := (f4 r hmem).2.2.1
    cases fuel with
    | zero => simp [isLoopInvariant] at this
    | succ n =>
      rw [isLoopInvariant_load hld hin n, hfalse] at this
      simp at this
  exact ⟨hr, f2 r hr⟩

theorem hoistRepeat_load_stays {L : Loop} {r s : Nat} {fuel : Nat} {dt : DominatorTree}
    (n : Nat) :
    ∀ {g g1 : Graph}, (g.instr r).opcode = Opcode.load → L.contains (g.parent r) = true →
      (g.instr s).opcode = Opcode.store → s ∈ g.layout → L.contains (g.parent s) = true →
      getPointerOperand (g.instr s) = getPointerOperand (g.instr r) →
      (g.instr s).mayHaveSideEffects = true →
      hoistRepeat fuel L dt n g = some g1 → g1.parent r = g.parent r := by
  induction n with
  | zero =>
    intro g g1 _ _ _ _ _ _ _ h
    simp only [hoistRepeat] at h
    rw [← Option.some.inj h]
  | succ n ih =>
    intro g g1 hld hrin hst hsl hsin hptr hse h
    simp only [hoistRepeat] at h
    cases hh : hoistInvariantInstructions fuel g L dt with
    | none => rw [hh] at h; exact Option.noConfusion h
    | some st =>
      rw [hh] at h
      obtain ⟨f1, f2, f3, f4⟩ := hoist_frame hh
      have hfalse : isInvariantLoad g L r = false :=
        isInvariantLoad_eq_false_iff.mpr ⟨s, hsl, hsin, hst, hptr⟩
      obtain ⟨_, hpr⟩ := hoist_load_stays hld hrin hfalse hh
      have hs : s ∉ st.hoisted := by
        intro hmem
        have := (f4 s hmem).2.2.2.1
        rw [hse] at this
        exact Bool.noConfusion this
      have hps := f2 s hs
      have := @ih st.graph g1 (by rw [f1]; exact hld) (by rw [hpr]; exact hrin)
        (by rw [f1]; exact hst) (f3 s hsl) (by rw [hps]; exact hsin)
        (by rw [f1]; exact hptr) (by rw [f1]; exact hse) h
      rw [this, hpr]

/-- C7 (memory conservatism, negative half): a load of a loop block whose
address operand is also the address operand of a store located in some block
of the loop is classified non-invariant, is not relocated by a call of the
sweep and keeps its block; the same holds after any number of successive
calls as long as the store has side effects.  Other instructions of the loop
may still move in the same call, as in scenario B. -/
theorem load_with_matching_store_stays (g : Graph) (L : Loop) (r s : Nat)
    (hld : (g.instr r).opcode = Opcode.load) (hrin : L.contains (g.parent r) = true)
    (hst : (g.instr s).opcode = Opcode.store) (hsl : s ∈ g.layout)
    (hsin : L.contains (g.parent s) = true)
    (hptr : getPointerOperand (g.instr s) = getPointerOperand (g.instr r)) :
    (∀ fuel, isLoopInvariant g L (fuel + 1) r = some false) ∧
    (∀ fuel dt st, hoistInvariantInstructions fuel g L dt = some st →
      r ∉ st.hoisted ∧ st.graph.parent r = g.parent r) ∧
    ((g.instr s).mayHaveSideEffects = true →
      ∀ fuel dt n g1, hoistRepeat fuel L dt n g = some g1 → g1.parent r = g.parent r) ∧
    (hoistInvariantInstructions 1 scenarioBGraph scenarioBLoop lineDT = some scenarioBResult ∧
      20 ∉ scenarioBResult.hoisted ∧ 21 ∈ scenarioBResult.hoisted ∧
      scenarioBResult.graph.insts 0 = [21, 10] ∧
      scenarioBResult.graph.insts 1 = [20, 22]) := by
  have hfalse : isInvariantLoad g L r = false :=
    isInvariantLoad_eq_false_iff.mpr ⟨s, hsl, hsin, hst, hptr⟩
  refine ⟨?_, ?_, ?_, rfl, by decide, by decide, by decide, by decide⟩
  · intro fuel
    rw [isLoopInvariant_load hld hrin fuel, hfalse]
  · intro fuel dt st h
    exact hoist_load_stays hld hrin hfalse h
  · intro hse fuel dt n g1 h
    exact hoistRepeat_load_stays n hld hrin hst hsl hsin hptr hse h

/-- Witness for C7 on scenario B: the load `20` and the store `23`. -/
theorem load_with_matching_store_stays_witness :
    (∀ fuel, isLoopInvariant scenarioBGraph scenarioBLoop (fuel + 1) 20 = some false) ∧
    (∀ fuel dt st, hoistInvariantInstructions fuel scenarioBGraph scenarioBLoop dt = some st →
      20 ∉ st.hoisted ∧ st.graph.parent 20 = scenarioBGraph.parent 20) ∧
    (∀ fuel dt n g1, hoistRepeat fuel scenarioBLoop dt n scenarioBGraph = some g1 →
      g1.parent 20 = scenarioBGraph.parent 20) ∧
    (hoistInvariantInstructions 1 scenarioBGraph scenarioBLoop lineDT = some scenarioBResult ∧
      20 ∉ scenarioBResult.hoisted ∧ 21 ∈ scenarioBResult.hoisted ∧
      scenarioBResult.graph.insts 0 = [21, 10] ∧
      scenarioBResult.graph.insts 1 = [20, 22]) :=
  have T := load_with_matching_store_stays scenarioBGraph scenarioBLoop 20 23 rfl (by decide)
    rfl (by decide) (by decide) rfl
  ⟨T.1, T.2.1, T.2.2.1 rfl, T.2.2.2⟩
/-- C10 (the changed flag): the sweep returns `true` exactly when it relocated
at least one instruction, and `false` exactly when every block holds the same
instruction sequence as before the call (the graph is then the same graph);
`run` reports no analyses preserved when the sweep returned `true` and all
preserved otherwise. -/
theorem changed_iff_relocated (fuel : Nat) (g : Graph) (L : Loop) (dt : DominatorTree)
    (st : HoistState) (hout : ∀ pre, L.preheader = some pre → pre ∉ L.blocks)
    (h : hoistInvariantInstructions fuel g L dt = some st) :
    (st.changed = true ↔ st.hoisted ≠ []) ∧
    (st.changed = false ↔ ∀ b, st.graph.insts b = g.insts b) ∧
    (st.changed = false → st.graph = g) ∧
    run fuel g L dt =
      some (if st.changed then PreservedAnalyses.none else PreservedAnalyses.all, st.graph) := by
  cases hp : L.preheader with
  | none =>
    have h1 := h
    unfold hoistInvariantInstructions at h1
    rw [hp] at h1
    have e : HoistState.mk g false [] = st := Option.some.inj h1
    subst e
    refine ⟨by simp, by simp, fun _ => rfl, ?_⟩
    unfold run
    rw [hp]
    rfl
  | some pre =>
    obtain ⟨cands, hc, hr⟩ := hoist_of_preheader hp h
    have hpre : L.contains pre = false := by simpa [Loop.contains] using hout pre hp
    obtain ⟨hinv, hsub⟩ := sweepInv_relocate hpre cands (sweepInv_init g L dt pre) hr
    have hfalse : st.changed = false → st.graph = g := by
      intro hch
      apply hinv.unchanged
      by_contra hne
      have := hinv.changed_iff.mpr hne
      rw [hch] at this
      exact Bool.noConfusion this
    refine ⟨hinv.changed_iff, ⟨?_, ?_⟩, hfalse, ?_⟩
    · intro hch b
      rw [hfalse hch]
    · intro hsame
      cases hch : st.changed with
      | false => rfl
      | true =>
        exfalso
        have hne := hinv.changed_iff.mp hch
        obtain ⟨x, hx⟩ := List.exists_mem_of_ne_nil _ hne
        have hxc : x ∈ cands := by
          rcases hsub x hx with h0 | h0
          · simp at h0
          · exact h0
        have hxl := ((collectInvariants_mem _ hc x).mp hxc).1
        have hx0 : x ∈ g.insts (g.parent x) := mem_insts.mpr ⟨(mem_loopInsts.mp hxl).1, rfl⟩
        rw [← hsame (g.parent x)] at hx0
        have hp1 := (mem_insts.mp hx0).2
        rw [hinv.parent_moved x hx] at hp1
        have := hinv.moved_from_loop x hx
        rw [← hp1, hpre] at this
        exact Bool.noConfusion this
    · unfold run
      rw [hp]
      simp only [h]

/-- Witness for C10 on scenario A, where the sweep relocates two
instructions and returns `true`. -/
theorem changed_iff_relocated_witness :
    (scenarioAResult.changed = true ↔ scenarioAResult.hoisted ≠ []) ∧
    (scenarioAResult.changed = false ↔
      ∀ b, scenarioAResult.graph.insts b = scenarioAGraph.insts b) ∧
    (scenarioAResult.changed = false → scenarioAResult.graph = scenarioAGraph) ∧
    run 3 scenarioAGraph scenarioALoop lineDT =
      some (if scenarioAResult.changed then PreservedAnalyses.none else PreservedAnalyses.all,
        scenarioAResult.graph) :=
  changed_iff_relocated 3 scenarioAGraph scenarioALoop lineDT scenarioAResult
    (by decide) rfl
theorem safeLoadRank_decreases :
    ∀ i j, Traversed safeLoadGraph singleBlockLoop i j → safeLoadRank j < safeLoadRank i := by
  intro i j h
  obtain ⟨_, h2, h3, _, _⟩ := h
  by_cases h21 : i = 21
  · subst h21
    have hj : j = 20 := by
      have : Value.inst j ∈ [Value.inst 20, Value.const 1] := h3
      simpa using this
    subst hj
    decide
  · by_cases h20 : i = 20
    · subst h20
      exact absurd rfl h2
    · exfalso
      have : (safeLoadGraph.instr i).operands = [] := by
        unfold safeLoadGraph
        simp only
        rfl
      rw [this] at h3
      simp at h3

/-- C8 (memory conservatism, positive half, as the code has it): in a loop
whose preheader lies outside the loop and ends in a terminator, and on which
the recursion of the classifier is well-founded, a load of a loop block whose
address operand is not the address operand of any store of the loop is
classified invariant and collected as a candidate, and the call of the sweep
returns; the call returns `true` and relocates the load into the preheader
when, moreover, no instruction operand of the load is in a loop block, the
load has no side effects, it is safe to speculate, and the preheader
dominates the block of every instruction that uses it. -/
theorem load_without_store_relocated (fuel : Nat) (g : Graph) (L : Loop) (dt : DominatorTree)
    (pre t r : Nat) (rank : Nat → Nat)
    (hp : L.preheader = some pre) (hout : pre ∉ L.blocks) (hnd : g.layout.Nodup)
    (ht : getTerminator g pre = some t)
    (hrank : ∀ i j, Traversed g L i j → rank j < rank i)
    (hfuel : ∀ i, i ∈ loopInsts g L → rank i < fuel)
    (hld : (g.instr r).opcode = Opcode.load) (hrl : r ∈ g.layout)
    (hrin : L.contains (g.parent r) = true) (hnt : (g.instr r).isTerminator = false)
    (hno : ∀ s, s ∈ g.layout → L.contains (g.parent s) = true →
      (g.instr s).opcode = Opcode.store →
      getPointerOperand (g.instr s) ≠ getPointerOperand (g.instr r)) :
    isLoopInvariant g L fuel r = some true ∧
    (∃ cands, collectInvariants g L fuel (loopInsts g L) = some cands ∧ r ∈ cands) ∧
    (∃ st, hoistInvariantInstructions fuel g L dt = some st) ∧
    ((∀ j, Value.inst j ∈ (g.instr r).operands → L.contains (g.parent j) = false) →
      (g.instr r).mayHaveSideEffects = false →
      (g.instr r).isSafeToSpeculativelyExecute = true →
      (∀ u, u ∈ g.users r → dt.dominates pre (g.parent u) = true) →
      ∃ st, hoistInvariantInstructions fuel g L dt = some st ∧ st.changed = true ∧
        r ∈ st.hoisted ∧ st.graph.parent r = pre ∧ r ∈ st.graph.insts pre) := by
  have hpre : L.contains pre = false := by simpa [Loop.contains] using hout
  have hterm : ∀ i, i ∈ loopInsts g L → isLoopInvariant g L fuel i ≠ none :=
    fun i hi => isLoopInvariant_terminates rank hrank fuel i (hfuel i hi)
  have hload : isInvariantLoad g L r = true := by
    cases hv : isInvariantLoad g L r with
    | true => rfl
    | false =>
      obtain ⟨s, h1, h2, h3, h4⟩ := isInvariantLoad_eq_false_iff.mp hv
      exact absurd h4 (hno s h1 h2 h3)
  have hinvr : isLoopInvariant g L fuel r = some true := by
    have hpos : 0 < fuel := Nat.lt_of_le_of_lt (Nat.zero_le _)
      (hfuel r (mem_loopInsts.mpr ⟨hrl, hrin⟩))
    obtain ⟨n, hn⟩ := Nat.exists_eq_succ_of_ne_zero (Nat.pos_iff_ne_zero.mp hpos)
    rw [hn, isLoopInvariant_load hld hrin n, hload]
  obtain ⟨cands, hc⟩ := collectInvariants_total (loopInsts g L) hterm
  obtain ⟨st0, hr0⟩ := @relocate_total g L dt pre t hpre cands _ (layoutInv_init hnd ht)
  refine ⟨hinvr, ⟨cands, hc, ?_⟩, ⟨st0, ?_⟩, ?_⟩
  · exact (collectInvariants_mem _ hc r).mpr ⟨mem_loopInsts.mpr ⟨hrl, hrin⟩, hnt, hinvr⟩
  · unfold hoistInvariantInstructions
    rw [hp]
    simp only [hc, hr0]
  · intro hops hse hsafe husers
    exact hoist_relocates_eligible hp hpre hnd ht hterm hrl hrin hnt hinvr hops hse
      hsafe husers

/-- Witness for C8: the load `20` of `safeLoadGraph`. -/
theorem load_without_store_relocated_witness :
    isLoopInvariant safeLoadGraph singleBlockLoop 2 20 = some true ∧
    (∃ cands, collectInvariants safeLoadGraph singleBlockLoop 2
        (loopInsts safeLoadGraph singleBlockLoop) = some cands ∧ 20 ∈ cands) ∧
    (∃ st, hoistInvariantInstructions 2 safeLoadGraph singleBlockLoop lineDT = some st) ∧
    ∃ st, hoistInvariantInstructions 2 safeLoadGraph singleBlockLoop lineDT = some st ∧
      st.changed = true ∧ 20 ∈ st.hoisted ∧ st.graph.parent 20 = 0 ∧
      20 ∈ st.graph.insts 0 :=
  have T := load_without_store_relocated 2 safeLoadGraph singleBlockLoop lineDT 0 10 20
    safeLoadRank rfl (by decide) (by decide) (by decide) safeLoadRank_decreases (by decide)
    rfl (by decide) (by decide) rfl (by decide)
  ⟨T.1, T.2.1, T.2.2.1, T.2.2.2
    (fun j hj => absurd (show Value.inst j ∈ [Value.arg 0] from hj) (by simp))
    rfl rfl (by decide)⟩

/-- Counterexample to C8 as stated: the load `20` of `unsafeLoadGraph` is in
a loop block, no store of the loop has its address operand, its only operand
is a function argument, and the classifier answers "invariant" for it; yet
the sweep returns `false` and leaves it in the loop, because the load is not
safe to speculate. -/
theorem load_without_store_not_relocated :
    (unsafeLoadGraph.instr 20).opcode = Opcode.load ∧
      singleBlockLoop.contains (unsafeLoadGraph.parent 20) = true ∧
      (unsafeLoadGraph.instr 20).operands = [Value.arg 0] ∧
      (∀ s, s ∈ unsafeLoadGraph.layout → (unsafeLoadGraph.instr s).opcode ≠ Opcode.store) ∧
      ∀ fuel,
        isLoopInvariant unsafeLoadGraph singleBlockLoop (fuel + 1) 20 = some true ∧
        hoistInvariantInstructions (fuel + 1) unsafeLoadGraph singleBlockLoop lineDT =
          some (HoistState.mk unsafeLoadGraph false []) := by
  refine ⟨rfl, by decide, rfl, by decide, ?_⟩
  intro fuel
  exact ⟨rfl, rfl⟩
/-- C9 (scenario A, refuted on the code): in `scenarioACountedGraph` the
addition `20 = a + b` of the loop body meets every premise of the scenario
(operands defined outside the loop, no side effects, safe to speculate, its
user in a block that the preheader dominates), but the loop also holds the
counter `11`/`13`, on which the classifier does not return: for every
recursion budget the sweep and `run` fail to return, so `20` is not
relocated. -/
theorem hoist_diverges_on_scenarioA_in_counted_loop :
    countedLoop.preheader = some 0 ∧
      (∀ b, b ∈ countedLoop.blocks → lineDT.dominates 0 b = true) ∧
      countedLoop.contains (scenarioACountedGraph.parent 20) = true ∧
      (scenarioACountedGraph.instr 20).opcode = Opcode.other ∧
      (scenarioACountedGraph.instr 20).isTerminator = false ∧
      (scenarioACountedGraph.instr 20).operands = [Value.arg 0, Value.arg 1] ∧
      (scenarioACountedGraph.instr 20).mayHaveSideEffects = false ∧
      (scenarioACountedGraph.instr 20).isSafeToSpeculativelyExecute = true ∧
      scenarioACountedGraph.users 20 = [21] ∧
      (∀ u, u ∈ scenarioACountedGraph.users 20 →
        lineDT.dominates 0 (scenarioACountedGraph.parent u) = true) ∧
      (∀ fuel, isLoopInvariant scenarioACountedGraph countedLoop (fuel + 1) 20 = some true) ∧
      ∀ fuel,
        hoistInvariantInstructions fuel scenarioACountedGraph countedLoop lineDT = none ∧
        run fuel scenarioACountedGraph countedLoop lineDT = none := by
  have key : ∀ fuel, isLoopInvariant scenarioACountedGraph countedLoop fuel 11 = none ∧
      isLoopInvariant scenarioACountedGraph countedLoop fuel 13 = none := by
    intro fuel
    induction fuel with
    | zero => exact ⟨rfl, rfl⟩
    | succ n ih =>
      obtain ⟨h1, h2⟩ := ih
      constructor
      · rw [isLoopInvariant, if_neg (by decide), if_neg (by decide)]
        show checkOperands scenarioACountedGraph countedLoop _ 11
          [Value.const 0, Value.inst 13] = none
        rw [checkOperands, checkOperands, if_pos (by decide), if_neg (by decide), h2]
      · rw [isLoopInvariant, if_neg (by decide), if_neg (by decide)]
        show checkOperands scenarioACountedGraph countedLoop _ 13
          [Value.inst 11, Value.const 1] = none
        rw [checkOperands, if_pos (by decide), if_neg (by decide), h1]
  refine ⟨rfl, by decide, by decide, rfl, rfl, rfl, rfl, rfl, by decide, by decide,
    fun _ => rfl, ?_⟩
  intro fuel
  have hl : loopInsts scenarioACountedGraph countedLoop = [11, 12, 20, 21, 13, 14] := by
    decide
  have hc : collectInvariants scenarioACountedGraph countedLoop fuel
      (loopInsts scenarioACountedGraph countedLoop) = none := by
    rw [hl, collectInvariants, if_neg (by decide), (key fuel).1]
  have hh : hoistInvariantInstructions fuel scenarioACountedGraph countedLoop lineDT =
      none := by
    unfold hoistInvariantInstructions
    rw [show countedLoop.preheader = some 0 from rfl]
    simp only [hc]
  refine ⟨hh, ?_⟩
  unfold run
  rw [show countedLoop.preheader = some 0 from rfl]
  simp only [hh]
/-- C11 (frame effect): a call of the sweep on a loop with a preheader keeps
the instructions of the graph (the layout afterwards is a permutation of the
layout before, without duplicates, and no instruction changes); every block
other than the preheader holds its original sequence with the relocated
instructions removed, blocks outside the loop other than the preheader are
unchanged, and the preheader keeps its original instructions in their order
with the same terminator; the relocated instructions come from loop blocks. -/
theorem hoist_frame_effect (fuel : Nat) (g : Graph) (L : Loop) (dt : DominatorTree)
    (pre : Nat) (st : HoistState) (hp : L.preheader = some pre) (hout : pre ∉ L.blocks)
    (hnd : g.layout.Nodup) (h : hoistInvariantInstructions fuel g L dt = some st) :
    st.graph.instr = g.instr ∧ st.graph.layout.Perm g.layout ∧ st.graph.layout.Nodup ∧
    (∀ x, x ∈ st.hoisted → x ∈ g.layout ∧ L.contains (g.parent x) = true) ∧
    (∀ b, b ≠ pre →
      st.graph.insts b = (g.insts b).filter (fun x => decide (x ∉ st.hoisted))) ∧
    (∀ b, b ≠ pre → b ∉ L.blocks → st.graph.insts b = g.insts b) ∧
    (st.graph.insts pre).filter (fun x => decide (x ∉ st.hoisted)) = g.insts pre ∧
    getTerminator st.graph pre = getTerminator g pre := by
  obtain ⟨cands, hc, hr⟩ := hoist_of_preheader hp h
  have hpre : L.contains pre = false := by simpa [Loop.contains] using hout
  cases ht : getTerminator g pre with
  | none =>
    have e := relocate_no_terminator cands (by exact ht) hr
    subst e
    refine ⟨rfl, List.Perm.refl _, hnd, by simp, by simp, fun _ _ _ => rfl, by simp, ht⟩
  | some t =>
    obtain ⟨hinv, hsub⟩ := sweepInv_relocate hpre cands (sweepInv_init g L dt pre) hr
    have hlay := layoutInv_relocate hpre cands (layoutInv_init hnd ht) hr
    have hfrom : ∀ x, x ∈ st.hoisted → x ∈ g.layout ∧ L.contains (g.parent x) = true := by
      intro x hx
      refine ⟨?_, hinv.moved_from_loop x hx⟩
      rcases hsub x hx with h0 | h0
      · simp at h0
      · exact (mem_loopInsts.mp ((collectInvariants_mem _ hc x).mp h0).1).1
    have hnotpre : ∀ x, x ∈ g.insts pre → x ∉ st.hoisted := by
      intro x hx hmem
      have := (hfrom x hmem).2
      rw [(mem_insts.mp hx).2, hpre] at this
      exact Bool.noConfusion this
    have hlast := (getTerminator_some ht).1
    refine ⟨hinv.instr_eq, ?_, hlay.nodup, hfrom, hlay.other_insts, ?_, ?_, hlay.terminator⟩
    · rw [List.perm_ext_iff_of_nodup hlay.nodup hnd]
      intro x
      rw [hinv.mem_layout]
      constructor
      · rintro (h0 | h0)
        · exact h0
        · exact (hfrom x h0).1
      · exact fun h0 => Or.inl h0
    · intro b hb hbl
      rw [hlay.other_insts b hb, List.filter_eq_self]
      intro x hx
      simp only [decide_eq_true_eq]
      intro hmem
      have := (hfrom x hmem).2
      rw [(mem_insts.mp hx).2] at this
      exact hbl (by simpa [Loop.contains] using this)
    · rw [hlay.pre_insts, List.filter_append, List.filter_append]
      have h1 : ((g.insts pre).dropLast).filter (fun x => decide (x ∉ st.hoisted)) =
          (g.insts pre).dropLast := by
        rw [List.filter_eq_self]
        intro x hx
        simp only [decide_eq_true_eq]
        exact hnotpre x (List.mem_of_mem_dropLast hx)
      have h2 : st.hoisted.filter (fun x => decide (x ∉ st.hoisted)) = [] := by
        rw [List.filter_eq_nil_iff]
        intro x hx
        simp [hx]
      have h3 : [t].filter (fun x => decide (x ∉ st.hoisted)) = [t] := by
        rw [List.filter_eq_self]
        intro x hx
        simp only [List.mem_singleton] at hx
        simp only [decide_eq_true_eq]
        apply hnotpre
        rw [hx, hlast]
        simp
      rw [h1, h2, h3, List.append_nil]
      exact hlast.symm

/-- Witness for C11 on scenario A. -/
theorem hoist_frame_effect_witness :
    scenarioAResult.graph.instr = scenarioAGraph.instr ∧
    scenarioAResult.graph.layout.Perm scenarioAGraph.layout ∧
    scenarioAResult.graph.layout.Nodup ∧
    (∀ x, x ∈ scenarioAResult.hoisted →
      x ∈ scenarioAGraph.layout ∧ scenarioALoop.contains (scenarioAGraph.parent x) = true) ∧
    (∀ b, b ≠ 0 → scenarioAResult.graph.insts b =
      (scenarioAGraph.insts b).filter (fun x => decide (x ∉ scenarioAResult.hoisted))) ∧
    (∀ b, b ≠ 0 → b ∉ scenarioALoop.blocks →
      scenarioAResult.graph.insts b = scenarioAGraph.insts b) ∧
    (scenarioAResult.graph.insts 0).filter (fun x => decide (x ∉ scenarioAResult.hoisted)) =
      scenarioAGraph.insts 0 ∧
    getTerminator scenarioAResult.graph 0 = getTerminator scenarioAGraph 0 :=
  hoist_frame_effect 3 scenarioAGraph scenarioALoop lineDT 0 scenarioAResult rfl
    (by decide) (by decide) rfl

/-- The classifier against its reference definition: `isLoopInvariant`
coincides with the definition of section 4.1 for every budget; whenever it
returns, it returns `true` exactly when the block of the instruction is
outside the loop, or the instruction is an in-loop load that the memory-write
check accepts, or it is an in-loop non-load all of whose operands are
constants, parameters, instructions outside the loop, or in-loop instructions
that are not merge nodes of its own block and are themselves classified
invariant; and it returns whenever its recursion is well-founded and the
budget exceeds the rank of the instruction. -/
theorem isLoopInvariant_refines_spec (g : Graph) (L : Loop) :
    (∀ fuel i, isLoopInvariant g L fuel i = isInvariantSpec g L fuel i) ∧
    (∀ fuel i b, isLoopInvariant g L fuel i = some b →
      (b = true ↔
        (L.contains (g.parent i) = false ∨
          (L.contains (g.parent i) = true ∧ (g.instr i).opcode = Opcode.load ∧
            isInvariantLoad g L i = true) ∨
          (L.contains (g.parent i) = true ∧ (g.instr i).opcode ≠ Opcode.load ∧
            ∀ op, op ∈ (g.instr i).operands →
              OperandOK g L i (fun j => ∃ f, isLoopInvariant g L f j = some true) op)))) ∧
    (∀ rank : Nat → Nat, (∀ i j, Traversed g L i j → rank j < rank i) →
      ∀ fuel i, rank i < fuel → ∃ b, isLoopInvariant g L fuel i = some b) := by
  refine ⟨fun fuel i => isLoopInvariant_eq_spec g L fuel i, ?_, ?_⟩
  · intro fuel i b h
    cases fuel with
    | zero => simp [isLoopInvariant] at h
    | succ n =>
      rw [isLoopInvariant] at h
      by_cases h1 : L.contains (g.parent i) = false
      · rw [if_pos h1] at h
        have e : true = b := Option.some.inj h
        subst e
        simp [h1]
      · have h1t : L.contains (g.parent i) = true := by simpa using h1
        rw [if_neg h1] at h
        by_cases h2 : (g.instr i).opcode = Opcode.load
        · rw [if_pos h2] at h
          have e : isInvariantLoad g L i = b := Option.some.inj h
          subst e
          simp [h1t, h2]
        · rw [if_neg h2] at h
          constructor
          · intro hb
            subst hb
            right; right
            refine ⟨h1t, h2, ?_⟩
            intro op hop
            cases op with
            | const m => trivial
            | arg m => trivial
            | other m => exact absurd hop (checkOperands_true_no_other _ h m)
            | inst j =>
              by_cases hj : L.contains (g.parent j) = true
              · obtain ⟨hp, hr⟩ := checkOperands_true _ h j hop hj
                exact Or.inr ⟨hp, n, hr⟩
              · exact Or.inl (by simpa using hj)
          · rintro (h0 | ⟨_, h0, _⟩ | ⟨_, _, hops⟩)
            · exact absurd h0 h1
            · exact absurd h0 h2
            · cases b with
              | true => rfl
              | false =>
                exfalso
                rcases checkOperands_false _ h with ⟨m, hm⟩ | ⟨j, hj, hin, hbad⟩
                · exact hops _ hm
                · rcases hops _ hj with hout | ⟨hnp, f, hf⟩
                  · rw [hin] at hout
                    exact Bool.noConfusion hout
                  · rcases hbad with hphi | hfalse
                    · exact hnp hphi
                    · have := isLoopInvariant_deterministic hf hfalse
                      exact Bool.noConfusion this
  · intro rank hrank fuel i hlt
    have hne := isLoopInvariant_terminates rank hrank fuel i hlt
    cases hv : isLoopInvariant g L fuel i with
    | none => exact absurd hv hne
    | some b => exact ⟨b, rfl⟩


/-- C13 (the classifier against its reference definition, refuted on the
code): in `otherOperandGraph` the in-loop call `15` is not a load and has an
operand of another kind, so its reference verdict is "not invariant"; the
classifier first recurses into the operand `13`, which feeds the header merge
node `11` of another block, and returns nothing for any recursion budget. -/
theorem isLoopInvariant_diverges_before_other_operand :
    countedLoop.contains (otherOperandGraph.parent 15) = true ∧
      (otherOperandGraph.instr 15).opcode ≠ Opcode.load ∧
      (otherOperandGraph.instr 15).operands = [Value.inst 13, Value.other 0] ∧
      ¬ OperandOK otherOperandGraph countedLoop 15
        (fun j => ∃ f, isLoopInvariant otherOperandGraph countedLoop f j = some true)
        (Value.other 0) ∧
      ∀ fuel, isLoopInvariant otherOperandGraph countedLoop fuel 15 = none ∧
        isLoopInvariant otherOperandGraph countedLoop fuel 13 = none ∧
        isLoopInvariant otherOperandGraph countedLoop fuel 11 = none := by
  have key : ∀ fuel, isLoopInvariant otherOperandGraph countedLoop fuel 11 = none ∧
      isLoopInvariant otherOperandGraph countedLoop fuel 13 = none := by
    intro fuel
    induction fuel with
    | zero => exact ⟨rfl, rfl⟩
    | succ n ih =>
      obtain ⟨h1, h2⟩ := ih
      constructor
      · rw [isLoopInvariant, if_neg (by decide), if_neg (by decide)]
        show checkOperands otherOperandGraph countedLoop _ 11
          [Value.const 0, Value.inst 13] = none
        rw [checkOperands, checkOperands, if_pos (by decide), if_neg (by decide), h2]
      · rw [isLoopInvariant, if_neg (by decide), if_neg (by decide)]
        show checkOperands otherOperandGraph countedLoop _ 13
          [Value.inst 11, Value.const 1] = none
        rw [checkOperands, if_pos (by decide), if_neg (by decide), h1]
  refine ⟨by decide, by decide, rfl, fun h => h, ?_⟩
  intro fuel
  refine ⟨?_, (key fuel).2, (key fuel).1⟩
  cases fuel with
  | zero => rfl
  | succ n =>
    rw [isLoopInvariant, if_neg (by decide), if_neg (by decide)]
    show checkOperands otherOperandGraph countedLoop _ 15
      [Value.inst 13, Value.other 0] = none
    rw [checkOperands, if_pos (by decide), if_neg (by decide), (key n).2]
/-- C14 (the memory-write check): `isInvariantLoad` coincides with the
definition of section 4.2; it is `false` exactly when some store located in a
block of the loop has the address operand of the read, `true` exactly when no
such store exists, and it depends on nothing but the instruction sequences of
the loop blocks, their instructions and the address operand of the read. -/
theorem isInvariantLoad_iff (g : Graph) (L : Loop) (r : Nat) :
    isInvariantLoad g L r = isInvariantReadSpec g L r ∧
    (isInvariantLoad g L r = false ↔
      ∃ s, s ∈ g.layout ∧ L.contains (g.parent s) = true ∧
        (g.instr s).opcode = Opcode.store ∧
        getPointerOperand (g.instr s) = getPointerOperand (g.instr r)) ∧
    (isInvariantLoad g L r = true ↔
      ∀ s, s ∈ g.layout → L.contains (g.parent s) = true →
        (g.instr s).opcode = Opcode.store →
        getPointerOperand (g.instr s) ≠ getPointerOperand (g.instr r)) ∧
    (∀ g2 : Graph, (∀ b, b ∈ L.blocks → g2.insts b = g.insts b) →
      (∀ s, s ∈ loopInsts g L → g2.instr s = g.instr s) →
      getPointerOperand (g2.instr r) = getPointerOperand (g.instr r) →
      isInvariantLoad g2 L r = isInvariantLoad g L r) := by
  refine ⟨isInvariantLoad_eq_spec g L r, isInvariantLoad_eq_false_iff, ?_, ?_⟩
  · constructor
    · intro h s h1 h2 h3 h4
      have := isInvariantLoad_eq_false_iff.mpr ⟨s, h1, h2, h3, h4⟩
      rw [h] at this
      exact Bool.noConfusion this
    · intro h
      cases hv : isInvariantLoad g L r with
      | true => rfl
      | false =>
        obtain ⟨s, h1, h2, h3, h4⟩ := isInvariantLoad_eq_false_iff.mp hv
        exact absurd h4 (h s h1 h2 h3)
  · intro g2 hins hinstr hptr
    have hl : loopInsts g2 L = loopInsts g L := by
      unfold loopInsts
      apply List.flatMap_congr
      intro b hb
      exact hins b hb
    rw [isInvariantLoad_eq_spec, isInvariantLoad_eq_spec]
    unfold isInvariantReadSpec
    rw [hl, hptr, Bool.eq_iff_iff, List.all_eq_true, List.all_eq_true]
    constructor
    · intro h s hs
      have := h s hs
      rw [hinstr s hs] at this
      exact this
    · intro h s hs
      rw [hinstr s hs]
      exact h s hs

/-- C16 (the classifier follows the operands of non-loads): when the
classifier returns `true` for an in-loop instruction that is not a load,
every operand that is an in-loop instruction is not a merge node of the same
block and is classified invariant with a smaller budget; the same holds for
every in-loop instruction reached from it through operand references that
pass only through in-loop non-loads. -/
theorem invariant_nonload_operands_invariant (g : Graph) (L : Loop) (fuel i : Nat)
    (hin : L.contains (g.parent i) = true) (hnl : (g.instr i).opcode ≠ Opcode.load)
    (h : isLoopInvariant g L fuel i = some true) :
    (∀ j, Value.inst j ∈ (g.instr i).operands → L.contains (g.parent j) = true →
      ¬ ((g.instr j).opcode = Opcode.phi ∧ g.parent j = g.parent i) ∧
      ∃ f, f < fuel ∧ isLoopInvariant g L f j = some true) ∧
    (∀ xs j, usesChain g i xs j →
      (∀ x, x ∈ xs → L.contains (g.parent x) = true ∧ (g.instr x).opcode ≠ Opcode.load) →
      L.contains (g.parent j) = true → ∃ f, isLoopInvariant g L f j = some true) := by
  have direct : ∀ fuel i, L.contains (g.parent i) = true →
      (g.instr i).opcode ≠ Opcode.load → isLoopInvariant g L fuel i = some true →
      ∀ j, Value.inst j ∈ (g.instr i).operands → L.contains (g.parent j) = true →
        ¬ ((g.instr j).opcode = Opcode.phi ∧ g.parent j = g.parent i) ∧
        ∃ f, f < fuel ∧ isLoopInvariant g L f j = some true := by
    intro fuel i hin hnl h j hj hjin
    cases fuel with
    | zero => simp [isLoopInvariant] at h
    | succ n =>
      rw [isLoopInvariant, if_neg (by rw [hin]; simp), if_neg hnl] at h
      obtain ⟨h1, h2⟩ := checkOperands_true _ h j hj hjin
      exact ⟨h1, n, Nat.lt_succ_self n, h2⟩
  refine ⟨direct fuel i hin hnl h, ?_⟩
  intro xs
  induction xs generalizing fuel i with
  | nil =>
    intro j hch _ hjin
    obtain ⟨_, f, _, hf⟩ := direct fuel i hin hnl h j hch hjin
    exact ⟨f, hf⟩
  | cons x xs ih =>
    intro j hch hxs hjin
    obtain ⟨hxin, hxnl⟩ := hxs x (by simp)
    obtain ⟨_, f, _, hf⟩ := direct fuel i hin hnl h x hch.1 hxin
    exact ih f x hxin hxnl hf j hch.2 (fun y hy => hxs y (List.mem_cons_of_mem _ hy)) hjin

/-- Witness for C16 on scenario A: the multiplication `23` and its operand,
the addition `20`. -/
theorem invariant_nonload_operands_invariant_witness :
    (∀ j, Value.inst j ∈ (scenarioAGraph.instr 23).operands →
      scenarioALoop.contains (scenarioAGraph.parent j) = true →
      ¬ ((scenarioAGraph.instr j).opcode = Opcode.phi ∧
        scenarioAGraph.parent j = scenarioAGraph.parent 23) ∧
      ∃ f, f < 2 ∧ isLoopInvariant scenarioAGraph scenarioALoop f j = some true) ∧
    (∀ xs j, usesChain scenarioAGraph 23 xs j →
      (∀ x, x ∈ xs → scenarioALoop.contains (scenarioAGraph.parent x) = true ∧
        (scenarioAGraph.instr x).opcode ≠ Opcode.load) →
      scenarioALoop.contains (scenarioAGraph.parent j) = true →
      ∃ f, isLoopInvariant scenarioAGraph scenarioALoop f j = some true) :=
  invariant_nonload_operands_invariant scenarioAGraph scenarioALoop 2 23 (by decide)
    (by decide) (by decide)

/-- Counterexample to C16 as stated: in `loadOfCounterGraph` the load `13` is
classified invariant although its address operand, the in-loop addition `12`,
is classified non-invariant (it uses the merge node `11` of its own block). -/
theorem load_invariant_with_variant_operand :
    singleBlockLoop.contains (loadOfCounterGraph.parent 13) = true ∧
      (loadOfCounterGraph.instr 13).operands = [Value.inst 12] ∧
      singleBlockLoop.contains (loadOfCounterGraph.parent 12) = true ∧
      ∀ fuel,
        isLoopInvariant loadOfCounterGraph singleBlockLoop (fuel + 1) 13 = some true ∧
        isLoopInvariant loadOfCounterGraph singleBlockLoop (fuel + 1) 12 = some false ∧
        isLoopInvariant loadOfCounterGraph singleBlockLoop (fuel + 2) 11 = some false := by
  refine ⟨by decide, rfl, by decide, ?_⟩
  intro fuel
  have h12 : ∀ n, isLoopInvariant loadOfCounterGraph singleBlockLoop (n + 1) 12 =
      some false := by
    intro n
    rw [isLoopInvariant, if_neg (by decide), if_neg (by decide)]
    show checkOperands loadOfCounterGraph singleBlockLoop _ 12
      [Value.inst 11, Value.const 1] = some false
    rw [checkOperands, if_pos (by decide), if_pos (by decide)]
  refine ⟨rfl, h12 fuel, ?_⟩
  rw [isLoopInvariant, if_neg (by decide), if_neg (by decide)]
  show checkOperands loadOfCounterGraph singleBlockLoop _ 11
    [Value.const 0, Value.inst 12] = some false
  rw [checkOperands, checkOperands, if_pos (by decide), if_neg (by decide), h12 fuel]

/-- C18 (a single sweep is not a fixed point): on `outOfOrderGraph` the user
`21` is collected before its operand `20`; the first call defers `21`,
relocates `20` and returns `true`, although at the end of that call `21`
passes every gate; the second call relocates `21` and returns `true`; the
third returns `false`.  In general a candidate that occurs once in the
candidate list and is deferred for operand readiness at its turn is not
relocated by that call. -/
theorem single_sweep_not_fixed_point :
    (collectInvariants outOfOrderGraph outOfOrderLoop 2
        (loopInsts outOfOrderGraph outOfOrderLoop) = some [21, 20] ∧
      Value.inst 20 ∈ (outOfOrderGraph.instr 21).operands ∧
      allOperandsAvailable outOfOrderGraph outOfOrderLoop 21 = false ∧
      hoistInvariantInstructions 2 outOfOrderGraph outOfOrderLoop lineDT =
        some outOfOrderFirst ∧
      outOfOrderFirst.changed = true ∧ outOfOrderFirst.hoisted = [20] ∧
      outOfOrderFirst.graph.insts 0 = [20, 10] ∧
      outOfOrderFirst.graph.insts 1 = [21, 22] ∧
      Gate outOfOrderFirst.graph outOfOrderLoop lineDT 0 21 ∧
      hoistInvariantInstructions 2 outOfOrderFirst.graph outOfOrderLoop lineDT =
        some outOfOrderSecond ∧
      outOfOrderSecond.changed = true ∧ outOfOrderSecond.hoisted = [21] ∧
      outOfOrderSecond.graph.insts 0 = [20, 21, 10] ∧
      hoistInvariantInstructions 2 outOfOrderSecond.graph outOfOrderLoop lineDT =
        some (HoistState.mk outOfOrderSecond.graph false [])) ∧
    (∀ (fuel : Nat) (g : Graph) (L : Loop) (dt : DominatorTree) (pre : Nat)
        (st before : HoistState) (cs1 cs2 : List Nat) (i : Nat),
      L.preheader = some pre → hoistInvariantInstructions fuel g L dt = some st →
      collectInvariants g L fuel (loopInsts g L) = some (cs1 ++ i :: cs2) →
      i ∉ cs1 → i ∉ cs2 →
      relocate L dt pre (HoistState.mk g false []) cs1 = some before →
      allOperandsAvailable before.graph L i = false →
      i ∉ st.hoisted ∧ st.graph.parent i = g.parent i) := by
  refine ⟨⟨by decide, by decide, by decide, rfl, rfl, rfl, by decide, by decide, by decide,
    rfl, rfl, rfl, by decide, rfl⟩, ?_⟩
  intro fuel g L dt pre st before cs1 cs2 i hp h hc h1 h2 hr1 hna
  obtain ⟨cands, hc1, hr⟩ := hoist_of_preheader hp h
  rw [hc] at hc1
  have e : cs1 ++ i :: cs2 = cands := Option.some.inj hc1
  subst e
  rw [relocate_append, hr1] at hr
  simp only [Option.some_bind, relocate] at hr
  have hng : ¬ Gate before.graph L dt pre i := by
    intro hg
    rw [hg.2.1] at hna
    exact Bool.noConfusion hna
  rw [hoistStep_of_not_gate hng] at hr
  simp only at hr
  have hb := (relocate_frame cs1 hr1).2.2.2.2
  have hib : i ∉ before.hoisted := by
    intro hmem
    rcases hb i hmem with h0 | h0
    · simp at h0
    · exact h1 h0.1
  have hf := relocate_frame cs2 hr
  have hi : i ∉ st.hoisted := by
    intro hmem
    rcases hf.2.2.2.2 i hmem with h0 | h0
    · exact hib h0
    · exact h2 h0.1
  refine ⟨hi, ?_⟩
  rw [hf.2.1 i hi, (relocate_frame cs1 hr1).2.1 i hib]

/-- C19 (order in the preheader): after a call of the sweep on a loop whose
preheader ends in the terminator `t`, the preheader holds its original
instructions before `t`, then the relocated instructions in the order in
which they were collected as candidates, then `t`; a relocated instruction
stands after every relocated instruction that it uses as an operand. -/
theorem preheader_sequence_after_hoist (fuel : Nat) (g : Graph) (L : Loop)
    (dt : DominatorTree) (pre t : Nat) (st : HoistState) (hp : L.preheader = some pre)
    (hout : pre ∉ L.blocks) (hnd : g.layout.Nodup) (ht : getTerminator g pre = some t)
    (h : hoistInvariantInstructions fuel g L dt = some st) :
    g.insts pre = (g.insts pre).dropLast ++ [t] ∧
    st.graph.insts pre = (g.insts pre).dropLast ++ st.hoisted ++ [t] ∧
    (∃ cands, collectInvariants g L fuel (loopInsts g L) = some cands ∧
      st.hoisted.Sublist cands) ∧
    (∀ x y, x ∈ st.hoisted → y ∈ st.hoisted → Value.inst y ∈ (g.instr x).operands →
      ∃ A B C, st.hoisted = A ++ y :: B ++ x :: C) := by
  obtain ⟨cands, hc, hr⟩ := hoist_of_preheader hp h
  have hpre : L.contains pre = false := by simpa [Loop.contains] using hout
  obtain ⟨hinv, _⟩ := sweepInv_relocate hpre cands (sweepInv_init g L dt pre) hr
  have hlay := layoutInv_relocate hpre cands (layoutInv_init hnd ht) hr
  refine ⟨(getTerminator_some ht).1, hlay.pre_insts, ⟨cands, hc, ?_⟩, ?_⟩
  · obtain ⟨ext, he, hsub⟩ := relocate_hoisted_sublist cands hr
    simp only [List.nil_append] at he
    rw [he]
    exact hsub
  · intro x y hx hy hop
    rcases relocate_trace cands hr x hx with h0 | ⟨cs1, cs2, before, t1, _, hr1, _, hg, _, hr2⟩
    · simp at h0
    · have hinvB := (sweepInv_relocate hpre cs1 (sweepInv_init g L dt pre) hr1).1
      have hyout : L.contains (before.graph.parent y) = false := by
        apply allOperandsAvailable_iff.mp hg.2.1
        rw [hinvB.instr_eq]
        exact hop
      have hyb : y ∈ before.hoisted := by
        by_contra hn
        rw [hinvB.parent_keep y hn, hinv.moved_from_loop y hy] at hyout
        exact Bool.noConfusion hyout
      obtain ⟨ext, he, _⟩ := relocate_hoisted_sublist cs2 hr2
      obtain ⟨A, B, hAB⟩ := List.append_of_mem hyb
      refine ⟨A, B, ext, ?_⟩
      rw [he]
      simp only [hAB]
      simp

/-- Witness for C19 on scenario A: the preheader ends up as `[20, 23, 10]`. -/
theorem preheader_sequence_after_hoist_witness :
    scenarioAGraph.insts 0 = (scenarioAGraph.insts 0).dropLast ++ [10] ∧
    scenarioAResult.graph.insts 0 =
      (scenarioAGraph.insts 0).dropLast ++ scenarioAResult.hoisted ++ [10] ∧
    (∃ cands, collectInvariants scenarioAGraph scenarioALoop 3
        (loopInsts scenarioAGraph scenarioALoop) = some cands ∧
      scenarioAResult.hoisted.Sublist cands) ∧
    (∀ x y, x ∈ scenarioAResult.hoisted → y ∈ scenarioAResult.hoisted →
      Value.inst y ∈ (scenarioAGraph.instr x).operands →
      ∃ A B C, scenarioAResult.hoisted = A ++ y :: B ++ x :: C) :=
  preheader_sequence_after_hoist 3 scenarioAGraph scenarioALoop lineDT 0 10 scenarioAResult
    rfl (by decide) (by decide) (by decide) rfl

/-- C20 (operand cycles inside the loop): an instruction that reaches itself
through operand references among instructions located in loop blocks, and
every instruction on that cycle, is not relocated by a call of the sweep nor
by any number of successive calls, whatever the classifier answers for it. -/
theorem operand_cycle_never_relocated (g : Graph) (L : Loop) (v : Nat) (xs : List Nat)
    (hch : usesChain g v xs v)
    (hin : ∀ x, x ∈ v :: xs → L.contains (g.parent x) = true) :
    (∀ fuel dt st, hoistInvariantInstructions fuel g L dt = some st →
      ∀ x, x ∈ v :: xs → x ∉ st.hoisted ∧ st.graph.parent x = g.parent x) ∧
    (∀ fuel dt n g1, hoistRepeat fuel L dt n g = some g1 →
      ∀ x, x ∈ v :: xs → g1.parent x = g.parent x) := by
  have hin1 : ∀ x, (x = v ∨ x ∈ xs) → L.contains (g.parent x) = true :=
    fun x hx => hin x (List.mem_cons.mpr hx)
  have hS : ∀ x, (x = v ∨ x ∈ xs) →
      ∃ j, (j = v ∨ j ∈ xs) ∧ Value.inst j ∈ (g.instr x).operands :=
    usesChain_closed xs v hch
  constructor
  · intro fuel dt st h x hx
    obtain ⟨h1, h2⟩ := hoist_closed_set (S := fun x => x = v ∨ x ∈ xs) hS hin1 h
    exact ⟨h2 x (List.mem_cons.mp hx), h1 x (List.mem_cons.mp hx)⟩
  · intro fuel dt n g1 h x hx
    exact (hoistRepeat_closed_set (S := fun x => x = v ∨ x ∈ xs) n hS hin1 h).2 x
      (List.mem_cons.mp hx)

/-- Witness for C20: the merge node `11` and the load `12` of `phiLoadGraph`,
both classified invariant, stay in the loop over three successive calls. -/
theorem operand_cycle_never_relocated_witness :
    isLoopInvariant phiLoadGraph singleBlockLoop 2 11 = some true ∧
    isLoopInvariant phiLoadGraph singleBlockLoop 2 12 = some true ∧
    hoistRepeat 2 singleBlockLoop lineDT 3 phiLoadGraph = some phiLoadGraph ∧
    (∀ fuel dt st, hoistInvariantInstructions fuel phiLoadGraph singleBlockLoop dt = some st →
      ∀ x, x ∈ [11, 12] → x ∉ st.hoisted ∧ st.graph.parent x = phiLoadGraph.parent x) ∧
    (∀ fuel dt n g1, hoistRepeat fuel singleBlockLoop dt n phiLoadGraph = some g1 →
      ∀ x, x ∈ [11, 12] → g1.parent x = phiLoadGraph.parent x) :=
  have T := operand_cycle_never_relocated phiLoadGraph singleBlockLoop 11 [12] (by decide)
    (by decide)
  ⟨by decide, by decide, rfl, T.1, T.2⟩
theorem scenarioARank_decreases :
    ∀ i j, Traversed scenarioAGraph scenarioALoop i j → scenarioARank j < scenarioARank i := by
  intro i j h
  obtain ⟨_, _, h3, h4, _⟩ := h
  by_cases h23 : i = 23
  · subst h23
    have hj : j = 20 := by
      have : Value.inst j ∈ [Value.inst 20, Value.const 2] := h3
      simpa using this
    subst hj
    decide
  · by_cases h21 : i = 21
    · subst h21
      have hj : j = 23 := by
        have : Value.inst j ∈ [Value.const 7, Value.inst 23] := h3
        simpa using this
      subst hj
      decide
    · by_cases h20 : i = 20
      · subst h20
        have : Value.inst j ∈ [Value.arg 0, Value.arg 1] := h3
        simp at this
      · exfalso
        have : (scenarioAGraph.instr i).operands = [] := by
          unfold scenarioAGraph
          simp only
          rfl
        rw [this] at h3
        simp at h3

/-- C17 (a chain in dependency order moves in one sweep, as the code has
it): in a loop whose preheader lies outside the loop and ends in a
terminator, and on which the recursion of the classifier is well-founded,
take instructions of the loop listed in enumeration order, each classified
invariant, not a terminator, without side effects, safe to speculate, with
all users in blocks that the preheader dominates, and such that every
instruction operand of each is outside the loop or an earlier member of the
list; one call of the sweep with a sufficient budget returns and relocates
all of them into the preheader. -/
theorem chain_relocated_in_one_sweep (fuel : Nat) (g : Graph) (L : Loop)
    (dt : DominatorTree) (pre t : Nat) (rank : Nat → Nat) (chain : List Nat)
    (hp : L.preheader = some pre) (hout : pre ∉ L.blocks) (hnd : g.layout.Nodup)
    (ht : getTerminator g pre = some t)
    (hrank : ∀ i j, Traversed g L i j → rank j < rank i)
    (hfuel : ∀ i, i ∈ loopInsts g L → rank i < fuel)
    (hsub : chain.Sublist (loopInsts g L)) (hready : ChainReady g L [] chain)
    (helig : ∀ x, x ∈ chain → (g.instr x).isTerminator = false ∧
      isLoopInvariant g L fuel x = some true ∧
      (g.instr x).mayHaveSideEffects = false ∧
      (g.instr x).isSafeToSpeculativelyExecute = true ∧
      ∀ u, u ∈ g.users x → dt.dominates pre (g.parent u) = true) :
    ∃ st, hoistInvariantInstructions fuel g L dt = some st ∧
      ∀ x, x ∈ chain → x ∈ st.hoisted ∧ st.graph.parent x = pre ∧
        x ∈ st.graph.insts pre := by
  have hpre : L.contains pre = false := by simpa [Loop.contains] using hout
  have hterm : ∀ i, i ∈ loopInsts g L → isLoopInvariant g L fuel i ≠ none :=
    fun i hi => isLoopInvariant_terminates rank hrank fuel i (hfuel i hi)
  obtain ⟨cands, hc⟩ := collectInvariants_total (loopInsts g L) hterm
  obtain ⟨st, hr⟩ := @relocate_total g L dt pre t hpre cands _ (layoutInv_init hnd ht)
  have hinv := (sweepInv_relocate hpre cands (sweepInv_init g L dt pre) hr).1
  have hlay := layoutInv_relocate hpre cands (layoutInv_init hnd ht) hr
  have hsubc : chain.Sublist cands := by
    rw [collectInvariants_eq_filter _ hc]
    have hf : chain.filter (fun x => !(g.instr x).isTerminator &&
        decide (isLoopInvariant g L fuel x = some true)) = chain := by
      rw [List.filter_eq_self]
      intro x hx
      obtain ⟨e1, e2, _⟩ := helig x hx
      simp [e1, e2]
    rw [← hf]
    exact hsub.filter _
  have hall := relocate_hoists_chain hpre cands (sweepInv_init g L dt pre) hsubc
    (fun j hj => by simp at hj) hready
    (fun x hx => ⟨(mem_loopInsts.mp (hsub.subset hx)).2, (helig x hx).2.2.1,
      (helig x hx).2.2.2.1, (helig x hx).2.2.2.2⟩) hr
  refine ⟨st, ?_, ?_⟩
  · unfold hoistInvariantInstructions
    rw [hp]
    simp only [hc, hr]
  · intro x hx
    have hmem := hall x hx
    refine ⟨hmem, hinv.parent_moved x hmem, ?_⟩
    rw [hlay.pre_insts]
    simp [hmem]

/-- Witness for C17 on scenario A: the chain `20`, `23`. -/
theorem chain_relocated_in_one_sweep_witness :
    ∃ st, hoistInvariantInstructions 3 scenarioAGraph scenarioALoop lineDT = some st ∧
      ∀ x, x ∈ [20, 23] → x ∈ st.hoisted ∧ st.graph.parent x = 0 ∧
        x ∈ st.graph.insts 0 :=
  chain_relocated_in_one_sweep 3 scenarioAGraph scenarioALoop lineDT 0 10 scenarioARank
    [20, 23] rfl (by decide) (by decide) (by decide) scenarioARank_decreases (by decide)
    (by decide)
    ⟨fun j hj => absurd (show Value.inst j ∈ [Value.arg 0, Value.arg 1] from hj) (by simp),
      fun j hj => Or.inr (by
        have : Value.inst j ∈ [Value.inst 20, Value.const 2] := hj
        simpa using this),
      trivial⟩
    (by decide)

/-- Counterexample to C17 as stated: in `blockedChainGraph` the chain `20`,
`21` consists of invariant instructions without side effects, safe to
speculate, with dominated users, enumerated in dependency order; yet one
call of the sweep relocates only `20`, because the other operand `24` of
`21` stays in the loop (it is not safe to speculate). -/
theorem chain_with_blocked_operand_not_relocated :
    loopInsts blockedChainGraph singleBlockLoop = [20, 24, 21, 22] ∧
      Value.inst 20 ∈ (blockedChainGraph.instr 21).operands ∧
      (∀ x, x ∈ [20, 21] →
        isLoopInvariant blockedChainGraph singleBlockLoop 2 x = some true ∧
        (blockedChainGraph.instr x).isTerminator = false ∧
        (blockedChainGraph.instr x).mayHaveSideEffects = false ∧
        (blockedChainGraph.instr x).isSafeToSpeculativelyExecute = true ∧
        ∀ u, u ∈ blockedChainGraph.users x →
          lineDT.dominates 0 (blockedChainGraph.parent u) = true) ∧
      ∀ fuel, hoistInvariantInstructions (fuel + 2) blockedChainGraph singleBlockLoop lineDT =
        some (HoistState.mk (moveBefore blockedChainGraph 20 10) true [20]) := by
  refine ⟨by decide, by decide, by decide, ?_⟩
  intro fuel
  rfl
theorem outOfOrderRank_decreases :
    ∀ i j, Traversed outOfOrderGraph outOfOrderLoop i j →
      outOfOrderRank j < outOfOrderRank i := by
  intro i j h
  obtain ⟨_, _, h3, _, _⟩ := h
  by_cases h21 : i = 21
  · subst h21
    have hj : j = 20 := by
      have : Value.inst j ∈ [Value.inst 20, Value.const 2] := h3
      simpa using this
    subst hj
    decide
  · by_cases h20 : i = 20
    · subst h20
      have : Value.inst j ∈ [Value.arg 0, Value.arg 1] := h3
      simp at this
    · exfalso
      have : (outOfOrderGraph.instr i).operands = [] := by
        unfold outOfOrderGraph
        simp only
        rfl
      rw [this] at h3
      simp at h3

/-- C12 (convergence over repeated calls, as the code has it): in a loop
whose preheader lies outside the loop and ends in a terminator, and on which
the recursion of the classifier is well-founded, take `N` instructions of the
loop, each classified invariant, not a terminator, without side effects, safe
to speculate, with all users in blocks that the preheader dominates, and such
that every instruction operand of each is outside the loop or an earlier
member of the list; in whatever order the loop enumerates them, `N` calls of
the sweep return and leave all of them in the preheader, and so does any
larger number of calls.  For every call on a graph without duplicate
instructions, the number of instructions in loop blocks does not increase,
decreases when the call returns `true`, and when the call returns `false` the
graph is unchanged and stays so under any number of further calls. -/
theorem chain_converges (fuel : Nat) (g : Graph) (L : Loop) (dt : DominatorTree)
    (pre t : Nat) (rank : Nat → Nat) (chain : List Nat)
    (hp : L.preheader = some pre) (hout : pre ∉ L.blocks) (hnd : g.layout.Nodup)
    (ht : getTerminator g pre = some t)
    (hrank : ∀ i j, Traversed g L i j → rank j < rank i)
    (hfuel : ∀ i, i ∈ loopInsts g L → rank i < fuel)
    (hready : ChainReady g L [] chain)
    (helig : ∀ x, x ∈ chain → x ∈ g.layout ∧ L.contains (g.parent x) = true ∧
      (g.instr x).isTerminator = false ∧ isLoopInvariant g L fuel x = some true ∧
      (g.instr x).mayHaveSideEffects = false ∧
      (g.instr x).isSafeToSpeculativelyExecute = true ∧
      ∀ u, u ∈ g.users x → dt.dominates pre (g.parent u) = true) :
    (∀ n, chain.length ≤ n → ∃ g1, hoistRepeat fuel L dt n g = some g1 ∧
      ∀ x, x ∈ chain → g1.parent x = pre ∧ x ∈ g1.insts pre) ∧
    (∀ g1 st, g1.layout.Nodup → hoistInvariantInstructions fuel g1 L dt = some st →
      (loopInsts st.graph L).length ≤ (loopInsts g1 L).length ∧
      (st.changed = true → (loopInsts st.graph L).length < (loopInsts g1 L).length) ∧
      (st.changed = false → st.graph = g1 ∧ ∀ n, hoistRepeat fuel L dt n g1 = some g1)) := by
  have hpre : L.contains pre = false := by simpa [Loop.contains] using hout
  constructor
  · intro n hn
    obtain ⟨g1, r1, r2, r3, _⟩ := @chain_progress g L dt pre t fuel rank hp hpre hrank hfuel chain []
      g (callInv_refl hnd ht) (fun j hj => absurd hj (by simp)) hready
      (fun x hx => ⟨(helig x hx).1, (helig x hx).2.2⟩)
    obtain ⟨g2, s1, s2, s3⟩ := @hoistRepeat_more g L dt pre t fuel rank hp hpre hrank hfuel
      (n - chain.length) g1 r2
    refine ⟨g2, ?_, ?_⟩
    · have e : n = chain.length + (n - chain.length) := by omega
      rw [e, hoistRepeat_add, r1]
      exact s1
    · intro x hx
      have hxo := s3 x (r3 x hx)
      have hpx : g2.parent x = pre := by
        rcases s2.parent x with h0 | ⟨h0, _⟩
        · rw [h0, (helig x hx).2.1] at hxo
          exact Bool.noConfusion hxo
        · exact h0
      exact ⟨hpx, mem_insts.mpr ⟨(s2.mem_layout x).mpr (helig x hx).1, hpx⟩⟩
  · intro g1 st hnd1 h
    obtain ⟨e1, e2, e3, e4⟩ := loopInsts_after_hoist hp hpre hnd1 h
    refine ⟨?_, ?_, ?_⟩
    · rw [e1]
      exact List.length_filter_le _ _
    · intro hch
      obtain ⟨x, hx⟩ := List.exists_mem_of_ne_nil _ (e3.mp hch)
      rw [e1, List.length_filter_lt_length_iff_exists]
      exact ⟨x, e2 x hx, by simp [hx]⟩
    · intro hch
      have hnil : st.hoisted = [] := by
        by_contra hne
        have := e3.mpr hne
        rw [hch] at this
        exact Bool.noConfusion this
      have hg := e4 hnil
      refine ⟨hg, ?_⟩
      intro n
      induction n with
      | zero => rfl
      | succ n ih =>
        simp only [hoistRepeat, h, hg]
        exact ih

/-- Witness for C12: the instructions `20` and `21` of `outOfOrderGraph`,
which the loop enumerates against their dependency. -/
theorem chain_converges_witness :
    (∀ n, [20, 21].length ≤ n →
      ∃ g1, hoistRepeat 2 outOfOrderLoop lineDT n outOfOrderGraph = some g1 ∧
        ∀ x, x ∈ [20, 21] → g1.parent x = 0 ∧ x ∈ g1.insts 0) ∧
    (∀ g1 st, g1.layout.Nodup →
      hoistInvariantInstructions 2 g1 outOfOrderLoop lineDT = some st →
      (loopInsts st.graph outOfOrderLoop).length ≤ (loopInsts g1 outOfOrderLoop).length ∧
      (st.changed = true →
        (loopInsts st.graph outOfOrderLoop).length < (loopInsts g1 outOfOrderLoop).length) ∧
      (st.changed = false →
        st.graph = g1 ∧ ∀ n, hoistRepeat 2 outOfOrderLoop lineDT n g1 = some g1)) :=
  chain_converges 2 outOfOrderGraph outOfOrderLoop lineDT 0 10 outOfOrderRank [20, 21]
    rfl (by decide) (by decide) (by decide) outOfOrderRank_decreases (by decide)
    ⟨fun j hj => absurd (show Value.inst j ∈ [Value.arg 0, Value.arg 1] from hj) (by simp),
      fun j hj => Or.inr (by
        have : Value.inst j ∈ [Value.inst 20, Value.const 2] := hj
        simpa using this),
      trivial⟩
    (by decide)

/-- Counterexample to C12 as stated.  In `scenarioBGraph` the load `20` is a
chain of length one (its operand is a function argument, it has no side
effects, it is safe to speculate, it has no users), but a store of the loop
writes its address, so it stays in block 1 after any number of calls.  In
`outOfOrderGraph` the addition `20` is a chain of length one that is in the
preheader after one call, yet the next call returns `true`. -/
theorem chain_not_converging_as_stated :
    ((scenarioBGraph.instr 20).operands = [Value.arg 0] ∧
      scenarioBLoop.contains (scenarioBGraph.parent 20) = true ∧
      (scenarioBGraph.instr 20).isTerminator = false ∧
      (scenarioBGraph.instr 20).mayHaveSideEffects = false ∧
      (scenarioBGraph.instr 20).isSafeToSpeculativelyExecute = true ∧
      scenarioBGraph.users 20 = [] ∧
      hoistRepeat 1 scenarioBLoop lineDT 1 scenarioBGraph = some scenarioBResult.graph ∧
      ∀ fuel n g1, hoistRepeat fuel scenarioBLoop lineDT n scenarioBGraph = some g1 →
        g1.parent 20 = 1) ∧
    ((outOfOrderGraph.instr 20).operands = [Value.arg 0, Value.arg 1] ∧
      outOfOrderLoop.contains (outOfOrderGraph.parent 20) = true ∧
      isLoopInvariant outOfOrderGraph outOfOrderLoop 2 20 = some true ∧
      hoistRepeat 2 outOfOrderLoop lineDT 1 outOfOrderGraph = some outOfOrderFirst.graph ∧
      outOfOrderFirst.graph.parent 20 = 0 ∧
      hoistInvariantInstructions 2 outOfOrderFirst.graph outOfOrderLoop lineDT =
        some outOfOrderSecond ∧
      outOfOrderSecond.changed = true) := by
  refine ⟨⟨rfl, by decide, rfl, rfl, rfl, by decide, rfl, ?_⟩,
    ⟨rfl, by decide, by decide, rfl, rfl, rfl, rfl⟩⟩
  intro fuel n g1 h
  exact @hoistRepeat_load_stays scenarioBLoop 20 23 fuel lineDT n scenarioBGraph g1 rfl
    (by decide) rfl (by decide) (by decide) rfl rfl h
end SimpleLICM
